import Mathlib

/-! The flow aggregation and eviction engine of flowtree.

A shallow embedding of `flowtree.c` (the NetFlow collector) and theorems about
its datagram decoding (`packet_callback`), its ingest path (`flow_callback`),
its per-exporter source lists, its exclusion tree (`add_exclusion`,
`is_excluded`), its eviction sweep (`thread_flow_janitor`) and the output
index of `print_flow_json`.

Conventions of the embedding

* Unsigned machine integers (`uint8_t`, `uint16_t`, `in_addr_t`, `uint64_t`)
  are natural numbers; where the C arithmetic can wrap, the reduction modulo
  `2 ^ w` is written out.
* `time_t` values are integers (signed overflow is undefined in C and is not
  modelled).
* A `pavl_table` (the AVL tree with parent pointers that flowtree.c uses
  through `pavl.h`) is represented by its in-order listing; a pointer to a
  stored item is the position of the item in that listing.
* A linked list (`flow_source_summary` chained through `next`) is a `List`.
* `malloc` is assumed to succeed.
* A datagram is the list of its bytes; its length is the `flow_size` passed
  along with it.
* A recursive C function (`add_exclusion`) takes a bound on its recursion
  depth and returns `none` when the bound is reached.
-/

namespace Flowtree

/-! ## Constants -/

/-- Number of flow trees (`#define TREES 65536`). -/
def TREES : Nat := 65536

/-- Idle-out threshold in seconds (`#define MIN_FLOW_AGE 60`). -/
def MIN_FLOW_AGE : Int := 60

/-- Hard-out threshold in seconds (`#define MAX_FLOW_AGE 300`). -/
def MAX_FLOW_AGE : Int := 300

/-- Modulus of `uint64_t` arithmetic. -/
def U64 : Nat := 2 ^ 64

/-- Modulus of `uint8_t` arithmetic. -/
def U8 : Nat := 2 ^ 8

/-! ## Data model -/

/-- The record `struct unified_flow` every wire format is converted to. -/
structure unified_flow where
  flow_src : Nat
  recv_time : Int
  src_int : Nat
  dst_int : Nat
  src_addr : Nat
  dst_addr : Nat
  protocol : Nat
  src_port : Nat
  dst_port : Nat
  tcp_flags : Nat
  num_packets : Nat
  num_bytes : Nat
  start_time : Int
  end_time : Int
deriving DecidableEq, Repr

/-- One node of the per-exporter list, `struct flow_source_summary`
(the `next` pointer is the tail of the list that holds the node). -/
structure flow_source_summary where
  flow_src : Nat
  src_int : Nat
  dst_int : Nat
  num_packets : Nat
  num_bytes : Nat
  num_flows : Nat
deriving DecidableEq, Repr

/-- The value stored in a flow tree, `struct flow_summary`. -/
structure flow_summary where
  time_added : Int
  time_updated : Int
  src_addr : Nat
  dst_addr : Nat
  protocol : Nat
  src_port : Nat
  dst_port : Nat
  tcp_flags : Nat
  start_time : Int
  end_time : Int
  source_count : Nat
  sources : List flow_source_summary
deriving DecidableEq, Repr

/-- An exclusion interval, `struct exclude_node`. -/
structure exclude_node where
  addr_start : Nat
  addr_end : Nat
  exclude_count : Nat
deriving DecidableEq, Repr

/-! ## The ordered container (pavl) -/

/-- Modelled from the spec: the ordered associative container of section 4.B
(libavl's `pavl_table`, used through `pavl.h`, whose code is not part of
`flowtree.c`). A table is its in-order listing. -/
abbrev pavl_table (α : Type) := List α

/-- Modelled from the spec: `pavl_find`, the search for an item comparing equal
to `item`. The table is walked in ascending order; going on past `y`
corresponds to descending to the right of `y` (`cmp item y > 0`), stopping to
descending to the left. The result is the position of the item found. -/
def pavl_find {α : Type} (cmp : α → α → Int) : pavl_table α → α → Option Nat
  | [], _ => none
  | y :: ys, item =>
    if cmp item y > 0 then (pavl_find cmp ys item).map (· + 1)
    else if cmp item y = 0 then some 0
    else none

/-- Result of `pavl_probe`: the table afterwards, the position of the slot the
returned pointer refers to, and whether that slot holds the probing item
itself (the C test `*probe == item`). -/
structure pavl_probe_result (α : Type) where
  table : pavl_table α
  slot : Nat
  inserted : Bool

/-- Modelled from the spec: `pavl_probe` (`probe_or_insert` of section 4.B):
returns the existing entry comparing equal to `item` if there is one, and
otherwise inserts `item` at its place in the order. -/
def pavl_probe {α : Type} (cmp : α → α → Int) :
    pavl_table α → α → pavl_probe_result α
  | [], item => ⟨[item], 0, true⟩
  | y :: ys, item =>
    if cmp item y > 0 then
      let r := pavl_probe cmp ys item
      ⟨y :: r.table, r.slot + 1, r.inserted⟩
    else if cmp item y = 0 then ⟨y :: ys, 0, false⟩
    else ⟨item :: y :: ys, 0, true⟩

/-- Modelled from the spec: `pavl_delete`: removes the item comparing equal to
`item` and returns it (`none` for the NULL returned when there is none). -/
def pavl_delete {α : Type} (cmp : α → α → Int) :
    pavl_table α → α → pavl_table α × Option α
  | [], _ => ([], none)
  | y :: ys, item =>
    if cmp item y > 0 then
      let r := pavl_delete cmp ys item
      (y :: r.1, r.2)
    else if cmp item y = 0 then (ys, some y)
    else (y :: ys, none)

/-- In-order successor of the node holding `x`. -/
def pavl_successor {α : Type} (cmp : α → α → Int) : pavl_table α → α → Option α
  | [], _ => none
  | y :: ys, x => if cmp x y = 0 then ys.head? else pavl_successor cmp ys x

/-- Modelled from the spec: `pavl_t_next` on a traverser whose current node is
`trav` (`none` is the null node `pavl_t_init` leaves): from the null node it
moves to the least item, from a node to its in-order successor; the result is
both the new current node and the item returned (`none` for NULL). -/
def pavl_t_next {α : Type} (cmp : α → α → Int) (tree : pavl_table α) :
    Option α → Option α
  | none => tree.head?
  | some x => pavl_successor cmp tree x

/-! ## Comparators and the shard hash -/

/-- The comparator `compare_flows` of the flow trees. -/
def compare_flows (fa fb : flow_summary) : Int :=
  if fa.protocol > fb.protocol then 1
  else if fa.protocol < fb.protocol then -1
  else if fa.src_addr > fb.src_addr then 1
  else if fa.src_addr < fb.src_addr then -1
  else if fa.dst_addr > fb.dst_addr then 1
  else if fa.dst_addr < fb.dst_addr then -1
  else if fa.src_port > fb.src_port then 1
  else if fa.src_port < fb.src_port then -1
  else if fa.dst_port > fb.dst_port then 1
  else if fa.dst_port < fb.dst_port then -1
  else 0

/-- The comparator `compare_excludes` of the exclusion tree. -/
def compare_excludes (ea eb : exclude_node) : Int :=
  if ea.addr_start > eb.addr_end then 1
  else if ea.addr_end < eb.addr_start then -1
  else 0

/-- The macro `ROL16(x, a)`. -/
def ROL16 (x a : Nat) : Nat :=
  ((x <<< a) &&& 0xFFFF) ||| ((x &&& 0xFFFF) >>> (16 - a))

/-- The macro `TREEHASH(f)` selecting the flow tree of a summary. -/
def TREEHASH (f : flow_summary) : Nat :=
  (f.src_addr &&& 0xFFFF) ^^^
  ROL16 ((f.src_addr &&& 0xFFFF0000) >>> 16) 7 ^^^
  (f.dst_addr &&& 0xFFFF) ^^^
  ROL16 ((f.dst_addr &&& 0xFFFF0000) >>> 16) 13 ^^^
  f.src_port ^^^
  ROL16 f.dst_port 3 ^^^
  f.protocol

/-! ## Global state -/

/-- The global variables of flowtree.c that the ingest path and the janitor
read and write: the exclusion tree, the array of flow trees and the flow
counters. -/
structure collector where
  exclude_tree : pavl_table exclude_node
  flow_hash_trees : Nat → pavl_table flow_summary
  stat_total_flows : Nat
  stat_excluded_flows : Nat
  stat_new_flows : Nat
  stat_dup_flows : Nat
  stat_current_flows : Nat
  stat_proto_flows : Nat → Nat

/-- The state `main` sets up before it starts listening: the exclusion tree it
was given, every flow tree empty, every counter zero. -/
def collector_init (exclude_tree : pavl_table exclude_node) : collector where
  exclude_tree := exclude_tree
  flow_hash_trees := fun _ => []
  stat_total_flows := 0
  stat_excluded_flows := 0
  stat_new_flows := 0
  stat_dup_flows := 0
  stat_current_flows := 0
  stat_proto_flows := fun _ => 0

/-! ## Exclusion lookup -/

/-- The function `is_excluded`: searches the exclusion tree for the degenerate
interval `[check_addr, check_addr]`; a hit bumps the `exclude_count` of the
interval found. Returns the C result (0 or 1) and the tree afterwards. -/
def is_excluded (exclude_tree : pavl_table exclude_node) (check_addr : Nat) :
    Int × pavl_table exclude_node :=
  let check_ex : exclude_node := ⟨check_addr, check_addr, 0⟩
  match pavl_find compare_excludes exclude_tree check_ex with
  | none => (0, exclude_tree)
  | some i =>
    match exclude_tree[i]? with
    | none => (0, exclude_tree)
    | some ex_search =>
      (1, exclude_tree.set i
        { ex_search with exclude_count := (ex_search.exclude_count + 1) % U64 })

/-! ## Ingest path -/

/-- Where the walk over a source list stopped: the nodes walked past, the list
from the node `*cur_flow_source_summary` on, and the flag `source_updated`. -/
structure source_cursor where
  passed : List flow_source_summary
  rest : List flow_source_summary
  source_updated : Nat

/-- The `while (*cur_flow_source_summary != NULL)` loop of `flow_callback`:
stops in front of the first node with a greater exporter address, or at the
node of the same exporter after adding the record to its totals, or at the
end of the list. -/
def find_source (current_flow : unified_flow) :
    List flow_source_summary → source_cursor
  | [] => ⟨[], [], 0⟩
  | n :: next =>
    if current_flow.flow_src < n.flow_src then ⟨[], n :: next, 0⟩
    else if current_flow.flow_src = n.flow_src then
      ⟨[], { n with
              num_packets := (n.num_packets + current_flow.num_packets) % U64
              num_bytes := (n.num_bytes + current_flow.num_bytes) % U64
              num_flows := (n.num_flows + 1) % U64 } :: next, 1⟩
    else
      let c := find_source current_flow next
      ⟨n :: c.passed, c.rest, c.source_updated⟩

/-- The node `flow_callback` allocates for an exporter seen for the first
time on a flow. -/
def new_flow_source_summary (current_flow : unified_flow) : flow_source_summary where
  flow_src := current_flow.flow_src
  src_int := current_flow.src_int
  dst_int := current_flow.dst_int
  num_packets := current_flow.num_packets
  num_bytes := current_flow.num_bytes
  num_flows := 1

/-- The second half of `flow_callback` (from "The flow is now in the tree"):
the update of the source list of the summary the probe returned. -/
def update_sources (current_flow : unified_flow) (s : flow_summary) : flow_summary :=
  let c := find_source current_flow s.sources
  if c.source_updated = 0 then
    { s with
      sources := c.passed ++ new_flow_source_summary current_flow :: c.rest
      source_count := (s.source_count + 1) % U8 }
  else
    { s with sources := c.passed ++ c.rest }

/-- The summary `cur_flow_summary` that `flow_callback` builds from a record
and copies with `copy_flow`. -/
def cur_flow_summary (current_flow : unified_flow) : flow_summary where
  time_added := current_flow.recv_time
  time_updated := current_flow.recv_time
  src_addr := current_flow.src_addr
  dst_addr := current_flow.dst_addr
  protocol := current_flow.protocol
  src_port := current_flow.src_port
  dst_port := current_flow.dst_port
  tcp_flags := current_flow.tcp_flags
  start_time := current_flow.start_time
  end_time := current_flow.end_time
  source_count := 0
  sources := []

/-- The `else` branch of `flow_callback` ("Flow already in tree"): the merge of
the copy into the summary found. -/
def merge_flow (probe flow_summary_copy : flow_summary) : flow_summary :=
  { probe with
    tcp_flags := probe.tcp_flags ||| flow_summary_copy.tcp_flags
    start_time :=
      if probe.start_time > flow_summary_copy.start_time
      then flow_summary_copy.start_time else probe.start_time
    end_time :=
      if probe.end_time < flow_summary_copy.end_time
      then flow_summary_copy.end_time else probe.end_time
    time_updated := flow_summary_copy.time_updated }

/-- The function `flow_callback`. -/
def flow_callback (st : collector) (current_flow : unified_flow) : collector :=
  let st := { st with stat_total_flows := (st.stat_total_flows + 1) % U64 }
  let e1 := is_excluded st.exclude_tree current_flow.src_addr
  if e1.1 = 1 then
    { st with exclude_tree := e1.2
              stat_excluded_flows := (st.stat_excluded_flows + 1) % U64 }
  else
  let e2 := is_excluded e1.2 current_flow.dst_addr
  if e2.1 = 1 then
    { st with exclude_tree := e2.2
              stat_excluded_flows := (st.stat_excluded_flows + 1) % U64 }
  else
  let st := { st with exclude_tree := e2.2 }
  let flow_summary_copy := cur_flow_summary current_flow
  let tree_num := TREEHASH flow_summary_copy
  let p := pavl_probe compare_flows (st.flow_hash_trees tree_num) flow_summary_copy
  match p.table[p.slot]? with
  | none => st
  | some flow_summary_probe =>
    if p.inserted then
      let st := { st with
        stat_new_flows := (st.stat_new_flows + 1) % U64
        stat_current_flows := (st.stat_current_flows + 1) % U64
        stat_proto_flows := fun i =>
          if i = flow_summary_probe.protocol
          then (st.stat_proto_flows i + 1) % U64 else st.stat_proto_flows i }
      let updated := update_sources current_flow flow_summary_probe
      { st with flow_hash_trees := fun k =>
          if k = tree_num then p.table.set p.slot updated
          else st.flow_hash_trees k }
    else
      let st := { st with stat_dup_flows := (st.stat_dup_flows + 1) % U64 }
      let merged := merge_flow flow_summary_probe flow_summary_copy
      let updated := update_sources current_flow merged
      { st with flow_hash_trees := fun k =>
          if k = tree_num then p.table.set p.slot updated
          else st.flow_hash_trees k }

/-! ## Janitor -/

/-- The local variables of one iteration of the `tree_num` loop of
`thread_flow_janitor`, together with the tree being swept and the summaries
handed to `print_flow_json` so far. -/
structure sweep_state where
  tree : pavl_table flow_summary
  traverser : Option flow_summary
  flow_last : Option flow_summary
  flow_cur : Option flow_summary
  emitted : List flow_summary
  deleted : Nat

/-- The eviction test of the janitor. -/
def flow_expired (cur_time : Int) (f : flow_summary) : Prop :=
  cur_time - f.time_updated > MIN_FLOW_AGE ∨ cur_time - f.time_added > MAX_FLOW_AGE

instance (cur_time : Int) (f : flow_summary) : Decidable (flow_expired cur_time f) := by
  unfold flow_expired; infer_instance

/-- The `while (flow_last != NULL)` loop of `thread_flow_janitor`, run for at
most `fuel` iterations, with every call `print_flow_json(flow_last)` recorded
in `emitted` and taken to return; `janitor_while_print` follows that call into
its buffer. The result is `none` when the fuel runs out before the loop ends,
and when `pavl_delete` returns NULL (which `print_flow_json` would
dereference). -/
def janitor_while (cur_time : Int) : Nat → sweep_state → Option sweep_state
  | 0, _ => none
  | fuel + 1, s =>
    match s.flow_last with
    | none => some s
    | some flow_last =>
      if flow_expired cur_time flow_last then
        let d := pavl_delete compare_flows s.tree flow_last
        match d.2 with
        | none => none
        | some flow_last =>
          let nxt := pavl_t_next compare_flows d.1 s.traverser
          janitor_while cur_time fuel
            { tree := d.1, traverser := nxt, flow_last := s.flow_cur, flow_cur := nxt,
              emitted := s.emitted ++ [flow_last], deleted := s.deleted + 1 }
      else
        let nxt := pavl_t_next compare_flows s.tree s.traverser
        janitor_while cur_time fuel
          { s with traverser := nxt, flow_last := s.flow_cur, flow_cur := nxt }

/-- The body of the `tree_num` loop of `thread_flow_janitor` on one tree:
`pavl_t_init`, the two initial `pavl_t_next` calls and the `while` loop.
`deleted` is the value of the counter on entry. -/
def janitor_sweep (cur_time : Int) (tree : pavl_table flow_summary) (deleted : Nat) :
    Option sweep_state :=
  let flow_last := pavl_t_next compare_flows tree none
  let flow_cur := pavl_t_next compare_flows tree flow_last
  janitor_while cur_time (tree.length + 1)
    { tree := tree, traverser := flow_cur, flow_last := flow_last, flow_cur := flow_cur,
      emitted := [], deleted := deleted }

/-- What the janitor has done so far in a pass: the state, the summaries handed
to `print_flow_json` in order, and the local counter `deleted`. -/
structure janitor_result where
  st : collector
  emitted : List flow_summary
  deleted : Nat

/-- One iteration of the `for (tree_num = 0; tree_num < TREES; tree_num++)`
loop of `thread_flow_janitor`. -/
def janitor_tree (cur_time : Int) (tree_num : Nat) (r : janitor_result) :
    Option janitor_result :=
  match janitor_sweep cur_time (r.st.flow_hash_trees tree_num) r.deleted with
  | none => none
  | some s =>
    some
      { st := { r.st with flow_hash_trees := fun k =>
                  if k = tree_num then s.tree else r.st.flow_hash_trees k }
        emitted := r.emitted ++ s.emitted
        deleted := s.deleted }

/-- The `for` loop of `thread_flow_janitor` over the given tree numbers. -/
def janitor_for (cur_time : Int) : List Nat → janitor_result → Option janitor_result
  | [], r => some r
  | tree_num :: rest, r =>
    match janitor_tree cur_time tree_num r with
    | none => none
    | some r1 => janitor_for cur_time rest r1

/-- One pass of the `while (terminate == 0)` loop of `thread_flow_janitor`
with the clock reading `cur_time`: the sweep of all `TREES` trees followed by
`stat_current_flows -= deleted`. -/
def janitor_pass (cur_time : Int) (st : collector) : Option janitor_result :=
  match janitor_for cur_time (List.range TREES) ⟨st, [], 0⟩ with
  | none => none
  | some r =>
    some { r with st := { r.st with
      stat_current_flows := (r.st.stat_current_flows + U64 - r.deleted % U64) % U64 } }

/-! ## Executions -/

/-- The operations that change the flow trees: a `flow_callback` call, the
janitor's sweep of one tree (one critical section of its `for` loop), and a
complete janitor pass. -/
inductive collector_op where
  | ingest (current_flow : unified_flow)
  | sweep (cur_time : Int) (tree_num : Nat)
  | pass (cur_time : Int)

/-- Effect of one operation on the state (`none` if the janitor does not
complete). -/
def run_op (st : collector) : collector_op → Option collector
  | .ingest current_flow => some (flow_callback st current_flow)
  | .sweep cur_time tree_num =>
    (janitor_tree cur_time tree_num ⟨st, [], 0⟩).map (·.st)
  | .pass cur_time => (janitor_pass cur_time st).map (·.st)

/-- Effect of a sequence of operations, executed one after the other. -/
def run_ops : collector → List collector_op → Option collector
  | st, [] => some st
  | st, o :: os =>
    match run_op st o with
    | none => none
    | some st1 => run_ops st1 os

/-- The state after a sequence of `flow_callback` calls. -/
def ingest_all (st : collector) (flows : List unified_flow) : collector :=
  flows.foldl flow_callback st

/-! ## Vocabulary of the statements -/

/-- The identity of a flow summary: (protocol, src_addr, dst_addr, src_port,
dst_port). -/
def flow_identity (f : flow_summary) : Nat × Nat × Nat × Nat × Nat :=
  (f.protocol, f.src_addr, f.dst_addr, f.src_port, f.dst_port)

/-- The identity of a record. -/
def record_identity (r : unified_flow) : Nat × Nat × Nat × Nat × Nat :=
  (r.protocol, r.src_addr, r.dst_addr, r.src_port, r.dst_port)

/-- The flow tree a record is routed to. -/
def record_tree (r : unified_flow) : Nat := TREEHASH (cur_flow_summary r)

/-- Lexicographic order of identities, field by field. -/
def flow_key_lt (a b : flow_summary) : Prop :=
  a.protocol < b.protocol ∨ (a.protocol = b.protocol ∧
  (a.src_addr < b.src_addr ∨ (a.src_addr = b.src_addr ∧
  (a.dst_addr < b.dst_addr ∨ (a.dst_addr = b.dst_addr ∧
  (a.src_port < b.src_port ∨ (a.src_port = b.src_port ∧
   a.dst_port < b.dst_port)))))))

/-- A flow tree whose in-order listing is strictly ascending for
`compare_flows`: what a `pavl_table` created with `compare_flows` is. -/
def flow_tree_ordered (tree : pavl_table flow_summary) : Prop :=
  tree.Pairwise (fun a b => compare_flows a b < 0)

instance (tree : pavl_table flow_summary) : Decidable (flow_tree_ordered tree) := by
  unfold flow_tree_ordered; infer_instance

/-- The record is let through by the exclusion check of `flow_callback`:
neither `is_excluded` call returns 1. -/
def not_excluded (exclude_tree : pavl_table exclude_node) (r : unified_flow) : Prop :=
  (is_excluded exclude_tree r.src_addr).1 ≠ 1 ∧
  (is_excluded exclude_tree r.dst_addr).1 ≠ 1

instance (exclude_tree : pavl_table exclude_node) (r : unified_flow) :
    Decidable (not_excluded exclude_tree r) := by
  unfold not_excluded; infer_instance

/-- The summary `flow_callback` stores for a record that creates a flow. -/
def created_summary (r : unified_flow) : flow_summary :=
  update_sources r (cur_flow_summary r)

/-- The summary `flow_callback` leaves in place of `s` when a record of the
same flow arrives. -/
def merged_summary (s : flow_summary) (r : unified_flow) : flow_summary :=
  update_sources r (merge_flow s (cur_flow_summary r))

/-- The interval bounds of an exclusion tree, without the hit counters. -/
def exclude_bounds (exclude_tree : pavl_table exclude_node) : List (Nat × Nat) :=
  exclude_tree.map (fun e => (e.addr_start, e.addr_end))


/-- The state `flow_callback` leaves when the record creates a flow: the new
summary sits between `l1` and `l2` in the tree of the record. -/
def collector_created (st : collector) (r : unified_flow)
    (l1 l2 : List flow_summary) : collector :=
  { st with
    flow_hash_trees := fun k =>
      if k = record_tree r then l1 ++ created_summary r :: l2
      else st.flow_hash_trees k
    stat_total_flows := (st.stat_total_flows + 1) % U64
    stat_new_flows := (st.stat_new_flows + 1) % U64
    stat_current_flows := (st.stat_current_flows + 1) % U64
    stat_proto_flows := fun i =>
      if i = r.protocol then (st.stat_proto_flows i + 1) % U64
      else st.stat_proto_flows i }

/-- The state `flow_callback` leaves when the record is merged into the
summary `old` stored between `l1` and `l2` in the tree of the record. -/
def collector_merged (st : collector) (r : unified_flow)
    (l1 : List flow_summary) (old : flow_summary) (l2 : List flow_summary) : collector :=
  { st with
    flow_hash_trees := fun k =>
      if k = record_tree r then l1 ++ merged_summary old r :: l2
      else st.flow_hash_trees k
    stat_total_flows := (st.stat_total_flows + 1) % U64
    stat_dup_flows := (st.stat_dup_flows + 1) % U64 }

/-- The state `flow_callback` leaves when the record is excluded. -/
def collector_excluded (st : collector) (ex : pavl_table exclude_node) : collector :=
  { st with
    exclude_tree := ex
    stat_total_flows := (st.stat_total_flows + 1) % U64
    stat_excluded_flows := (st.stat_excluded_flows + 1) % U64 }

/-- Well-formed states: every flow tree is strictly ascending, every summary
is stored in the tree its hash selects, every source list is strictly
ascending by exporter and counted (modulo 256) by `source_count`, and no
stored summary has an excluded endpoint. -/
structure collector_wf (st : collector) : Prop where
  ordered : ∀ k, flow_tree_ordered (st.flow_hash_trees k)
  hashed : ∀ k s, s ∈ st.flow_hash_trees k → TREEHASH s = k
  ascending : ∀ k s, s ∈ st.flow_hash_trees k →
    s.sources.Pairwise (fun a b => a.flow_src < b.flow_src)
  counted : ∀ k s, s ∈ st.flow_hash_trees k → s.source_count = s.sources.length % U8
  admitted : ∀ k s, s ∈ st.flow_hash_trees k →
    (is_excluded st.exclude_tree s.src_addr).1 ≠ 1 ∧
    (is_excluded st.exclude_tree s.dst_addr).1 ≠ 1

/-- The summaries of a tree that a sweep at `cur_time` leaves in place. -/
def janitor_kept (cur_time : Int) (tree : pavl_table flow_summary) : List flow_summary :=
  tree.filter (fun f => !decide (flow_expired cur_time f))

/-- The summaries of a tree that a sweep at `cur_time` evicts, in tree order. -/
def janitor_evicted (cur_time : Int) (tree : pavl_table flow_summary) : List flow_summary :=
  tree.filter (fun f => decide (flow_expired cur_time f))

/-- The result of the janitor's sweep of the tree `tree_num`. -/
def janitor_swept (cur_time : Int) (tree_num : Nat) (r : janitor_result) : janitor_result where
  st := { r.st with flow_hash_trees := fun k =>
            if k = tree_num then janitor_kept cur_time (r.st.flow_hash_trees tree_num)
            else r.st.flow_hash_trees k }
  emitted := r.emitted ++ janitor_evicted cur_time (r.st.flow_hash_trees tree_num)
  deleted := r.deleted + (janitor_evicted cur_time (r.st.flow_hash_trees tree_num)).length

/-- The summary that a non-empty sequence of records of one flow builds up:
the first record creates it, each later one is merged into it. -/
def summary_of : List unified_flow → Option flow_summary
  | [] => none
  | r :: rs => some (rs.foldl merged_summary (created_summary r))

/-- The records of a sequence that `flow_callback` merges into the summary of
identity `key`: those that pass the exclusion check and carry that identity. -/
def merged_records (exclude_tree : pavl_table exclude_node)
    (key : Nat × Nat × Nat × Nat × Nat) (flows : List unified_flow) : List unified_flow :=
  flows.filter (fun r => decide (not_excluded exclude_tree r) && decide (record_identity r = key))

/-! ## Sample inputs -/

/-- A TCP record from exporter 192.0.2.1, received at second 1000. -/
def sample_flow : unified_flow where
  flow_src := 0xC0000201
  recv_time := 1000
  src_int := 1
  dst_int := 2
  src_addr := 0x0A000001
  dst_addr := 0x0A000002
  protocol := 6
  src_port := 1234
  dst_port := 80
  tcp_flags := 0x02
  num_packets := 5
  num_bytes := 500
  start_time := 100
  end_time := 120

/-- A summary with the given destination port and times, and no sources. -/
def sample_summary (dst_port : Nat) (time_added time_updated : Int) : flow_summary where
  time_added := time_added
  time_updated := time_updated
  src_addr := 0x0A000001
  dst_addr := 0x0A000002
  protocol := 6
  src_port := 1234
  dst_port := dst_port
  tcp_flags := 0
  start_time := 0
  end_time := 0
  source_count := 0
  sources := []

/-- A tree of three summaries: idle for 61 seconds; idle for exactly 60 seconds
and 300 seconds old; refreshed one second ago but 301 seconds old (all at
second 1000). -/
def sample_tree : pavl_table flow_summary :=
  [sample_summary 80 900 939, sample_summary 81 700 940, sample_summary 82 699 999]

/-- The record `sample_flow` as reported by the exporter with address `i`. -/
def exporter_flow (i : Nat) : unified_flow := { sample_flow with flow_src := i }

/-- Records of one flow from the `n` exporters with addresses `0, ..., n - 1`. -/
def exporter_flows (n : Nat) : List unified_flow := (List.range n).map exporter_flow

/-- The source node `e` after one more record `r` of its exporter. -/
def source_plus (e : flow_source_summary) (r : unified_flow) : flow_source_summary :=
  { e with
    num_packets := (e.num_packets + r.num_packets) % 2 ^ 64
    num_bytes := (e.num_bytes + r.num_bytes) % 2 ^ 64
    num_flows := (e.num_flows + 1) % 2 ^ 64 }

/-! ## Building the exclusion tree -/

/-- The function `add_exclusion`, run to a recursion depth of at most `fuel`
(`none` when the fuel runs out): probes the exclusion tree with the new
interval; if an overlapping interval is found, widens the new interval to
cover it, deletes the interval found and calls itself with the widened
bounds. -/
def add_exclusion : Nat → pavl_table exclude_node → Nat → Nat →
    Option (pavl_table exclude_node)
  | 0, _, _, _ => none
  | fuel + 1, exclude_tree, addr_start, addr_end =>
    let ex : exclude_node := ⟨addr_start, addr_end, 0⟩
    let p := pavl_probe compare_excludes exclude_tree ex
    match p.table[p.slot]? with
    | none => some exclude_tree
    | some ex_probe =>
      if p.inserted then some p.table
      else
        let ex1 : exclude_node :=
          if ex_probe.addr_start < ex.addr_start
          then { ex with addr_start := ex_probe.addr_start } else ex
        let ex2 : exclude_node :=
          if ex_probe.addr_end > ex1.addr_end
          then { ex1 with addr_end := ex_probe.addr_end } else ex1
        let d := pavl_delete compare_excludes p.table ex_probe
        add_exclusion fuel d.1 ex2.addr_start ex2.addr_end

/-- A sequence of `add_exclusion` calls, one after the other, each with the
given bound on its recursion depth. -/
def add_exclusions (fuel : Nat) :
    pavl_table exclude_node → List (Nat × Nat) → Option (pavl_table exclude_node)
  | exclude_tree, [] => some exclude_tree
  | exclude_tree, (addr_start, addr_end) :: calls =>
    match add_exclusion fuel exclude_tree addr_start addr_end with
    | none => none
    | some t => add_exclusions fuel t calls

/-- The address is covered by a stored interval. -/
def exclude_covered (exclude_tree : pavl_table exclude_node) (x : Nat) : Prop :=
  ∃ y ∈ exclude_tree, y.addr_start ≤ x ∧ x ≤ y.addr_end

instance (exclude_tree : pavl_table exclude_node) (x : Nat) :
    Decidable (exclude_covered exclude_tree x) := by
  unfold exclude_covered; infer_instance

/-- An exclusion tree of non-empty intervals, each ending below the start of
the next. -/
def exclude_tree_ordered (exclude_tree : pavl_table exclude_node) : Prop :=
  exclude_tree.Pairwise (fun a b => a.addr_end < b.addr_start) ∧
  ∀ y ∈ exclude_tree, y.addr_start ≤ y.addr_end

instance (exclude_tree : pavl_table exclude_node) :
    Decidable (exclude_tree_ordered exclude_tree) := by
  unfold exclude_tree_ordered; infer_instance

/-- The exclusion tree `main` builds: 132.239.1.114-116, 132.239.1.199-204
and 44.0.0.0/8. -/
def main_exclusions : List (Nat × Nat) :=
  [(0x84EF0172, 0x84EF0174), (0x84EF01C7, 0x84EF01CC), (0x2C000000, 0x2CFFFFFF)]
/-! ## Executions with their output -/

/-- The state without its exclusion tree: the flow trees and the flow
counters. -/
def flow_state (st : collector) : collector := { st with exclude_tree := [] }

/-- Effect of one operation together with the summaries it hands to
`print_flow_json`, in order: `flow_callback` prints none, the janitor prints
each summary it evicts. -/
def run_op_trace (st : collector) : collector_op → Option (collector × List flow_summary)
  | .ingest current_flow => some (flow_callback st current_flow, [])
  | .sweep cur_time tree_num =>
    (janitor_tree cur_time tree_num ⟨st, [], 0⟩).map (fun r => (r.st, r.emitted))
  | .pass cur_time => (janitor_pass cur_time st).map (fun r => (r.st, r.emitted))

/-- Effect of a sequence of operations together with everything handed to
`print_flow_json` on the way. -/
def run_trace : collector → List collector_op → Option (collector × List flow_summary)
  | st, [] => some (st, [])
  | st, o :: os =>
    match run_op_trace st o with
    | none => none
    | some (st1, out1) =>
      match run_trace st1 os with
      | none => none
      | some (st2, out2) => some (st2, out1 ++ out2)

/-! ## Datagram decoding -/

/-- The byte `flow[i]` of a datagram (`u_char`; 0 past the end of the
datagram, which the code never reads once the size checks have passed). -/
def u_char_at (flow : List Nat) (i : Nat) : Nat := flow.getD i 0 % 256

/-- The value `ntohs` gives for the 16-bit field at byte offset `i`. -/
def ntohs_at (flow : List Nat) (i : Nat) : Nat :=
  u_char_at flow i * 256 + u_char_at flow (i + 1)

/-- The value `ntohl` gives for the 32-bit field at byte offset `i`. -/
def ntohl_at (flow : List Nat) (i : Nat) : Nat :=
  ((u_char_at flow i * 256 + u_char_at flow (i + 1)) * 256 + u_char_at flow (i + 2)) * 256 +
    u_char_at flow (i + 3)

/-- The value of `sizeof(struct netflow_v5)` (packed). -/
def sizeof_netflow_v5 : Nat := 24

/-- The value of `sizeof(struct netflow_v5_record)` (packed). -/
def sizeof_netflow_v5_record : Nat := 48

/-- The value of `sizeof(struct netflow_v7)` (packed). -/
def sizeof_netflow_v7 : Nat := 24

/-- The value of `sizeof(struct netflow_v7_record)` (packed). -/
def sizeof_netflow_v7_record : Nat := 52

/-- The time computation of the parsers,
`unix_sec - (((uptime - t) & 0xFFFFFFFF) / 1000)` in 32-bit unsigned
arithmetic, for the record time field at byte offset `off`; `unix_sec` and
`uptime` sit at offsets 8 and 4 of both headers. -/
def flow_time (flow : List Nat) (off : Nat) : Int :=
  let unix_sec := ntohl_at flow 8
  let uptime := ntohl_at flow 4
  let t := ntohl_at flow off
  ((unix_sec + 2 ^ 32 - (((uptime + 2 ^ 32 - t) % 2 ^ 32) &&& 0xFFFFFFFF) / 1000) % 2 ^ 32 : Nat)

/-- The `current_flow` the loop of `parse_netflow_v5` fills in from record `i`
of the datagram; `peer` is `peer->sin_addr.s_addr`. -/
def netflow_v5_flow (peer : Nat) (flow : List Nat) (recv_time : Int) (i : Nat) :
    unified_flow :=
  let o := sizeof_netflow_v5 + i * sizeof_netflow_v5_record
  { flow_src := peer
    recv_time := recv_time
    src_int := ntohs_at flow (o + 12)
    dst_int := ntohs_at flow (o + 14)
    src_addr := ntohl_at flow o
    dst_addr := ntohl_at flow (o + 4)
    protocol := u_char_at flow (o + 38)
    src_port := ntohs_at flow (o + 32)
    dst_port := ntohs_at flow (o + 34)
    tcp_flags := u_char_at flow (o + 37)
    num_packets := ntohl_at flow (o + 16)
    num_bytes := ntohl_at flow (o + 20)
    start_time := flow_time flow (o + 24)
    end_time := flow_time flow (o + 28) }

/-- The `current_flow` the loop of `parse_netflow_v7` fills in from record `i`
of the datagram: as for v5, with the exporter taken from the record's
`flow_src` field. -/
def netflow_v7_flow (flow : List Nat) (recv_time : Int) (i : Nat) : unified_flow :=
  let o := sizeof_netflow_v7 + i * sizeof_netflow_v7_record
  { flow_src := ntohl_at flow (o + 48)
    recv_time := recv_time
    src_int := ntohs_at flow (o + 12)
    dst_int := ntohs_at flow (o + 14)
    src_addr := ntohl_at flow o
    dst_addr := ntohl_at flow (o + 4)
    protocol := u_char_at flow (o + 38)
    src_port := ntohs_at flow (o + 32)
    dst_port := ntohs_at flow (o + 34)
    tcp_flags := u_char_at flow (o + 37)
    num_packets := ntohl_at flow (o + 16)
    num_bytes := ntohl_at flow (o + 20)
    start_time := flow_time flow (o + 24)
    end_time := flow_time flow (o + 28) }

/-- The function `parse_netflow_v5`; the datagram is the list of its
`flow_size` bytes. -/
def parse_netflow_v5 (st : collector) (peer : Nat) (flow : List Nat) (recv_time : Int) :
    collector :=
  let flow_size := flow.length
  if flow_size < sizeof_netflow_v5 then st
  else if ntohs_at flow 0 ≠ 5 then st
  else
    let records := ntohs_at flow 2
    if flow_size ≠ sizeof_netflow_v5 + records * sizeof_netflow_v5_record then st
    else
      (List.range records).foldl
        (fun st i => flow_callback st (netflow_v5_flow peer flow recv_time i)) st

/-- The function `parse_netflow_v7`. -/
def parse_netflow_v7 (st : collector) (flow : List Nat) (recv_time : Int) : collector :=
  let flow_size := flow.length
  if flow_size < sizeof_netflow_v7 then st
  else if ntohs_at flow 0 ≠ 7 then st
  else
    let records := ntohs_at flow 2
    if flow_size ≠ sizeof_netflow_v7 + records * sizeof_netflow_v7_record then st
    else
      (List.range records).foldl
        (fun st i => flow_callback st (netflow_v7_flow flow recv_time i)) st

/-- The function `packet_callback`. -/
def packet_callback (st : collector) (peer : Nat) (flow : List Nat) (recv_time : Int) :
    collector :=
  let flow_size := flow.length
  if flow_size > sizeof_netflow_v5 ∧ ntohs_at flow 0 = 5 then
    parse_netflow_v5 st peer flow recv_time
  else if flow_size > sizeof_netflow_v7 ∧ ntohs_at flow 0 = 7 then
    parse_netflow_v7 st flow recv_time
  else st

/-- A NetFlow v5 datagram with two records: header (version 5, count 2,
uptime 10000 ms, unix_sec 1000) and the flows 10.0.0.1:1234 -> 10.0.0.2:80
and 10.0.0.3:1235 -> 10.0.0.2:80, both TCP. -/
def sample_datagram : List Nat :=
  [0, 5, 0, 2, 0, 0, 39, 16, 0, 0, 3, 232, 0, 0, 0, 0, 0, 0, 0, 0, 0, 0, 0, 0] ++
  [10, 0, 0, 1, 10, 0, 0, 2, 0, 0, 0, 0, 0, 1, 0, 2, 0, 0, 0, 5, 0, 0, 1, 244,
   0, 0, 19, 136, 0, 0, 39, 16, 4, 210, 0, 80, 0, 2, 6, 0, 0, 0, 0, 0, 0, 0, 0, 0] ++
  [10, 0, 0, 3, 10, 0, 0, 2, 0, 0, 0, 0, 0, 1, 0, 2, 0, 0, 0, 7, 0, 0, 2, 188,
   0, 0, 19, 136, 0, 0, 39, 16, 4, 211, 0, 80, 0, 16, 6, 0, 0, 0, 0, 0, 0, 0, 0, 0]

/-- A NetFlow v7 datagram with one record: header (version 7, count 1, uptime
10000 ms, unix_sec 1000) and the flow 10.0.0.1:1234 -> 10.0.0.2:80, TCP, with
the exporter 192.0.2.9 in the record's `flow_src` field. -/
def sample_datagram_v7 : List Nat :=
  [0, 7, 0, 1, 0, 0, 39, 16, 0, 0, 3, 232, 0, 0, 0, 0, 0, 0, 0, 0, 0, 0, 0, 0] ++
  [10, 0, 0, 1, 10, 0, 0, 2, 0, 0, 0, 0, 0, 1, 0, 2, 0, 0, 0, 5, 0, 0, 1, 244,
   0, 0, 19, 136, 0, 0, 39, 16, 4, 210, 0, 80, 0, 2, 6, 0, 0, 0, 0, 0, 0, 0, 0, 0,
   192, 0, 2, 9]

/-! ## Per-exporter totals -/

/-- The records of a sequence that exporter `x` sent, in order. -/
def records_from (x : Nat) (flows : List unified_flow) : List unified_flow :=
  flows.filter (fun r => decide (r.flow_src = x))

/-- The nodes of a source list that carry the exporter address `x`. -/
def sources_of (x : Nat) (sources : List flow_source_summary) : List flow_source_summary :=
  sources.filter (fun n => decide (n.flow_src = x))

/-- The source node that the records of exporter `x` in a sequence add up to:
interfaces of the first such record, totals over all of them modulo 2^64;
no node when `x` sent none. -/
def source_total (x : Nat) (flows : List unified_flow) : List flow_source_summary :=
  match records_from x flows with
  | [] => []
  | f :: fs =>
    [{ flow_src := x
       src_int := f.src_int
       dst_int := f.dst_int
       num_packets := ((f :: fs).map (fun r => r.num_packets)).sum % 2 ^ 64
       num_bytes := ((f :: fs).map (fun r => r.num_bytes)).sum % 2 ^ 64
       num_flows := (f :: fs).length % 2 ^ 64 }]

/-! ## Number of stored summaries -/

/-- The number of summaries stored in the `TREES` flow trees together. -/
def stored_flows (st : collector) : Nat :=
  ((List.range TREES).map (fun k => (st.flow_hash_trees k).length)).sum

/-! ## JSON output -/

/-- The size `SENDBUFFSIZE` of the output buffer (`outbuff` has one byte
more). -/
def SENDBUFFSIZE : Nat := 65536

/-- The text `inet_ntoa` gives for `htonl(a)`: the dotted quad of the 32-bit
address `a`, most significant byte first. -/
def inet_ntoa_htonl (a : Nat) : String :=
  toString (a / 2 ^ 24 % 256) ++ "." ++ toString (a / 2 ^ 16 % 256) ++ "." ++
    toString (a / 2 ^ 8 % 256) ++ "." ++ toString (a % 256)

/-- The value of the cast `(int)t` of a `time_t`. -/
def int_of_time_t (t : Int) : Int := (t + 2 ^ 31) % 2 ^ 32 - 2 ^ 31

/-- The local state of `print_flow_json` that the bound on `outbuff` depends
on: the index `outindex` and, for every `snprintf` call made so far, the value
of its size argument `SENDBUFFSIZE - outindex - 1`. -/
structure json_writer where
  outindex : Nat
  sizes : List Int

/-- One statement `outindex += snprintf(outbuff + outindex,
SENDBUFFSIZE - outindex - 1, ...)` whose format expands to `text`: `snprintf`
returns the length of the whole text, also when the size argument made it
write less. -/
def snprintf (w : json_writer) (text : String) : json_writer where
  outindex := w.outindex + text.length
  sizes := w.sizes ++ [(SENDBUFFSIZE : Int) - w.outindex - 1]

/-- The `while (flow_source != NULL)` loop of `print_flow_json`. -/
def print_sources : json_writer → List flow_source_summary → json_writer
  | w, [] => w
  | w, flow_source :: next =>
    let w := snprintf w "\t\t\x7b\n"
    let w := snprintf w
      ("\t\t\"flow_source\": \"" ++ inet_ntoa_htonl flow_source.flow_src ++ "\",\n")
    let w := snprintf w ("\t\t\"src_int\": " ++ toString flow_source.src_int ++ ",\n")
    let w := snprintf w ("\t\t\"dst_int\": " ++ toString flow_source.dst_int ++ ",\n")
    let w := snprintf w ("\t\t\"num_packets\": " ++ toString flow_source.num_packets ++ ",\n")
    let w := snprintf w ("\t\t\"num_bytes\": " ++ toString flow_source.num_bytes ++ ",\n")
    let w := snprintf w ("\t\t\"num_flows\": " ++ toString flow_source.num_flows ++ "\n")
    let w := match next with
      | [] => snprintf w "\t\t\x7d\n"
      | _ :: _ => snprintf w "\t\t\x7d,\n"
    print_sources w next

/-- The `snprintf` calls of `print_flow_json` in front of the loop over the
sources. -/
def print_flow_fields (flow : flow_summary) : json_writer :=
  let w : json_writer := ⟨0, []⟩
  let w := snprintf w "\x7b\n"
  let w := snprintf w ("\t\"src_addr\": \"" ++ inet_ntoa_htonl flow.src_addr ++ "\",\n")
  let w := snprintf w ("\t\"dst_addr\": \"" ++ inet_ntoa_htonl flow.dst_addr ++ "\",\n")
  let w := snprintf w ("\t\"protocol\": " ++ toString flow.protocol ++ ",\n")
  let w := snprintf w ("\t\"src_port\": " ++ toString flow.src_port ++ ",\n")
  let w := snprintf w ("\t\"dst_port\": " ++ toString flow.dst_port ++ ",\n")
  let w := snprintf w ("\t\"tcp_flags\": " ++ toString flow.tcp_flags ++ ",\n")
  let w := snprintf w
    ("\t\"start_time\": " ++ toString (int_of_time_t flow.start_time) ++ ",\n")
  let w := snprintf w ("\t\"end_time\": " ++ toString (int_of_time_t flow.end_time) ++ ",\n")
  let w := snprintf w ("\t\"source_count\": " ++ toString flow.source_count ++ ",\n")
  snprintf w "\t\"source_stats\": [\n"

/-- The function `print_flow_json` up to the write of the terminator
`outbuff[outindex] = 0`: the final `outindex` and the size arguments of all
its `snprintf` calls. -/
def print_flow_json (flow : flow_summary) : json_writer :=
  let w := print_sources (print_flow_fields flow) flow.sources
  let w := snprintf w "\t]\n"
  snprintf w "\x7d\n"

/-! ## The sweep with its output calls -/

/-- Whether the call `print_flow_json(flow)` stays inside `outbuff`: every
`snprintf` call gets a non-negative size argument, and the index at which the
terminator is written is at most `SENDBUFFSIZE`. -/
def print_flow_json_fits (flow : flow_summary) : Prop :=
  (∀ size ∈ (print_flow_json flow).sizes, 0 ≤ size) ∧
  (print_flow_json flow).outindex ≤ SENDBUFFSIZE

instance (flow : flow_summary) : Decidable (print_flow_json_fits flow) := by
  unfold print_flow_json_fits; infer_instance

/-- The `while (flow_last != NULL)` loop of `thread_flow_janitor` with the
call `print_flow_json(flow_last)` followed into `outbuff`, run for at most
`fuel` iterations. The result is `none` when the fuel runs out before the loop
ends, when `pavl_delete` returns NULL (which `print_flow_json` would
dereference), and when `print_flow_json` writes outside `outbuff` (from there
on the behaviour of the program is undefined). -/
def janitor_while_print (cur_time : Int) : Nat → sweep_state → Option sweep_state
  | 0, _ => none
  | fuel + 1, s =>
    match s.flow_last with
    | none => some s
    | some flow_last =>
      if flow_expired cur_time flow_last then
        let d := pavl_delete compare_flows s.tree flow_last
        match d.2 with
        | none => none
        | some flow_last =>
          if print_flow_json_fits flow_last then
            let nxt := pavl_t_next compare_flows d.1 s.traverser
            janitor_while_print cur_time fuel
              { tree := d.1, traverser := nxt, flow_last := s.flow_cur, flow_cur := nxt,
                emitted := s.emitted ++ [flow_last], deleted := s.deleted + 1 }
          else none
      else
        let nxt := pavl_t_next compare_flows s.tree s.traverser
        janitor_while_print cur_time fuel
          { s with traverser := nxt, flow_last := s.flow_cur, flow_cur := nxt }

/-- The body of the `tree_num` loop of `thread_flow_janitor` on one tree, with
the `print_flow_json` calls followed into `outbuff`: `pavl_t_init`, the two
initial `pavl_t_next` calls and the `while` loop. -/
def janitor_sweep_print (cur_time : Int) (tree : pavl_table flow_summary) (deleted : Nat) :
    Option sweep_state :=
  let flow_last := pavl_t_next compare_flows tree none
  let flow_cur := pavl_t_next compare_flows tree flow_last
  janitor_while_print cur_time (tree.length + 1)
    { tree := tree, traverser := flow_cur, flow_last := flow_last, flow_cur := flow_cur,
      emitted := [], deleted := deleted }


/-! ## The comparator `compare_flows` -/

theorem compare_flows_neg_iff (a b : flow_summary) :
    compare_flows a b < 0 ↔ flow_key_lt a b := by
  unfold compare_flows flow_key_lt
  by_cases h1 : a.protocol > b.protocol
  · rw [if_pos h1]
    exact ⟨fun h => by omega, fun h => by omega⟩
  by_cases h2 : a.protocol < b.protocol
  · rw [if_neg h1, if_pos h2]
    exact ⟨fun h => by omega, fun h => by omega⟩
  by_cases h3 : a.src_addr > b.src_addr
  · rw [if_neg h1, if_neg h2, if_pos h3]
    exact ⟨fun h => by omega, fun h => by omega⟩
  by_cases h4 : a.src_addr < b.src_addr
  · rw [if_neg h1, if_neg h2, if_neg h3, if_pos h4]
    exact ⟨fun h => by omega, fun h => by omega⟩
  by_cases h5 : a.dst_addr > b.dst_addr
  · rw [if_neg h1, if_neg h2, if_neg h3, if_neg h4, if_pos h5]
    exact ⟨fun h => by omega, fun h => by omega⟩
  by_cases h6 : a.dst_addr < b.dst_addr
  · rw [if_neg h1, if_neg h2, if_neg h3, if_neg h4, if_neg h5, if_pos h6]
    exact ⟨fun h => by omega, fun h => by omega⟩
  by_cases h7 : a.src_port > b.src_port
  · rw [if_neg h1, if_neg h2, if_neg h3, if_neg h4, if_neg h5, if_neg h6, if_pos h7]
    exact ⟨fun h => by omega, fun h => by omega⟩
  by_cases h8 : a.src_port < b.src_port
  · rw [if_neg h1, if_neg h2, if_neg h3, if_neg h4, if_neg h5, if_neg h6, if_neg h7, if_pos h8]
    exact ⟨fun h => by omega, fun h => by omega⟩
  by_cases h9 : a.dst_port > b.dst_port
  · rw [if_neg h1, if_neg h2, if_neg h3, if_neg h4, if_neg h5, if_neg h6, if_neg h7, if_neg h8,
        if_pos h9]
    exact ⟨fun h => by omega, fun h => by omega⟩
  by_cases h10 : a.dst_port < b.dst_port
  · rw [if_neg h1, if_neg h2, if_neg h3, if_neg h4, if_neg h5, if_neg h6, if_neg h7, if_neg h8,
        if_neg h9, if_pos h10]
    exact ⟨fun h => by omega, fun h => by omega⟩
  rw [if_neg h1, if_neg h2, if_neg h3, if_neg h4, if_neg h5, if_neg h6, if_neg h7, if_neg h8,
      if_neg h9, if_neg h10]
  exact ⟨fun h => by omega, fun h => by omega⟩

theorem compare_flows_pos_iff (a b : flow_summary) :
    compare_flows a b > 0 ↔ flow_key_lt b a := by
  unfold compare_flows flow_key_lt
  by_cases h1 : a.protocol > b.protocol
  · rw [if_pos h1]
    exact ⟨fun h => by omega, fun h => by omega⟩
  by_cases h2 : a.protocol < b.protocol
  · rw [if_neg h1, if_pos h2]
    exact ⟨fun h => by omega, fun h => by omega⟩
  by_cases h3 : a.src_addr > b.src_addr
  · rw [if_neg h1, if_neg h2, if_pos h3]
    exact ⟨fun h => by omega, fun h => by omega⟩
  by_cases h4 : a.src_addr < b.src_addr
  · rw [if_neg h1, if_neg h2, if_neg h3, if_pos h4]
    exact ⟨fun h => by omega, fun h => by omega⟩
  by_cases h5 : a.dst_addr > b.dst_addr
  · rw [if_neg h1, if_neg h2, if_neg h3, if_neg h4, if_pos h5]
    exact ⟨fun h => by omega, fun h => by omega⟩
  by_cases h6 : a.dst_addr < b.dst_addr
  · rw [if_neg h1, if_neg h2, if_neg h3, if_neg h4, if_neg h5, if_pos h6]
    exact ⟨fun h => by omega, fun h => by omega⟩
  by_cases h7 : a.src_port > b.src_port
  · rw [if_neg h1, if_neg h2, if_neg h3, if_neg h4, if_neg h5, if_neg h6, if_pos h7]
    exact ⟨fun h => by omega, fun h => by omega⟩
  by_cases h8 : a.src_port < b.src_port
  · rw [if_neg h1, if_neg h2, if_neg h3, if_neg h4, if_neg h5, if_neg h6, if_neg h7, if_pos h8]
    exact ⟨fun h => by omega, fun h => by omega⟩
  by_cases h9 : a.dst_port > b.dst_port
  · rw [if_neg h1, if_neg h2, if_neg h3, if_neg h4, if_neg h5, if_neg h6, if_neg h7, if_neg h8,
        if_pos h9]
    exact ⟨fun h => by omega, fun h => by omega⟩
  by_cases h10 : a.dst_port < b.dst_port
  · rw [if_neg h1, if_neg h2, if_neg h3, if_neg h4, if_neg h5, if_neg h6, if_neg h7, if_neg h8,
        if_neg h9, if_pos h10]
    exact ⟨fun h => by omega, fun h => by omega⟩
  rw [if_neg h1, if_neg h2, if_neg h3, if_neg h4, if_neg h5, if_neg h6, if_neg h7, if_neg h8,
      if_neg h9, if_neg h10]
  exact ⟨fun h => by omega, fun h => by omega⟩

theorem compare_flows_zero_iff (a b : flow_summary) :
    compare_flows a b = 0 ↔
      (a.protocol = b.protocol ∧ a.src_addr = b.src_addr ∧ a.dst_addr = b.dst_addr ∧
        a.src_port = b.src_port ∧ a.dst_port = b.dst_port) := by
  unfold compare_flows
  by_cases h1 : a.protocol > b.protocol
  · rw [if_pos h1]
    exact ⟨fun h => by omega, fun h => by omega⟩
  by_cases h2 : a.protocol < b.protocol
  · rw [if_neg h1, if_pos h2]
    exact ⟨fun h => by omega, fun h => by omega⟩
  by_cases h3 : a.src_addr > b.src_addr
  · rw [if_neg h1, if_neg h2, if_pos h3]
    exact ⟨fun h => by omega, fun h => by omega⟩
  by_cases h4 : a.src_addr < b.src_addr
  · rw [if_neg h1, if_neg h2, if_neg h3, if_pos h4]
    exact ⟨fun h => by omega, fun h => by omega⟩
  by_cases h5 : a.dst_addr > b.dst_addr
  · rw [if_neg h1, if_neg h2, if_neg h3, if_neg h4, if_pos h5]
    exact ⟨fun h => by omega, fun h => by omega⟩
  by_cases h6 : a.dst_addr < b.dst_addr
  · rw [if_neg h1, if_neg h2, if_neg h3, if_neg h4, if_neg h5, if_pos h6]
    exact ⟨fun h => by omega, fun h => by omega⟩
  by_cases h7 : a.src_port > b.src_port
  · rw [if_neg h1, if_neg h2, if_neg h3, if_neg h4, if_neg h5, if_neg h6, if_pos h7]
    exact ⟨fun h => by omega, fun h => by omega⟩
  by_cases h8 : a.src_port < b.src_port
  · rw [if_neg h1, if_neg h2, if_neg h3, if_neg h4, if_neg h5, if_neg h6, if_neg h7, if_pos h8]
    exact ⟨fun h => by omega, fun h => by omega⟩
  by_cases h9 : a.dst_port > b.dst_port
  · rw [if_neg h1, if_neg h2, if_neg h3, if_neg h4, if_neg h5, if_neg h6, if_neg h7, if_neg h8,
        if_pos h9]
    exact ⟨fun h => by omega, fun h => by omega⟩
  by_cases h10 : a.dst_port < b.dst_port
  · rw [if_neg h1, if_neg h2, if_neg h3, if_neg h4, if_neg h5, if_neg h6, if_neg h7, if_neg h8,
        if_neg h9, if_pos h10]
    exact ⟨fun h => by omega, fun h => by omega⟩
  rw [if_neg h1, if_neg h2, if_neg h3, if_neg h4, if_neg h5, if_neg h6, if_neg h7, if_neg h8,
      if_neg h9, if_neg h10]
  exact ⟨fun h => by omega, fun h => by omega⟩

theorem compare_flows_range (a b : flow_summary) :
    compare_flows a b = -1 ∨ compare_flows a b = 0 ∨ compare_flows a b = 1 := by
  unfold compare_flows
  by_cases h1 : a.protocol > b.protocol
  · rw [if_pos h1]
    simp
  by_cases h2 : a.protocol < b.protocol
  · rw [if_neg h1, if_pos h2]
    simp
  by_cases h3 : a.src_addr > b.src_addr
  · rw [if_neg h1, if_neg h2, if_pos h3]
    simp
  by_cases h4 : a.src_addr < b.src_addr
  · rw [if_neg h1, if_neg h2, if_neg h3, if_pos h4]
    simp
  by_cases h5 : a.dst_addr > b.dst_addr
  · rw [if_neg h1, if_neg h2, if_neg h3, if_neg h4, if_pos h5]
    simp
  by_cases h6 : a.dst_addr < b.dst_addr
  · rw [if_neg h1, if_neg h2, if_neg h3, if_neg h4, if_neg h5, if_pos h6]
    simp
  by_cases h7 : a.src_port > b.src_port
  · rw [if_neg h1, if_neg h2, if_neg h3, if_neg h4, if_neg h5, if_neg h6, if_pos h7]
    simp
  by_cases h8 : a.src_port < b.src_port
  · rw [if_neg h1, if_neg h2, if_neg h3, if_neg h4, if_neg h5, if_neg h6, if_neg h7, if_pos h8]
    simp
  by_cases h9 : a.dst_port > b.dst_port
  · rw [if_neg h1, if_neg h2, if_neg h3, if_neg h4, if_neg h5, if_neg h6, if_neg h7, if_neg h8,
        if_pos h9]
    simp
  by_cases h10 : a.dst_port < b.dst_port
  · rw [if_neg h1, if_neg h2, if_neg h3, if_neg h4, if_neg h5, if_neg h6, if_neg h7, if_neg h8,
        if_neg h9, if_pos h10]
    simp
  rw [if_neg h1, if_neg h2, if_neg h3, if_neg h4, if_neg h5, if_neg h6, if_neg h7, if_neg h8,
      if_neg h9, if_neg h10]
  simp

theorem flow_key_lt_trans {a b c : flow_summary} (h1 : flow_key_lt a b)
    (h2 : flow_key_lt b c) : flow_key_lt a c := by
  unfold flow_key_lt at *
  omega

theorem flow_key_lt_irrefl (a : flow_summary) : ¬ flow_key_lt a a := by
  unfold flow_key_lt
  omega

theorem compare_flows_eq_zero_iff (a b : flow_summary) :
    compare_flows a b = 0 ↔ flow_identity a = flow_identity b := by
  rw [compare_flows_zero_iff]
  simp only [flow_identity, Prod.mk.injEq]

theorem compare_flows_self (a : flow_summary) : compare_flows a a = 0 :=
  (compare_flows_eq_zero_iff a a).2 rfl

theorem compare_flows_pos_of_neg {a b : flow_summary} (h : compare_flows a b < 0) :
    compare_flows b a > 0 :=
  (compare_flows_pos_iff b a).2 ((compare_flows_neg_iff a b).1 h)

theorem compare_flows_neg_of_pos {a b : flow_summary} (h : compare_flows a b > 0) :
    compare_flows b a < 0 :=
  (compare_flows_neg_iff b a).2 ((compare_flows_pos_iff a b).1 h)

theorem compare_flows_trans {a b c : flow_summary} (h1 : compare_flows a b < 0)
    (h2 : compare_flows b c < 0) : compare_flows a c < 0 :=
  (compare_flows_neg_iff a c).2
    (flow_key_lt_trans ((compare_flows_neg_iff a b).1 h1) ((compare_flows_neg_iff b c).1 h2))

theorem compare_flows_congr_left {a a' : flow_summary} (b : flow_summary)
    (h : flow_identity a = flow_identity a') : compare_flows a b = compare_flows a' b := by
  simp only [flow_identity, Prod.mk.injEq] at h
  obtain ⟨h1, h2, h3, h4, h5⟩ := h
  simp only [compare_flows, h1, h2, h3, h4, h5]

theorem compare_flows_congr_right (a : flow_summary) {b b' : flow_summary}
    (h : flow_identity b = flow_identity b') : compare_flows a b = compare_flows a b' := by
  simp only [flow_identity, Prod.mk.injEq] at h
  obtain ⟨h1, h2, h3, h4, h5⟩ := h
  simp only [compare_flows, h1, h2, h3, h4, h5]

theorem TREEHASH_congr {a b : flow_summary} (h : flow_identity a = flow_identity b) :
    TREEHASH a = TREEHASH b := by
  simp only [flow_identity, Prod.mk.injEq] at h
  obtain ⟨h1, h2, h3, h4, h5⟩ := h
  simp only [TREEHASH, h1, h2, h3, h4, h5]

/-! ## The ordered container on ordered listings -/

theorem pavl_delete_mid (kept : List flow_summary) (x : flow_summary)
    (rest : List flow_summary) (h : ∀ y ∈ kept, compare_flows x y > 0) :
    pavl_delete compare_flows (kept ++ x :: rest) x = (kept ++ rest, some x) := by
  induction kept with
  | nil =>
    have h0 : ¬ compare_flows x x > 0 := by rw [compare_flows_self]; decide
    simp [pavl_delete, h0, compare_flows_self]
  | cons y ys ih =>
    have hy : compare_flows x y > 0 := h y (List.mem_cons_self _ _)
    have ih' := ih (fun z hz => h z (List.mem_cons_of_mem _ hz))
    simp [pavl_delete, hy, ih']

theorem pavl_successor_mid (kept : List flow_summary) (x : flow_summary)
    (rest : List flow_summary) (h : ∀ y ∈ kept, compare_flows x y ≠ 0) :
    pavl_successor compare_flows (kept ++ x :: rest) x = rest.head? := by
  induction kept with
  | nil => simp [pavl_successor, compare_flows_self]
  | cons y ys ih =>
    have hy : compare_flows x y ≠ 0 := h y (List.mem_cons_self _ _)
    have ih' := ih (fun z hz => h z (List.mem_cons_of_mem _ hz))
    simp [pavl_successor, hy, ih']

theorem flow_tree_ordered_before {kept rest : List flow_summary} {x : flow_summary}
    (h : flow_tree_ordered (kept ++ x :: rest)) : ∀ y ∈ kept, compare_flows x y > 0 := by
  intro y hy
  unfold flow_tree_ordered at h
  rw [List.pairwise_append] at h
  exact compare_flows_pos_of_neg (h.2.2 y hy x (List.mem_cons_self _ _))

/-! ## The janitor loop -/

theorem janitor_while_done (cur_time : Int) (fuel : Nat) (s : sweep_state)
    (h : s.flow_last = none) : janitor_while cur_time (fuel + 1) s = some s := by
  simp [janitor_while, h]

theorem janitor_while_run (cur_time : Int) :
    ∀ (pending kept : List flow_summary) (x : flow_summary) (em : List flow_summary)
      (del fuel : Nat),
      flow_tree_ordered (kept ++ x :: pending) → pending.length + 2 ≤ fuel →
      ∃ s, janitor_while cur_time fuel
            ⟨kept ++ x :: pending, pending.head?, some x, pending.head?, em, del⟩ = some s ∧
        s.flow_last = none ∧
        s.tree = kept ++ (x :: pending).filter (fun f => !decide (flow_expired cur_time f)) ∧
        s.emitted = em ++ (x :: pending).filter (fun f => decide (flow_expired cur_time f)) ∧
        s.deleted =
          del + ((x :: pending).filter (fun f => decide (flow_expired cur_time f))).length := by
  intro pending
  induction pending with
  | nil =>
    intro kept x em del fuel hord hfuel
    obtain ⟨f, rfl⟩ : ∃ f, fuel = f + 2 := ⟨fuel - 2, by simp at hfuel; omega⟩
    have hdel := pavl_delete_mid kept x [] (flow_tree_ordered_before hord)
    by_cases hx : flow_expired cur_time x
    · refine ⟨⟨kept, kept.head?, none, kept.head?, em ++ [x], del + 1⟩, ?_, rfl, ?_, ?_, ?_⟩
      · rw [janitor_while]
        simp only [hx, if_true, hdel, List.append_nil, pavl_t_next, List.head?_nil]
        exact janitor_while_done _ _ _ rfl
      · simp [hx]
      · simp [hx]
      · simp [hx]
    · refine ⟨⟨kept ++ [x], (kept ++ [x]).head?, none, (kept ++ [x]).head?, em, del⟩,
        ?_, rfl, ?_, ?_, ?_⟩
      · rw [janitor_while]
        simp only [hx, if_false, pavl_t_next, List.head?_nil]
        exact janitor_while_done _ _ _ rfl
      · simp [hx]
      · simp [hx]
      · simp [hx]
  | cons y ps ih =>
    intro kept x em del fuel hord hfuel
    obtain ⟨f, rfl⟩ : ∃ f, fuel = f + 1 := ⟨fuel - 1, by simp at hfuel; omega⟩
    have hf : ps.length + 2 ≤ f := by simp at hfuel; omega
    have hdel := pavl_delete_mid kept x (y :: ps) (flow_tree_ordered_before hord)
    by_cases hx : flow_expired cur_time x
    · have hord' : flow_tree_ordered (kept ++ y :: ps) := by
        unfold flow_tree_ordered at *
        exact hord.sublist (by simp)
      have hsucc : pavl_successor compare_flows (kept ++ y :: ps) y = ps.head? :=
        pavl_successor_mid kept y ps
          (fun z hz => ne_of_gt (flow_tree_ordered_before hord' z hz))
      obtain ⟨s, hs, h1, h2, h3, h4⟩ := ih kept y (em ++ [x]) (del + 1) f hord' hf
      refine ⟨s, ?_, h1, ?_, ?_, ?_⟩
      · rw [janitor_while]
        simp only [hx, if_true, hdel, pavl_t_next, List.head?_cons, hsucc]
        exact hs
      · rw [h2]; simp [hx]
      · rw [h3]; simp [hx]
      · rw [h4]; simp [hx]; omega
    · have hord' : flow_tree_ordered ((kept ++ [x]) ++ y :: ps) := by
        simpa using hord
      have hsucc : pavl_successor compare_flows (kept ++ x :: y :: ps) y = ps.head? := by
        have := pavl_successor_mid (kept ++ [x]) y ps
          (fun z hz => ne_of_gt (flow_tree_ordered_before hord' z hz))
        simpa using this
      obtain ⟨s, hs, h1, h2, h3, h4⟩ := ih (kept ++ [x]) y em del f hord' hf
      refine ⟨s, ?_, h1, ?_, ?_, ?_⟩
      · rw [janitor_while]
        simp only [hx, if_false, pavl_t_next, List.head?_cons, hsucc]
        simpa using hs
      · rw [h2]; simp [hx]
      · rw [h3]; simp [hx]
      · rw [h4]; simp [hx]

theorem janitor_sweep_run (cur_time : Int) (tree : pavl_table flow_summary) (deleted : Nat)
    (hord : flow_tree_ordered tree) :
    ∃ s, janitor_sweep cur_time tree deleted = some s ∧
      s.flow_last = none ∧
      s.tree = tree.filter (fun f => !decide (flow_expired cur_time f)) ∧
      s.emitted = tree.filter (fun f => decide (flow_expired cur_time f)) ∧
      s.deleted = deleted + (tree.filter (fun f => decide (flow_expired cur_time f))).length := by
  cases tree with
  | nil =>
    refine ⟨⟨[], none, none, none, [], deleted⟩, ?_, rfl, rfl, rfl, rfl⟩
    simp [janitor_sweep, pavl_t_next, janitor_while]
  | cons x pending =>
    have hsucc : pavl_successor compare_flows (x :: pending) x = pending.head? :=
      pavl_successor_mid [] x pending (by simp)
    obtain ⟨s, hs, h1, h2, h3, h4⟩ :=
      janitor_while_run cur_time pending [] x [] deleted ((x :: pending).length + 1)
        (by simpa using hord) (by simp)
    refine ⟨s, ?_, h1, ?_, ?_, h4⟩
    · simp only [janitor_sweep, pavl_t_next, List.head?_cons, hsucc]
      simpa using hs
    · simpa using h2
    · simpa using h3

/-! ## Probing -/

theorem list_get?_mid {α : Type} (l1 : List α) (x : α) (l2 : List α) :
    (l1 ++ x :: l2)[l1.length]? = some x := by
  induction l1 with
  | nil => simp
  | cons a l ih => simpa using ih

theorem list_set_mid {α : Type} (l1 : List α) (x u : α) (l2 : List α) :
    (l1 ++ x :: l2).set l1.length u = l1 ++ u :: l2 := by
  induction l1 with
  | nil => rfl
  | cons a l ih => simp

theorem pavl_probe_spec {α : Type} (cmp : α → α → Int) (tree : pavl_table α) (item : α) :
    ∃ l1 l2, tree = l1 ++ l2 ∧ (∀ y ∈ l1, cmp item y > 0) ∧
      (pavl_probe cmp tree item).slot = l1.length ∧
      (((pavl_probe cmp tree item).inserted = true ∧
          (pavl_probe cmp tree item).table = l1 ++ item :: l2 ∧
          (∀ y, l2.head? = some y → cmp item y < 0)) ∨
       ((pavl_probe cmp tree item).inserted = false ∧
          (pavl_probe cmp tree item).table = tree ∧
          ∃ y l2', l2 = y :: l2' ∧ cmp item y = 0)) := by
  induction tree with
  | nil =>
    exact ⟨[], [], rfl, by simp, rfl, Or.inl ⟨rfl, rfl, by simp⟩⟩
  | cons z zs ih =>
    by_cases h1 : cmp item z > 0
    · obtain ⟨l1, l2, e, hl1, hs, hcase⟩ := ih
      refine ⟨z :: l1, l2, by simp [e], ?_, ?_, ?_⟩
      · intro y hy
        rcases List.mem_cons.1 hy with rfl | hy
        · exact h1
        · exact hl1 y hy
      · simp [pavl_probe, h1, hs]
      · rcases hcase with ⟨hi, ht, hh⟩ | ⟨hi, ht, hh⟩
        · exact Or.inl ⟨by simp [pavl_probe, h1, hi], by simp [pavl_probe, h1, ht], hh⟩
        · exact Or.inr ⟨by simp [pavl_probe, h1, hi], by simp [pavl_probe, h1, ht], hh⟩
    · by_cases h2 : cmp item z = 0
      · exact ⟨[], z :: zs, rfl, by simp, by simp [pavl_probe, h1, h2],
          Or.inr ⟨by simp [pavl_probe, h1, h2], by simp [pavl_probe, h1, h2], z, zs, rfl, h2⟩⟩
      · refine ⟨[], z :: zs, rfl, by simp, by simp [pavl_probe, h1, h2],
          Or.inl ⟨by simp [pavl_probe, h1, h2], by simp [pavl_probe, h1, h2], ?_⟩⟩
        intro y hy
        simp only [List.head?_cons, Option.some.injEq] at hy
        subst hy
        omega

/-! ## The exclusion check -/

theorem is_excluded_miss (ex : pavl_table exclude_node) (a : Nat)
    (h : (is_excluded ex a).1 ≠ 1) : (is_excluded ex a).2 = ex := by
  cases hf : pavl_find compare_excludes ex ⟨a, a, 0⟩ with
  | none => simp [is_excluded, hf]
  | some i =>
    cases hg : ex[i]? with
    | none => simp [is_excluded, hf, hg]
    | some e => simp [is_excluded, hf, hg] at h

theorem is_excluded_fst (ex : pavl_table exclude_node) (a : Nat) :
    (is_excluded ex a).1 = 0 ∨ (is_excluded ex a).1 = 1 := by
  cases hf : pavl_find compare_excludes ex ⟨a, a, 0⟩ with
  | none => simp [is_excluded, hf]
  | some i =>
    cases hg : ex[i]? with
    | none => simp [is_excluded, hf, hg]
    | some e => simp [is_excluded, hf, hg]

theorem exclude_bounds_set (ex : pavl_table exclude_node) (i : Nat) (e e' : exclude_node)
    (he : ex[i]? = some e) (h1 : e'.addr_start = e.addr_start)
    (h2 : e'.addr_end = e.addr_end) : exclude_bounds (ex.set i e') = exclude_bounds ex := by
  induction ex generalizing i with
  | nil => rfl
  | cons z zs ih =>
    cases i with
    | zero =>
      simp only [List.getElem?_cons_zero, Option.some.injEq] at he
      subst he
      simp [exclude_bounds, h1, h2]
    | succ n =>
      simp only [List.getElem?_cons_succ] at he
      have := ih n he
      simp only [exclude_bounds, List.set_cons_succ, List.map_cons] at this ⊢
      rw [this]

theorem is_excluded_bounds (ex : pavl_table exclude_node) (a : Nat) :
    exclude_bounds (is_excluded ex a).2 = exclude_bounds ex := by
  cases hf : pavl_find compare_excludes ex ⟨a, a, 0⟩ with
  | none => simp [is_excluded, hf]
  | some i =>
    cases hg : ex[i]? with
    | none => simp [is_excluded, hf, hg]
    | some e =>
      simp only [is_excluded, hf, hg]
      exact exclude_bounds_set ex i e _ hg rfl rfl

/-! ## One `flow_callback` call -/

theorem flow_callback_excluded (st : collector) (r : unified_flow)
    (h : ¬ not_excluded st.exclude_tree r) :
    ∃ ex, exclude_bounds ex = exclude_bounds st.exclude_tree ∧
      flow_callback st r = collector_excluded st ex := by
  by_cases h1 : (is_excluded st.exclude_tree r.src_addr).1 = 1
  · exact ⟨(is_excluded st.exclude_tree r.src_addr).2, is_excluded_bounds _ _,
      by simp [flow_callback, collector_excluded, h1]⟩
  · have e1 := is_excluded_miss _ _ h1
    have h2 : (is_excluded st.exclude_tree r.dst_addr).1 = 1 := by
      unfold not_excluded at h
      by_contra h2
      exact h ⟨h1, h2⟩
    exact ⟨(is_excluded st.exclude_tree r.dst_addr).2, is_excluded_bounds _ _,
      by simp [flow_callback, collector_excluded, h1, e1, h2]⟩

theorem flow_callback_not_excluded (st : collector) (r : unified_flow)
    (h : not_excluded st.exclude_tree r) :
    ∃ l1 l2, (∀ y ∈ l1, compare_flows (cur_flow_summary r) y > 0) ∧
      ((st.flow_hash_trees (record_tree r) = l1 ++ l2 ∧
        (∀ y, l2.head? = some y → compare_flows (cur_flow_summary r) y < 0) ∧
        flow_callback st r = collector_created st r l1 l2) ∨
       (∃ old, st.flow_hash_trees (record_tree r) = l1 ++ old :: l2 ∧
        compare_flows (cur_flow_summary r) old = 0 ∧
        flow_callback st r = collector_merged st r l1 old l2)) := by
  obtain ⟨h1, h2⟩ := h
  have e1 := is_excluded_miss _ _ h1
  have e2 := is_excluded_miss _ _ h2
  obtain ⟨l1, l2, htree, hl1, hslot, hcase⟩ :=
    pavl_probe_spec compare_flows (st.flow_hash_trees (record_tree r)) (cur_flow_summary r)
  rcases hcase with ⟨hins, htab, hhead⟩ | ⟨hins, htab, old, l2', hl2, hold⟩
  · refine ⟨l1, l2, hl1, Or.inl ⟨htree, hhead, ?_⟩⟩
    have hget : (pavl_probe compare_flows (st.flow_hash_trees (record_tree r))
        (cur_flow_summary r)).table[(pavl_probe compare_flows
          (st.flow_hash_trees (record_tree r)) (cur_flow_summary r)).slot]? =
        some (cur_flow_summary r) := by
      rw [htab, hslot]; exact list_get?_mid _ _ _
    simp only [collector_created, collector_merged, record_tree] at *
    simp only [flow_callback, h1, e1, h2, e2, if_false, hget, hins, if_true]
    simp only [htab, hslot, list_set_mid, created_summary]
    rfl
  · subst hl2
    refine ⟨l1, l2', hl1, Or.inr ⟨old, htree, hold, ?_⟩⟩
    have hget : (pavl_probe compare_flows (st.flow_hash_trees (record_tree r))
        (cur_flow_summary r)).table[(pavl_probe compare_flows
          (st.flow_hash_trees (record_tree r)) (cur_flow_summary r)).slot]? =
        some old := by
      rw [htab, hslot, htree]; exact list_get?_mid _ _ _
    simp only [collector_created, collector_merged, record_tree] at *
    simp only [flow_callback, h1, e1, h2, e2, if_false, hget, hins]
    rw [htab, hslot, htree, list_set_mid, list_set_mid]
    simp [merged_summary]


/-! ## The walk over a source list -/

theorem find_source_spec (r : unified_flow) (l : List flow_source_summary) :
    (∀ n ∈ (find_source r l).passed, n.flow_src < r.flow_src) ∧
    (((find_source r l).source_updated = 0 ∧
        l = (find_source r l).passed ++ (find_source r l).rest ∧
        (∀ n, (find_source r l).rest.head? = some n → r.flow_src < n.flow_src)) ∨
     ((find_source r l).source_updated = 1 ∧
        ∃ n q, l = (find_source r l).passed ++ n :: q ∧ n.flow_src = r.flow_src ∧
          (find_source r l).rest =
            { n with
              num_packets := (n.num_packets + r.num_packets) % U64
              num_bytes := (n.num_bytes + r.num_bytes) % U64
              num_flows := (n.num_flows + 1) % U64 } :: q)) := by
  induction l with
  | nil => simp [find_source]
  | cons m ms ih =>
    by_cases h1 : r.flow_src < m.flow_src
    · simp [find_source, h1]
    · by_cases h2 : r.flow_src = m.flow_src
      · refine ⟨by simp [find_source, h2], Or.inr ⟨by simp [find_source, h2], m, ms, ?_, h2.symm, ?_⟩⟩
        · simp [find_source, h2]
        · simp [find_source, h2]
      · obtain ⟨hp, hcase⟩ := ih
        have hm : m.flow_src < r.flow_src := by omega
        refine ⟨?_, ?_⟩
        · intro n hn
          simp only [find_source, h1, h2, if_false, List.mem_cons] at hn
          rcases hn with rfl | hn
          · exact hm
          · exact hp n hn
        · rcases hcase with ⟨hu, hl, hh⟩ | ⟨hu, n, q, hl, hn, hr⟩
          · refine Or.inl ⟨by simp [find_source, h1, h2, hu], ?_, ?_⟩
            · simp only [find_source, h1, h2, if_false, List.cons_append]
              rw [← hl]
            · simpa [find_source, h1, h2] using hh
          · refine Or.inr ⟨by simp [find_source, h1, h2, hu], n, q, ?_, hn, ?_⟩
            · simp only [find_source, h1, h2, if_false, List.cons_append]
              rw [← hl]
            · simpa [find_source, h1, h2] using hr

/-- The two outcomes of `update_sources`: a node for the exporter is spliced in
at its place, or the node of the exporter absorbs the record. -/
theorem update_sources_spec (r : unified_flow) (s : flow_summary) :
    (∃ p q, s.sources = p ++ q ∧ (∀ n ∈ p, n.flow_src < r.flow_src) ∧
        (∀ n, q.head? = some n → r.flow_src < n.flow_src) ∧
        update_sources r s =
          { s with
            sources := p ++ new_flow_source_summary r :: q
            source_count := (s.source_count + 1) % U8 }) ∨
    (∃ p n q, s.sources = p ++ n :: q ∧ (∀ m ∈ p, m.flow_src < r.flow_src) ∧
        n.flow_src = r.flow_src ∧
        update_sources r s =
          { s with
            sources := p ++
              { n with
                num_packets := (n.num_packets + r.num_packets) % U64
                num_bytes := (n.num_bytes + r.num_bytes) % U64
                num_flows := (n.num_flows + 1) % U64 } :: q }) := by
  obtain ⟨hp, hcase⟩ := find_source_spec r s.sources
  rcases hcase with ⟨hu, hl, hh⟩ | ⟨hu, n, q, hl, hn, hr⟩
  · exact Or.inl ⟨_, _, hl, hp, hh, by simp [update_sources, hu]⟩
  · exact Or.inr ⟨_, n, q, hl, hp, hn, by simp [update_sources, hu, hr]⟩

/-- Strictly ascending exporter addresses. -/
theorem sources_ascending_mid {p q : List flow_source_summary} {n : flow_source_summary}
    (h : (p ++ n :: q).Pairwise (fun a b => a.flow_src < b.flow_src)) :
    (∀ m ∈ p, m.flow_src < n.flow_src) ∧ (∀ m ∈ q, n.flow_src < m.flow_src) := by
  rw [List.pairwise_append] at h
  obtain ⟨_, h2, h3⟩ := h
  rw [List.pairwise_cons] at h2
  exact ⟨fun m hm => h3 m hm n (List.mem_cons_self _ _), h2.1⟩

theorem update_sources_ascending (r : unified_flow) (s : flow_summary)
    (h : s.sources.Pairwise (fun a b => a.flow_src < b.flow_src)) :
    (update_sources r s).sources.Pairwise (fun a b => a.flow_src < b.flow_src) := by
  rcases update_sources_spec r s with ⟨p, q, hs, hp, hq, hu⟩ | ⟨p, n, q, hs, hp, hn, hu⟩
  · rw [hu]
    rw [hs, List.pairwise_append] at h
    obtain ⟨h1, h2, h3⟩ := h
    simp only
    rw [List.pairwise_append]
    refine ⟨h1, ?_, ?_⟩
    · rw [List.pairwise_cons]
      refine ⟨?_, h2⟩
      intro m hm
      cases q with
      | nil => cases hm
      | cons z zs =>
        have hz : r.flow_src < z.flow_src := hq z rfl
        rcases List.mem_cons.1 hm with rfl | hm
        · exact hz
        · rw [List.pairwise_cons] at h2
          exact lt_trans hz (h2.1 m hm)
    · intro a ha b hb
      rcases List.mem_cons.1 hb with rfl | hb
      · exact hp a ha
      · exact h3 a ha b hb
  · rw [hu]
    rw [hs] at h
    simp only
    rw [List.pairwise_append] at h ⊢
    obtain ⟨h1, h2, h3⟩ := h
    rw [List.pairwise_cons] at h2 ⊢
    refine ⟨h1, ⟨h2.1, h2.2⟩, ?_⟩
    intro a ha b hb
    rcases List.mem_cons.1 hb with rfl | hb
    · exact h3 a ha n (List.mem_cons_self _ _)
    · exact h3 a ha b (List.mem_cons_of_mem _ hb)

theorem update_sources_count (r : unified_flow) (s : flow_summary)
    (h : s.source_count = s.sources.length % U8) :
    (update_sources r s).source_count = (update_sources r s).sources.length % U8 := by
  rcases update_sources_spec r s with ⟨p, q, hs, _, _, hu⟩ | ⟨p, n, q, hs, _, _, hu⟩
  · rw [hu]
    simp only [List.length_append, List.length_cons]
    rw [h, hs]
    simp only [List.length_append, U8]
    omega
  · rw [hu]
    simp only [List.length_append, List.length_cons]
    rw [h, hs]
    simp only [List.length_append, List.length_cons]

theorem update_sources_identity (r : unified_flow) (s : flow_summary) :
    flow_identity (update_sources r s) = flow_identity s := by
  simp only [update_sources]
  split <;> rfl

theorem merge_flow_identity (s c : flow_summary) :
    flow_identity (merge_flow s c) = flow_identity s := rfl

theorem created_summary_identity (r : unified_flow) :
    flow_identity (created_summary r) = record_identity r := by
  rw [created_summary, update_sources_identity]; rfl

theorem merged_summary_identity (s : flow_summary) (r : unified_flow) :
    flow_identity (merged_summary s r) = flow_identity s := by
  rw [merged_summary, update_sources_identity, merge_flow_identity]

theorem cur_flow_summary_identity (r : unified_flow) :
    flow_identity (cur_flow_summary r) = record_identity r := rfl


/-! ## Locating a flow in an ordered tree -/

theorem flow_callback_absent (st : collector) (r : unified_flow)
    (h : not_excluded st.exclude_tree r)
    (habs : ∀ s ∈ st.flow_hash_trees (record_tree r), flow_identity s ≠ record_identity r) :
    ∃ l1 l2, st.flow_hash_trees (record_tree r) = l1 ++ l2 ∧
      (∀ y ∈ l1, compare_flows (cur_flow_summary r) y > 0) ∧
      (∀ y, l2.head? = some y → compare_flows (cur_flow_summary r) y < 0) ∧
      flow_callback st r = collector_created st r l1 l2 := by
  obtain ⟨l1, l2, hl1, hcase⟩ := flow_callback_not_excluded st r h
  rcases hcase with ⟨ht, hh, hr⟩ | ⟨old, ht, hc, _⟩
  · exact ⟨l1, l2, ht, hl1, hh, hr⟩
  · exfalso
    have hid := (compare_flows_eq_zero_iff _ _).1 hc
    exact habs old (by rw [ht]; simp) (by rw [← hid]; rfl)

theorem flow_tree_locate {tree : pavl_table flow_summary} (hord : flow_tree_ordered tree)
    {s : flow_summary} (hs : s ∈ tree) :
    ∃ l1 l2, tree = l1 ++ s :: l2 ∧ (∀ y ∈ l1, compare_flows s y > 0) ∧
      (∀ y ∈ l2, compare_flows s y < 0) := by
  obtain ⟨l1, l2, rfl⟩ := List.append_of_mem hs
  refine ⟨l1, l2, rfl, flow_tree_ordered_before hord, ?_⟩
  unfold flow_tree_ordered at hord
  rw [List.pairwise_append, List.pairwise_cons] at hord
  exact hord.2.1.1

theorem flow_callback_found (st : collector) (r : unified_flow)
    (h : not_excluded st.exclude_tree r) (l1 : List flow_summary) (s : flow_summary)
    (l2 : List flow_summary) (ht : st.flow_hash_trees (record_tree r) = l1 ++ s :: l2)
    (hl1 : ∀ y ∈ l1, compare_flows (cur_flow_summary r) y > 0)
    (hs : compare_flows (cur_flow_summary r) s = 0) :
    flow_callback st r = collector_merged st r l1 s l2 := by
  obtain ⟨m1, m2, hm1, hcase⟩ := flow_callback_not_excluded st r h
  have key : ∀ (a b : List flow_summary) (x : flow_summary) (c d : List flow_summary),
      a ++ x :: b = c ++ d → (∀ y ∈ a, compare_flows (cur_flow_summary r) y > 0) →
      (∀ y ∈ c, compare_flows (cur_flow_summary r) y > 0) →
      compare_flows (cur_flow_summary r) x = 0 →
      (∀ y, d.head? = some y → compare_flows (cur_flow_summary r) y ≤ 0) →
      a = c ∧ d = x :: b := by
    intro a
    induction a with
    | nil =>
      intro b x c d e _ hc hx _
      cases c with
      | nil => exact ⟨rfl, by simpa using e.symm⟩
      | cons z zs =>
        simp only [List.nil_append, List.cons_append, List.cons.injEq] at e
        have := hc z (List.mem_cons_self _ _)
        rw [← e.1, hx] at this
        exact absurd this (by decide)
    | cons w ws ih =>
      intro b x c d e ha hc hx hd
      cases c with
      | nil =>
        simp only [List.cons_append, List.nil_append] at e
        have h1 := hd w (by rw [← e]; rfl)
        have h2 := ha w (List.mem_cons_self _ _)
        omega
      | cons z zs =>
        simp only [List.cons_append, List.cons.injEq] at e
        obtain ⟨e1, e2⟩ := e
        obtain ⟨r1, r2⟩ := ih b x zs d e2 (fun y hy => ha y (List.mem_cons_of_mem _ hy))
          (fun y hy => hc y (List.mem_cons_of_mem _ hy)) hx hd
        exact ⟨by rw [e1, r1], r2⟩
  rcases hcase with ⟨hm, hh, _⟩ | ⟨old, hm, hc, hr⟩
  · obtain ⟨_, e2⟩ := key l1 l2 s m1 m2 (by rw [← ht, ← hm]) hl1 hm1 hs
      (fun y hy => le_of_lt (hh y hy))
    have := hh s (by rw [e2]; rfl)
    omega
  · obtain ⟨e1, e2⟩ := key l1 l2 s m1 (old :: m2) (by rw [← ht, ← hm]) hl1 hm1 hs
      (fun y hy => by
        simp only [List.head?_cons, Option.some.injEq] at hy
        subst hy
        exact le_of_eq hc)
    simp only [List.cons.injEq] at e2
    rw [hr, e1, ← e2.1, ← e2.2]

theorem flow_callback_present (st : collector) (r : unified_flow)
    (h : not_excluded st.exclude_tree r)
    (hord : flow_tree_ordered (st.flow_hash_trees (record_tree r)))
    {s : flow_summary} (hs : s ∈ st.flow_hash_trees (record_tree r))
    (hid : flow_identity s = record_identity r) :
    ∃ l1 l2, st.flow_hash_trees (record_tree r) = l1 ++ s :: l2 ∧
      (∀ y ∈ l1 ++ l2, flow_identity y ≠ record_identity r) ∧
      flow_callback st r = collector_merged st r l1 s l2 := by
  obtain ⟨l1, l2, ht, hb, ha⟩ := flow_tree_locate hord hs
  have hcs : flow_identity (cur_flow_summary r) = flow_identity s := by
    rw [hid]; rfl
  refine ⟨l1, l2, ht, ?_, ?_⟩
  · intro y hy hy'
    have h0 : compare_flows s y = 0 := (compare_flows_eq_zero_iff _ _).2 (by rw [hid, hy'])
    rcases List.mem_append.1 hy with hy | hy
    · have := hb y hy
      omega
    · have := ha y hy
      omega
  · refine flow_callback_found st r h l1 s l2 ht ?_ ?_
    · intro y hy
      rw [compare_flows_congr_left y hcs]
      exact hb y hy
    · exact (compare_flows_eq_zero_iff _ _).2 hcs


/-! ## The exclusion check depends on the interval bounds only -/

theorem pavl_find_lt {α : Type} (cmp : α → α → Int) (l : pavl_table α) (x : α) (i : Nat)
    (h : pavl_find cmp l x = some i) : i < l.length := by
  induction l generalizing i with
  | nil => simp [pavl_find] at h
  | cons y ys ih =>
    by_cases h1 : cmp x y > 0
    · simp only [pavl_find, h1, if_true, Option.map_eq_some'] at h
      obtain ⟨j, hj, rfl⟩ := h
      have := ih j hj
      simp only [List.length_cons]
      omega
    · by_cases h2 : cmp x y = 0
      · rw [pavl_find, if_neg h1, if_pos h2] at h
        cases h
        simp
      · simp [pavl_find, h1, h2] at h

theorem pavl_find_exclude_congr (c : exclude_node) :
    ∀ ex ex' : pavl_table exclude_node, exclude_bounds ex = exclude_bounds ex' →
      pavl_find compare_excludes ex c = pavl_find compare_excludes ex' c := by
  intro ex
  induction ex with
  | nil =>
    intro ex' h
    cases ex' with
    | nil => rfl
    | cons z zs => simp [exclude_bounds] at h
  | cons y ys ih =>
    intro ex' h
    cases ex' with
    | nil => simp [exclude_bounds] at h
    | cons z zs =>
      simp only [exclude_bounds, List.map_cons, List.cons.injEq, Prod.mk.injEq] at h
      obtain ⟨⟨h1, h2⟩, h3⟩ := h
      have hc : compare_excludes c y = compare_excludes c z := by
        simp only [compare_excludes, h1, h2]
      simp only [pavl_find, hc, ih zs h3]

theorem is_excluded_fst_eq (ex : pavl_table exclude_node) (a : Nat) :
    (is_excluded ex a).1 =
      if (pavl_find compare_excludes ex ⟨a, a, 0⟩).isSome then 1 else 0 := by
  cases hf : pavl_find compare_excludes ex ⟨a, a, 0⟩ with
  | none => simp [is_excluded, hf]
  | some i =>
    have hi := pavl_find_lt _ _ _ _ hf
    have hg : ex[i]? = some ex[i] := List.getElem?_eq_getElem hi
    simp [is_excluded, hf, hg]

theorem is_excluded_fst_congr {ex ex' : pavl_table exclude_node}
    (h : exclude_bounds ex = exclude_bounds ex') (a : Nat) :
    (is_excluded ex a).1 = (is_excluded ex' a).1 := by
  rw [is_excluded_fst_eq, is_excluded_fst_eq, pavl_find_exclude_congr _ ex ex' h]

theorem not_excluded_congr {ex ex' : pavl_table exclude_node}
    (h : exclude_bounds ex = exclude_bounds ex') (r : unified_flow) :
    not_excluded ex r ↔ not_excluded ex' r := by
  unfold not_excluded
  rw [is_excluded_fst_congr h, is_excluded_fst_congr h]

/-! ## Well-formed states -/

theorem collector_wf_init (ex : pavl_table exclude_node) : collector_wf (collector_init ex) where
  ordered := fun _ => List.Pairwise.nil
  hashed := fun _ _ h => by simp [collector_init] at h
  ascending := fun _ _ h => by simp [collector_init] at h
  counted := fun _ _ h => by simp [collector_init] at h
  admitted := fun _ _ h => by simp [collector_init] at h

theorem created_summary_wf (r : unified_flow) :
    (created_summary r).sources.Pairwise (fun a b => a.flow_src < b.flow_src) ∧
    (created_summary r).source_count = (created_summary r).sources.length % U8 :=
  ⟨update_sources_ascending r _ List.Pairwise.nil, update_sources_count r _ rfl⟩

theorem merged_summary_wf (s : flow_summary) (r : unified_flow)
    (h1 : s.sources.Pairwise (fun a b => a.flow_src < b.flow_src))
    (h2 : s.source_count = s.sources.length % U8) :
    (merged_summary s r).sources.Pairwise (fun a b => a.flow_src < b.flow_src) ∧
    (merged_summary s r).source_count = (merged_summary s r).sources.length % U8 :=
  ⟨update_sources_ascending r _ h1, update_sources_count r _ h2⟩

theorem update_sources_addr (r : unified_flow) (s : flow_summary) :
    (update_sources r s).src_addr = s.src_addr ∧ (update_sources r s).dst_addr = s.dst_addr := by
  simp only [update_sources]
  split <;> exact ⟨rfl, rfl⟩

theorem collector_wf_flow_callback {st : collector} (hwf : collector_wf st) (r : unified_flow) :
    collector_wf (flow_callback st r) := by
  by_cases hx : not_excluded st.exclude_tree r
  · obtain ⟨l1, l2, hl1, hcase⟩ := flow_callback_not_excluded st r hx
    rcases hcase with ⟨ht, hh, hr⟩ | ⟨old, ht, hc, hr⟩
    · -- a new summary is spliced in
      have hmem : ∀ k s, s ∈ (flow_callback st r).flow_hash_trees k →
          s ∈ st.flow_hash_trees k ∨ (k = record_tree r ∧ s = created_summary r) := by
        intro k s hs
        rw [hr] at hs
        simp only [collector_created] at hs
        split at hs
        · rename_i hk
          subst hk
          rw [ht]
          simp only [List.mem_append, List.mem_cons] at hs
          rcases hs with hs | rfl | hs
          · exact Or.inl (List.mem_append.2 (Or.inl hs))
          · exact Or.inr ⟨rfl, rfl⟩
          · exact Or.inl (List.mem_append.2 (Or.inr hs))
        · exact Or.inl hs
      have hex : (flow_callback st r).exclude_tree = st.exclude_tree := by rw [hr]; rfl
      refine ⟨?_, ?_, ?_, ?_, ?_⟩
      · intro k
        rw [hr]
        simp only [collector_created]
        split
        · have ho := hwf.ordered (record_tree r)
          rw [ht] at ho
          unfold flow_tree_ordered at ho ⊢
          rw [List.pairwise_append] at ho ⊢
          obtain ⟨o1, o2, o3⟩ := ho
          have hcid : flow_identity (created_summary r) = flow_identity (cur_flow_summary r) := by
            rw [created_summary_identity]; rfl
          refine ⟨o1, ?_, ?_⟩
          · rw [List.pairwise_cons]
            refine ⟨?_, o2⟩
            intro y hy
            rw [compare_flows_congr_left y hcid]
            cases l2 with
            | nil => cases hy
            | cons z zs =>
              have hz := hh z rfl
              rcases List.mem_cons.1 hy with rfl | hy
              · exact hz
              · rw [List.pairwise_cons] at o2
                exact compare_flows_trans hz (o2.1 y hy)
          · intro a ha b hb
            rcases List.mem_cons.1 hb with rfl | hb
            · rw [compare_flows_congr_right a hcid]
              exact compare_flows_neg_of_pos (hl1 a ha)
            · exact o3 a ha b hb
        · exact hwf.ordered k
      · intro k s hs
        rcases hmem k s hs with h | ⟨rfl, rfl⟩
        · exact hwf.hashed k s h
        · exact TREEHASH_congr (by rw [created_summary_identity]; rfl)
      · intro k s hs
        rcases hmem k s hs with h | ⟨rfl, rfl⟩
        · exact hwf.ascending k s h
        · exact (created_summary_wf r).1
      · intro k s hs
        rcases hmem k s hs with h | ⟨rfl, rfl⟩
        · exact hwf.counted k s h
        · exact (created_summary_wf r).2
      · intro k s hs
        rw [hex]
        rcases hmem k s hs with h | ⟨rfl, rfl⟩
        · exact hwf.admitted k s h
        · have := update_sources_addr r (cur_flow_summary r)
          unfold created_summary
          rw [this.1, this.2]
          exact hx
    · -- the record is merged into `old`
      have hold : old ∈ st.flow_hash_trees (record_tree r) := by rw [ht]; simp
      have hmem : ∀ k s, s ∈ (flow_callback st r).flow_hash_trees k →
          s ∈ st.flow_hash_trees k ∨ (k = record_tree r ∧ s = merged_summary old r) := by
        intro k s hs
        rw [hr] at hs
        simp only [collector_merged] at hs
        split at hs
        · rename_i hk
          subst hk
          rw [ht]
          simp only [List.mem_append, List.mem_cons] at hs
          rcases hs with hs | rfl | hs
          · exact Or.inl (List.mem_append.2 (Or.inl hs))
          · exact Or.inr ⟨rfl, rfl⟩
          · exact Or.inl (List.mem_append.2 (Or.inr (List.mem_cons_of_mem _ hs)))
        · exact Or.inl hs
      have hex : (flow_callback st r).exclude_tree = st.exclude_tree := by rw [hr]; rfl
      have hmid := merged_summary_identity old r
      refine ⟨?_, ?_, ?_, ?_, ?_⟩
      · intro k
        rw [hr]
        simp only [collector_merged]
        split
        · have ho := hwf.ordered (record_tree r)
          rw [ht] at ho
          unfold flow_tree_ordered at ho ⊢
          rw [List.pairwise_append, List.pairwise_cons] at ho ⊢
          obtain ⟨o1, ⟨o2, o4⟩, o3⟩ := ho
          refine ⟨o1, ⟨?_, o4⟩, ?_⟩
          · intro y hy
            rw [compare_flows_congr_left y hmid]
            exact o2 y hy
          · intro a ha b hb
            rcases List.mem_cons.1 hb with rfl | hb
            · rw [compare_flows_congr_right a hmid]
              exact o3 a ha old (List.mem_cons_self _ _)
            · exact o3 a ha b (List.mem_cons_of_mem _ hb)
        · exact hwf.ordered k
      · intro k s hs
        rcases hmem k s hs with h | ⟨rfl, rfl⟩
        · exact hwf.hashed k s h
        · rw [TREEHASH_congr hmid]
          exact hwf.hashed _ old hold
      · intro k s hs
        rcases hmem k s hs with h | ⟨rfl, rfl⟩
        · exact hwf.ascending k s h
        · exact (merged_summary_wf old r (hwf.ascending _ old hold) (hwf.counted _ old hold)).1
      · intro k s hs
        rcases hmem k s hs with h | ⟨rfl, rfl⟩
        · exact hwf.counted k s h
        · exact (merged_summary_wf old r (hwf.ascending _ old hold) (hwf.counted _ old hold)).2
      · intro k s hs
        rw [hex]
        rcases hmem k s hs with h | ⟨rfl, rfl⟩
        · exact hwf.admitted k s h
        · have := update_sources_addr r (merge_flow old (cur_flow_summary r))
          unfold merged_summary
          rw [this.1, this.2]
          exact hwf.admitted _ old hold
  · obtain ⟨ex, hb, hr⟩ := flow_callback_excluded st r hx
    rw [hr]
    refine ⟨hwf.ordered, hwf.hashed, hwf.ascending, hwf.counted, ?_⟩
    intro k s hs
    have := hwf.admitted k s hs
    simp only [collector_excluded]
    rw [is_excluded_fst_congr hb, is_excluded_fst_congr hb]
    exact this


/-! ## The janitor on well-formed states -/

theorem collector_wf_sublist {st st' : collector} (hwf : collector_wf st)
    (hex : st'.exclude_tree = st.exclude_tree)
    (hsub : ∀ k, (st'.flow_hash_trees k).Sublist (st.flow_hash_trees k)) :
    collector_wf st' where
  ordered := fun k => (hwf.ordered k).sublist (hsub k)
  hashed := fun k s hs => hwf.hashed k s ((hsub k).subset hs)
  ascending := fun k s hs => hwf.ascending k s ((hsub k).subset hs)
  counted := fun k s hs => hwf.counted k s ((hsub k).subset hs)
  admitted := fun k s hs => by rw [hex]; exact hwf.admitted k s ((hsub k).subset hs)

theorem janitor_tree_run (cur_time : Int) (tree_num : Nat) (r : janitor_result)
    (hord : flow_tree_ordered (r.st.flow_hash_trees tree_num)) :
    janitor_tree cur_time tree_num r = some (janitor_swept cur_time tree_num r) := by
  obtain ⟨s, hs, _, h2, h3, h4⟩ := janitor_sweep_run cur_time _ r.deleted hord
  simp only [janitor_tree, hs, h2, h3, h4, janitor_swept, janitor_kept, janitor_evicted]

theorem janitor_kept_sublist (cur_time : Int) (tree : pavl_table flow_summary) :
    (janitor_kept cur_time tree).Sublist tree := List.filter_sublist _

theorem janitor_tree_wf (cur_time : Int) (tree_num : Nat) (r : janitor_result)
    (hwf : collector_wf r.st) :
    ∃ r', janitor_tree cur_time tree_num r = some r' ∧ collector_wf r'.st := by
  refine ⟨_, janitor_tree_run cur_time tree_num r (hwf.ordered tree_num), ?_⟩
  refine collector_wf_sublist hwf rfl ?_
  intro k
  by_cases hk : k = tree_num
  · subst hk
    simp only [janitor_swept, if_true]
    exact janitor_kept_sublist _ _
  · simp only [janitor_swept, hk, if_false]
    exact List.Sublist.refl _

theorem janitor_for_wf (cur_time : Int) (trees : List Nat) :
    ∀ r : janitor_result, collector_wf r.st →
      ∃ r', janitor_for cur_time trees r = some r' ∧ collector_wf r'.st := by
  induction trees with
  | nil => exact fun r h => ⟨r, rfl, h⟩
  | cons k ks ih =>
    intro r h
    obtain ⟨r1, h1, hw1⟩ := janitor_tree_wf cur_time k r h
    obtain ⟨r2, h2, hw2⟩ := ih r1 hw1
    exact ⟨r2, by simp only [janitor_for, h1, h2], hw2⟩

theorem janitor_pass_wf (cur_time : Int) (st : collector) (hwf : collector_wf st) :
    ∃ r', janitor_pass cur_time st = some r' ∧ collector_wf r'.st := by
  unfold janitor_pass
  generalize List.range TREES = trees
  obtain ⟨r1, h1, hw1⟩ := janitor_for_wf cur_time trees ⟨st, [], 0⟩ hwf
  rw [h1]
  exact ⟨_, rfl, collector_wf_sublist hw1 rfl (fun k => List.Sublist.refl _)⟩

theorem run_op_wf (st : collector) (hwf : collector_wf st) (o : collector_op) :
    ∃ st', run_op st o = some st' ∧ collector_wf st' := by
  cases o with
  | ingest r => exact ⟨_, rfl, collector_wf_flow_callback hwf r⟩
  | sweep cur_time tree_num =>
    obtain ⟨r', h1, h2⟩ := janitor_tree_wf cur_time tree_num ⟨st, [], 0⟩ hwf
    exact ⟨r'.st, by simp only [run_op, h1, Option.map_some'], h2⟩
  | pass cur_time =>
    obtain ⟨r', h1, h2⟩ := janitor_pass_wf cur_time st hwf
    exact ⟨r'.st, by simp only [run_op, h1, Option.map_some'], h2⟩

theorem run_ops_wf (ops : List collector_op) :
    ∀ st : collector, collector_wf st →
      ∃ st', run_ops st ops = some st' ∧ collector_wf st' := by
  induction ops with
  | nil => exact fun st h => ⟨st, rfl, h⟩
  | cons o os ih =>
    intro st h
    obtain ⟨st1, h1, hw1⟩ := run_op_wf st h o
    obtain ⟨st2, h2, hw2⟩ := ih st1 hw1
    exact ⟨st2, by simp only [run_ops, h1, h2], hw2⟩

theorem ingest_all_wf (flows : List unified_flow) :
    ∀ st : collector, collector_wf st → collector_wf (ingest_all st flows) := by
  induction flows with
  | nil => exact fun st h => h
  | cons r rs ih =>
    intro st h
    exact ih _ (collector_wf_flow_callback h r)

theorem ingest_all_append (st : collector) (l1 l2 : List unified_flow) :
    ingest_all st (l1 ++ l2) = ingest_all (ingest_all st l1) l2 := by
  simp [ingest_all, List.foldl_append]


/-! ## Eviction -/

theorem flow_tree_ordered_nodup {tree : pavl_table flow_summary}
    (h : flow_tree_ordered tree) : tree.Nodup := by
  unfold flow_tree_ordered at h
  refine h.imp ?_
  intro a b hab e
  rw [e, compare_flows_self] at hab
  exact absurd hab (by decide)

/-! ## Uniqueness of identities -/

/-- C2: starting from empty flow trees (and any exclusion tree), every sequence
of `flow_callback` calls, janitor sweeps of single trees and complete janitor
passes runs to completion and leaves a state in which every tree is strictly
ascending for `compare_flows`, no two summaries of one tree have the same
identity (protocol, src_addr, dst_addr, src_port, dst_port), and no two
summaries of different trees have the same identity. -/
theorem stored_identities_unique (ex : pavl_table exclude_node) (ops : List collector_op) :
    ∃ st, run_ops (collector_init ex) ops = some st ∧
      (∀ k, (st.flow_hash_trees k).Pairwise (fun a b => compare_flows a b < 0)) ∧
      (∀ k, (st.flow_hash_trees k).Pairwise
        (fun a b =>
          (a.protocol, a.src_addr, a.dst_addr, a.src_port, a.dst_port) ≠
          (b.protocol, b.src_addr, b.dst_addr, b.src_port, b.dst_port))) ∧
      (∀ k1 k2 a b, k1 ≠ k2 → a ∈ st.flow_hash_trees k1 → b ∈ st.flow_hash_trees k2 →
        (a.protocol, a.src_addr, a.dst_addr, a.src_port, a.dst_port) ≠
        (b.protocol, b.src_addr, b.dst_addr, b.src_port, b.dst_port)) := by
  obtain ⟨st, hrun, hwf⟩ := run_ops_wf ops (collector_init ex) (collector_wf_init ex)
  refine ⟨st, hrun, hwf.ordered, ?_, ?_⟩
  · intro k
    refine (hwf.ordered k).imp ?_
    intro a b hab e
    have h0 : compare_flows a b = 0 := (compare_flows_eq_zero_iff a b).2 e
    omega
  · intro k1 k2 a b hk ha hb e
    have h1 := hwf.hashed k1 a ha
    have h2 := hwf.hashed k2 b hb
    have : TREEHASH a = TREEHASH b := TREEHASH_congr e
    omega


/-! ## Creation and merge -/

theorem created_summary_eq (r : unified_flow) :
    created_summary r =
      { time_added := r.recv_time
        time_updated := r.recv_time
        src_addr := r.src_addr
        dst_addr := r.dst_addr
        protocol := r.protocol
        src_port := r.src_port
        dst_port := r.dst_port
        tcp_flags := r.tcp_flags
        start_time := r.start_time
        end_time := r.end_time
        source_count := 1
        sources := [{ flow_src := r.flow_src, src_int := r.src_int, dst_int := r.dst_int,
                      num_packets := r.num_packets, num_bytes := r.num_bytes,
                      num_flows := 1 }] } := by
  simp [created_summary, update_sources, find_source, cur_flow_summary,
    new_flow_source_summary, U8]

/-- C3: for a record that passes the exclusion check, `flow_callback` changes
only the tree the record hashes to. If no summary of that tree has the
identity of the record, exactly one summary is added to the tree: it carries
the identity of the record, `time_added = time_updated = recv_time`, the
record's `start_time`, `end_time` and `tcp_flags`, `source_count = 1` and a
one-element source list with the record's exporter, interfaces, packet and
byte counts and `num_flows = 1`. If the (strictly ascending) tree holds a
summary with the identity of the record, no summary is added: that summary,
the only one with this identity, is replaced by a summary of the same
identity and every other summary stays as it is. -/
theorem flow_callback_creates_or_merges (st : collector) (r : unified_flow)
    (hadm : not_excluded st.exclude_tree r) :
    (∀ k, k ≠ record_tree r →
      (flow_callback st r).flow_hash_trees k = st.flow_hash_trees k) ∧
    ((∀ s ∈ st.flow_hash_trees (record_tree r),
        (s.protocol, s.src_addr, s.dst_addr, s.src_port, s.dst_port) ≠
        (r.protocol, r.src_addr, r.dst_addr, r.src_port, r.dst_port)) →
      ∃ l1 l2, st.flow_hash_trees (record_tree r) = l1 ++ l2 ∧
        (flow_callback st r).flow_hash_trees (record_tree r) =
          l1 ++
            { time_added := r.recv_time
              time_updated := r.recv_time
              src_addr := r.src_addr
              dst_addr := r.dst_addr
              protocol := r.protocol
              src_port := r.src_port
              dst_port := r.dst_port
              tcp_flags := r.tcp_flags
              start_time := r.start_time
              end_time := r.end_time
              source_count := 1
              sources := [{ flow_src := r.flow_src, src_int := r.src_int,
                            dst_int := r.dst_int, num_packets := r.num_packets,
                            num_bytes := r.num_bytes, num_flows := 1 }] } :: l2) ∧
    ((st.flow_hash_trees (record_tree r)).Pairwise (fun a b => compare_flows a b < 0) →
      (∃ s ∈ st.flow_hash_trees (record_tree r),
        (s.protocol, s.src_addr, s.dst_addr, s.src_port, s.dst_port) =
        (r.protocol, r.src_addr, r.dst_addr, r.src_port, r.dst_port)) →
      ∃ l1 old new l2, st.flow_hash_trees (record_tree r) = l1 ++ old :: l2 ∧
        (flow_callback st r).flow_hash_trees (record_tree r) = l1 ++ new :: l2 ∧
        (old.protocol, old.src_addr, old.dst_addr, old.src_port, old.dst_port) =
          (r.protocol, r.src_addr, r.dst_addr, r.src_port, r.dst_port) ∧
        (new.protocol, new.src_addr, new.dst_addr, new.src_port, new.dst_port) =
          (r.protocol, r.src_addr, r.dst_addr, r.src_port, r.dst_port) ∧
        (∀ y ∈ l1 ++ l2,
          (y.protocol, y.src_addr, y.dst_addr, y.src_port, y.dst_port) ≠
          (r.protocol, r.src_addr, r.dst_addr, r.src_port, r.dst_port))) := by
  refine ⟨?_, ?_, ?_⟩
  · intro k hk
    obtain ⟨l1, l2, _, hcase⟩ := flow_callback_not_excluded st r hadm
    rcases hcase with ⟨_, _, hr⟩ | ⟨old, _, _, hr⟩
    · rw [hr]; simp [collector_created, hk]
    · rw [hr]; simp [collector_merged, hk]
  · intro habs
    obtain ⟨l1, l2, ht, _, _, hr⟩ := flow_callback_absent st r hadm habs
    refine ⟨l1, l2, ht, ?_⟩
    rw [hr, ← created_summary_eq]
    simp [collector_created]
  · intro hord hex
    obtain ⟨s, hs, hid⟩ := hex
    obtain ⟨l1, l2, ht, huniq, hr⟩ := flow_callback_present st r hadm hord hs hid
    refine ⟨l1, s, merged_summary s r, l2, ht, ?_, hid, ?_, huniq⟩
    · rw [hr]; simp [collector_merged]
    · have := merged_summary_identity s r
      unfold flow_identity at this
      rw [this]
      exact hid

/-- Witness for C3: `sample_flow` is not excluded by the empty exclusion tree;
delivered to the initial state it creates a summary, delivered again it is
merged into that summary. -/
theorem flow_callback_creates_or_merges_witness :
    not_excluded [] sample_flow ∧
    (∃ l1 l2, (collector_init []).flow_hash_trees (record_tree sample_flow) = l1 ++ l2 ∧
      (flow_callback (collector_init []) sample_flow).flow_hash_trees
          (record_tree sample_flow) =
        l1 ++ created_summary sample_flow :: l2) ∧
    (∃ l1 old new l2,
      (flow_callback (collector_init []) sample_flow).flow_hash_trees
          (record_tree sample_flow) = l1 ++ old :: l2 ∧
      (flow_callback (flow_callback (collector_init []) sample_flow) sample_flow).flow_hash_trees
          (record_tree sample_flow) = l1 ++ new :: l2) := by
  have hadm : not_excluded [] sample_flow := by decide
  refine ⟨hadm, ?_, ?_⟩
  · obtain ⟨l1, l2, h1, h2⟩ :=
      (flow_callback_creates_or_merges (collector_init []) sample_flow hadm).2.1
        (by intro s hs; simp [collector_init] at hs)
    exact ⟨l1, l2, h1, by rw [h2, created_summary_eq]⟩
  · obtain ⟨l1, old, new, l2, h1, h2, _⟩ :=
      (flow_callback_creates_or_merges (flow_callback (collector_init []) sample_flow)
        sample_flow (by decide)).2.2 (by decide) (by decide)
    exact ⟨l1, old, new, l2, h1, h2⟩


/-! ## Sequences of records of one flow -/

theorem update_sources_fields (r : unified_flow) (s : flow_summary) :
    (update_sources r s).time_added = s.time_added ∧
    (update_sources r s).time_updated = s.time_updated ∧
    (update_sources r s).tcp_flags = s.tcp_flags ∧
    (update_sources r s).start_time = s.start_time ∧
    (update_sources r s).end_time = s.end_time := by
  simp only [update_sources]
  split <;> exact ⟨rfl, rfl, rfl, rfl, rfl⟩

theorem record_tree_congr {x r : unified_flow} (h : record_identity x = record_identity r) :
    record_tree x = record_tree r :=
  TREEHASH_congr h

theorem ingest_all_merge_at (r : unified_flow) (l1 l2 : List flow_summary)
    (hl1 : ∀ y ∈ l1, compare_flows (cur_flow_summary r) y > 0) :
    ∀ (rs : List unified_flow) (st : collector) (s : flow_summary),
      st.flow_hash_trees (record_tree r) = l1 ++ s :: l2 →
      flow_identity s = record_identity r →
      (∀ x ∈ rs, not_excluded st.exclude_tree x) →
      (∀ x ∈ rs, record_identity x = record_identity r) →
      (ingest_all st rs).flow_hash_trees (record_tree r) =
          l1 ++ rs.foldl merged_summary s :: l2 ∧
        (∀ k, k ≠ record_tree r →
          (ingest_all st rs).flow_hash_trees k = st.flow_hash_trees k) ∧
        (ingest_all st rs).exclude_tree = st.exclude_tree := by
  intro rs
  induction rs with
  | nil => exact fun st s ht _ _ _ => ⟨ht, fun _ _ => rfl, rfl⟩
  | cons x xs ih =>
    intro st s ht hid hadm hsame
    have hx : record_identity x = record_identity r := hsame x (List.mem_cons_self _ _)
    have hk : record_tree x = record_tree r := record_tree_congr hx
    have hcx : flow_identity (cur_flow_summary x) = flow_identity (cur_flow_summary r) := hx
    have hstep : flow_callback st x = collector_merged st x l1 s l2 := by
      refine flow_callback_found st x (hadm x (List.mem_cons_self _ _)) l1 s l2
        (by rw [hk]; exact ht) ?_ ?_
      · intro y hy
        rw [compare_flows_congr_left y hcx]
        exact hl1 y hy
      · exact (compare_flows_eq_zero_iff _ _).2 (by rw [hid]; exact hx)
    have ht' : (flow_callback st x).flow_hash_trees (record_tree r) =
        l1 ++ merged_summary s x :: l2 := by
      rw [hstep]; simp [collector_merged, hk]
    have hex' : (flow_callback st x).exclude_tree = st.exclude_tree := by
      rw [hstep]; rfl
    obtain ⟨h1, h2, h3⟩ := ih (flow_callback st x) (merged_summary s x) ht'
      (by rw [merged_summary_identity]; exact hid)
      (fun y hy => by rw [hex']; exact hadm y (List.mem_cons_of_mem _ hy))
      (fun y hy => hsame y (List.mem_cons_of_mem _ hy))
    refine ⟨h1, ?_, by rw [← hex']; exact h3⟩
    intro k hkne
    have := h2 k hkne
    simp only [ingest_all, List.foldl_cons] at this ⊢
    rw [this, hstep]
    simp [collector_merged, hk, hkne]

/-- What a sequence of admitted records of one flow does to a state that holds
no summary of that flow: the summary built from the sequence is spliced into
the tree of the flow, and nothing else changes in the trees. -/
theorem ingest_all_same_flow (st : collector) (r : unified_flow) (rs : List unified_flow)
    (hadm : ∀ x ∈ r :: rs, not_excluded st.exclude_tree x)
    (hsame : ∀ x ∈ rs, record_identity x = record_identity r)
    (habs : ∀ s ∈ st.flow_hash_trees (record_tree r), flow_identity s ≠ record_identity r) :
    ∃ l1 l2, st.flow_hash_trees (record_tree r) = l1 ++ l2 ∧
      (ingest_all st (r :: rs)).flow_hash_trees (record_tree r) =
        l1 ++ rs.foldl merged_summary (created_summary r) :: l2 ∧
      (∀ k, k ≠ record_tree r →
        (ingest_all st (r :: rs)).flow_hash_trees k = st.flow_hash_trees k) := by
  obtain ⟨l1, l2, ht, hl1, _, hr⟩ :=
    flow_callback_absent st r (hadm r (List.mem_cons_self _ _)) habs
  have ht' : (flow_callback st r).flow_hash_trees (record_tree r) =
      l1 ++ created_summary r :: l2 := by
    rw [hr]; simp [collector_created]
  have hex' : (flow_callback st r).exclude_tree = st.exclude_tree := by
    rw [hr]; rfl
  obtain ⟨h1, h2, _⟩ := ingest_all_merge_at r l1 l2 hl1 rs (flow_callback st r)
    (created_summary r) ht' (created_summary_identity r)
    (fun y hy => by rw [hex']; exact hadm y (List.mem_cons_of_mem _ hy)) hsame
  refine ⟨l1, l2, ht, h1, ?_⟩
  intro k hk
  have := h2 k hk
  simp only [ingest_all, List.foldl_cons] at this ⊢
  rw [this, hr]
  simp [collector_created, hk]

/-- The summaries of a tree that carry the identity of a record. -/
theorem filter_identity_mid (r : unified_flow) (l1 l2 : List flow_summary) (s : flow_summary)
    (hs : flow_identity s = record_identity r)
    (hl : ∀ y ∈ l1 ++ l2, flow_identity y ≠ record_identity r) :
    (l1 ++ s :: l2).filter (fun y => decide (flow_identity y = record_identity r)) = [s] := by
  have h1 : l1.filter (fun y => decide (flow_identity y = record_identity r)) = [] := by
    rw [List.filter_eq_nil_iff]
    intro y hy
    simpa using hl y (List.mem_append.2 (Or.inl hy))
  have h2 : l2.filter (fun y => decide (flow_identity y = record_identity r)) = [] := by
    rw [List.filter_eq_nil_iff]
    intro y hy
    simpa using hl y (List.mem_append.2 (Or.inr hy))
  rw [List.filter_append, h1, List.filter_cons, h2]
  simp [hs]

theorem foldl_merged_identity (rs : List unified_flow) :
    ∀ s : flow_summary, flow_identity (rs.foldl merged_summary s) = flow_identity s := by
  induction rs with
  | nil => exact fun _ => rfl
  | cons x xs ih =>
    intro s
    rw [List.foldl_cons, ih, merged_summary_identity]

/-- The stored summary of a flow after a sequence of admitted records of that
flow, delivered to a state that holds no summary of the flow. -/
theorem ingest_all_same_flow_stored (st : collector) (r : unified_flow)
    (rs : List unified_flow)
    (hadm : ∀ x ∈ r :: rs, not_excluded st.exclude_tree x)
    (hsame : ∀ x ∈ rs, record_identity x = record_identity r)
    (habs : ∀ s ∈ st.flow_hash_trees (record_tree r), flow_identity s ≠ record_identity r) :
    ((ingest_all st (r :: rs)).flow_hash_trees (record_tree r)).filter
        (fun y => decide (flow_identity y = record_identity r)) =
      [rs.foldl merged_summary (created_summary r)] := by
  obtain ⟨l1, l2, ht, h1, _⟩ := ingest_all_same_flow st r rs hadm hsame habs
  rw [h1]
  refine filter_identity_mid r l1 l2 _ ?_ ?_
  · rw [foldl_merged_identity, created_summary_identity]
  · intro y hy
    exact habs y (by rw [ht]; exact hy)

theorem merged_summary_tcp_flags (s : flow_summary) (x : unified_flow) :
    (merged_summary s x).tcp_flags = s.tcp_flags ||| x.tcp_flags := by
  rw [merged_summary, (update_sources_fields _ _).2.2.1]; rfl

theorem merged_summary_start_time (s : flow_summary) (x : unified_flow) :
    (merged_summary s x).start_time = min s.start_time x.start_time := by
  rw [merged_summary, (update_sources_fields _ _).2.2.2.1]
  simp only [merge_flow, cur_flow_summary]
  rw [min_def]
  split <;> split <;> omega

theorem merged_summary_end_time (s : flow_summary) (x : unified_flow) :
    (merged_summary s x).end_time = max s.end_time x.end_time := by
  rw [merged_summary, (update_sources_fields _ _).2.2.2.2]
  simp only [merge_flow, cur_flow_summary]
  rw [max_def]
  split <;> split <;> omega

theorem foldl_merged_tcp_flags (rs : List unified_flow) :
    ∀ s : flow_summary, (rs.foldl merged_summary s).tcp_flags =
      rs.foldl (fun acc x => acc ||| x.tcp_flags) s.tcp_flags := by
  induction rs with
  | nil => exact fun _ => rfl
  | cons x xs ih =>
    intro s
    rw [List.foldl_cons, List.foldl_cons, ih, merged_summary_tcp_flags]

theorem foldl_merged_start_time (rs : List unified_flow) :
    ∀ s : flow_summary, (rs.foldl merged_summary s).start_time =
      rs.foldl (fun acc x => min acc x.start_time) s.start_time := by
  induction rs with
  | nil => exact fun _ => rfl
  | cons x xs ih =>
    intro s
    rw [List.foldl_cons, List.foldl_cons, ih, merged_summary_start_time]

theorem foldl_merged_end_time (rs : List unified_flow) :
    ∀ s : flow_summary, (rs.foldl merged_summary s).end_time =
      rs.foldl (fun acc x => max acc x.end_time) s.end_time := by
  induction rs with
  | nil => exact fun _ => rfl
  | cons x xs ih =>
    intro s
    rw [List.foldl_cons, List.foldl_cons, ih, merged_summary_end_time]

theorem foldl_min_spec (rs : List unified_flow) :
    ∀ a : Int, (rs.foldl (fun acc x => min acc x.start_time) a ≤ a ∧
      ∀ x ∈ rs, rs.foldl (fun acc x => min acc x.start_time) a ≤ x.start_time) ∧
      (rs.foldl (fun acc x => min acc x.start_time) a = a ∨
        ∃ x ∈ rs, rs.foldl (fun acc x => min acc x.start_time) a = x.start_time) := by
  induction rs with
  | nil => exact fun a => ⟨⟨le_refl _, fun _ h => by cases h⟩, Or.inl rfl⟩
  | cons y ys ih =>
    intro a
    obtain ⟨⟨h1, h2⟩, h3⟩ := ih (min a y.start_time)
    simp only [List.foldl_cons]
    refine ⟨⟨le_trans h1 (min_le_left _ _), ?_⟩, ?_⟩
    · intro x hx
      rcases List.mem_cons.1 hx with rfl | hx
      · exact le_trans h1 (min_le_right _ _)
      · exact h2 x hx
    · rcases h3 with h3 | ⟨x, hx, h3⟩
      · rcases min_choice a y.start_time with hm | hm
        · exact Or.inl (by rw [h3, hm])
        · exact Or.inr ⟨y, List.mem_cons_self _ _, by rw [h3, hm]⟩
      · exact Or.inr ⟨x, List.mem_cons_of_mem _ hx, h3⟩

theorem foldl_max_spec (rs : List unified_flow) :
    ∀ a : Int, (a ≤ rs.foldl (fun acc x => max acc x.end_time) a ∧
      ∀ x ∈ rs, x.end_time ≤ rs.foldl (fun acc x => max acc x.end_time) a) ∧
      (rs.foldl (fun acc x => max acc x.end_time) a = a ∨
        ∃ x ∈ rs, rs.foldl (fun acc x => max acc x.end_time) a = x.end_time) := by
  induction rs with
  | nil => exact fun a => ⟨⟨le_refl _, fun _ h => by cases h⟩, Or.inl rfl⟩
  | cons y ys ih =>
    intro a
    obtain ⟨⟨h1, h2⟩, h3⟩ := ih (max a y.end_time)
    simp only [List.foldl_cons]
    refine ⟨⟨le_trans (le_max_left _ _) h1, ?_⟩, ?_⟩
    · intro x hx
      rcases List.mem_cons.1 hx with rfl | hx
      · exact le_trans (le_max_right _ _) h1
      · exact h2 x hx
    · rcases h3 with h3 | ⟨x, hx, h3⟩
      · rcases max_choice a y.end_time with hm | hm
        · exact Or.inl (by rw [h3, hm])
        · exact Or.inr ⟨y, List.mem_cons_self _ _, by rw [h3, hm]⟩
      · exact Or.inr ⟨x, List.mem_cons_of_mem _ hx, h3⟩


/-- C4: when a non-empty sequence of records of one flow, all passing the
exclusion check, is delivered to `flow_callback` (in a state that holds no
summary of the flow yet, and with no eviction in between), the tree of the
flow holds exactly one summary with that identity afterwards, and its
`tcp_flags` is the bitwise OR of the `tcp_flags` of all records of the
sequence. -/
theorem tcp_flags_is_or_of_records (st : collector) (r : unified_flow)
    (rs : List unified_flow)
    (hadm : ∀ x ∈ r :: rs, not_excluded st.exclude_tree x)
    (hsame : ∀ x ∈ rs, record_identity x = record_identity r)
    (habs : ∀ s ∈ st.flow_hash_trees (record_tree r), flow_identity s ≠ record_identity r) :
    ∃ s, ((ingest_all st (r :: rs)).flow_hash_trees (record_tree r)).filter
          (fun y => decide (flow_identity y = record_identity r)) = [s] ∧
      s.tcp_flags = (r :: rs).foldl (fun acc x => acc ||| x.tcp_flags) 0 := by
  refine ⟨_, ingest_all_same_flow_stored st r rs hadm hsame habs, ?_⟩
  rw [foldl_merged_tcp_flags, List.foldl_cons, Nat.zero_or, created_summary_eq]

/-- Witness for C4: flags 0x02 then 0x10 give 0x12. -/
theorem tcp_flags_is_or_of_records_witness :
    (∀ x ∈ [sample_flow, { sample_flow with tcp_flags := 0x10 }], not_excluded [] x) ∧
    (∀ x ∈ [{ sample_flow with tcp_flags := 0x10 }],
      record_identity x = record_identity sample_flow) ∧
    ∃ s, ((ingest_all (collector_init [])
            [sample_flow, { sample_flow with tcp_flags := 0x10 }]).flow_hash_trees
          (record_tree sample_flow)).filter
          (fun y => decide (flow_identity y = record_identity sample_flow)) = [s] ∧
      s.tcp_flags = 0x12 := by
  have h1 : ∀ x ∈ [sample_flow, { sample_flow with tcp_flags := 0x10 }],
      not_excluded [] x := by decide
  have h2 : ∀ x ∈ [{ sample_flow with tcp_flags := 0x10 }],
      record_identity x = record_identity sample_flow := by decide
  obtain ⟨s, hs, hf⟩ := tcp_flags_is_or_of_records (collector_init []) sample_flow
    [{ sample_flow with tcp_flags := 0x10 }] h1 h2
    (by intro s hs; simp [collector_init] at hs)
  exact ⟨h1, h2, s, hs, hf.trans (by decide)⟩

/-- C5: when a non-empty sequence of records of one flow, all passing the
exclusion check, is delivered to `flow_callback` (in a state that holds no
summary of the flow yet, and with no eviction in between), the stored summary
of the flow has as `start_time` the minimum of the records' `start_time`
values and as `end_time` the maximum of their `end_time` values. -/
theorem start_end_time_envelope (st : collector) (r : unified_flow)
    (rs : List unified_flow)
    (hadm : ∀ x ∈ r :: rs, not_excluded st.exclude_tree x)
    (hsame : ∀ x ∈ rs, record_identity x = record_identity r)
    (habs : ∀ s ∈ st.flow_hash_trees (record_tree r), flow_identity s ≠ record_identity r) :
    ∃ s, ((ingest_all st (r :: rs)).flow_hash_trees (record_tree r)).filter
          (fun y => decide (flow_identity y = record_identity r)) = [s] ∧
      s.start_time = rs.foldl (fun acc x => min acc x.start_time) r.start_time ∧
      s.end_time = rs.foldl (fun acc x => max acc x.end_time) r.end_time ∧
      (∀ x ∈ r :: rs, s.start_time ≤ x.start_time) ∧
      (∃ x ∈ r :: rs, s.start_time = x.start_time) ∧
      (∀ x ∈ r :: rs, x.end_time ≤ s.end_time) ∧
      (∃ x ∈ r :: rs, s.end_time = x.end_time) := by
  have hs : (rs.foldl merged_summary (created_summary r)).start_time =
      rs.foldl (fun acc x => min acc x.start_time) r.start_time := by
    rw [foldl_merged_start_time, created_summary_eq]
  have he : (rs.foldl merged_summary (created_summary r)).end_time =
      rs.foldl (fun acc x => max acc x.end_time) r.end_time := by
    rw [foldl_merged_end_time, created_summary_eq]
  obtain ⟨⟨m1, m2⟩, m3⟩ := foldl_min_spec rs r.start_time
  obtain ⟨⟨n1, n2⟩, n3⟩ := foldl_max_spec rs r.end_time
  refine ⟨_, ingest_all_same_flow_stored st r rs hadm hsame habs, hs, he, ?_, ?_, ?_, ?_⟩
  · intro x hx
    rw [hs]
    rcases List.mem_cons.1 hx with rfl | hx
    · exact m1
    · exact m2 x hx
  · rw [hs]
    rcases m3 with h | ⟨x, hx, h⟩
    · exact ⟨r, List.mem_cons_self _ _, h⟩
    · exact ⟨x, List.mem_cons_of_mem _ hx, h⟩
  · intro x hx
    rw [he]
    rcases List.mem_cons.1 hx with rfl | hx
    · exact n1
    · exact n2 x hx
  · rw [he]
    rcases n3 with h | ⟨x, hx, h⟩
    · exact ⟨r, List.mem_cons_self _ _, h⟩
    · exact ⟨x, List.mem_cons_of_mem _ hx, h⟩

/-- Witness for C5: the (start, end) pairs (100, 120), (90, 115), (110, 130)
give `start_time` 90 and `end_time` 130. -/
theorem start_end_time_envelope_witness :
    (∀ x ∈ [sample_flow, { sample_flow with start_time := 90, end_time := 115 },
        { sample_flow with start_time := 110, end_time := 130 }], not_excluded [] x) ∧
    (∀ x ∈ [{ sample_flow with start_time := 90, end_time := 115 },
        { sample_flow with start_time := 110, end_time := 130 }],
      record_identity x = record_identity sample_flow) ∧
    ∃ s, ((ingest_all (collector_init [])
            [sample_flow, { sample_flow with start_time := 90, end_time := 115 },
              { sample_flow with start_time := 110, end_time := 130 }]).flow_hash_trees
          (record_tree sample_flow)).filter
          (fun y => decide (flow_identity y = record_identity sample_flow)) = [s] ∧
      s.start_time = 90 ∧ s.end_time = 130 := by
  have h1 : ∀ x ∈ [sample_flow, { sample_flow with start_time := 90, end_time := 115 },
      { sample_flow with start_time := 110, end_time := 130 }], not_excluded [] x := by
    decide
  have h2 : ∀ x ∈ [{ sample_flow with start_time := 90, end_time := 115 },
      { sample_flow with start_time := 110, end_time := 130 }],
      record_identity x = record_identity sample_flow := by decide
  obtain ⟨s, hs, hst, hen, _⟩ := start_end_time_envelope (collector_init []) sample_flow
    [{ sample_flow with start_time := 90, end_time := 115 },
      { sample_flow with start_time := 110, end_time := 130 }] h1 h2
    (by intro s hs; simp [collector_init] at hs)
  exact ⟨h1, h2, s, hs, hst.trans (by decide), hen.trans (by decide)⟩


/-! ## The source counter -/

theorem not_excluded_nil (r : unified_flow) : not_excluded [] r := by
  unfold not_excluded is_excluded
  simp [pavl_find]

/-- State after the records of `n + 1` exporters for one flow: one summary,
with `n + 1` source nodes, and a counter that has wrapped at 256. -/
theorem exporter_flows_state (n : Nat) :
    ∃ s, (ingest_all (collector_init []) (exporter_flows (n + 1))).flow_hash_trees
          (record_tree sample_flow) = [s] ∧
      (ingest_all (collector_init []) (exporter_flows (n + 1))).exclude_tree = [] ∧
      flow_identity s = record_identity sample_flow ∧
      s.sources.length = n + 1 ∧ s.source_count = (n + 1) % U8 ∧
      ∀ e ∈ s.sources, e.flow_src ≤ n := by
  induction n with
  | zero =>
    refine ⟨created_summary (exporter_flow 0), ?_, ?_, ?_, ?_, ?_, ?_⟩
    · decide
    · decide
    · decide
    · decide
    · decide
    · decide
  | succ n ih =>
    obtain ⟨s, ht, hex, hid, hlen, hcnt, hsrc⟩ := ih
    have hk : record_tree (exporter_flow (n + 1)) = record_tree sample_flow := rfl
    have hstep : ingest_all (collector_init []) (exporter_flows (n + 1 + 1)) =
        flow_callback (ingest_all (collector_init []) (exporter_flows (n + 1)))
          (exporter_flow (n + 1)) := by
      simp only [exporter_flows, List.range_succ, List.map_append, ingest_all,
        List.foldl_append, List.map_cons, List.map_nil, List.foldl_cons, List.foldl_nil]
    have hfound := flow_callback_found
      (ingest_all (collector_init []) (exporter_flows (n + 1))) (exporter_flow (n + 1))
      (by rw [hex]; exact not_excluded_nil _) [] s [] (by rw [hk, ht]; rfl)
      (by intro y hy; cases hy)
      ((compare_flows_eq_zero_iff _ _).2 (by rw [hid]; rfl))
    refine ⟨merged_summary s (exporter_flow (n + 1)), ?_, ?_, ?_, ?_, ?_, ?_⟩
    · rw [hstep, hfound]
      simp [collector_merged, hk]
    · rw [hstep, hfound]
      exact hex
    · rw [merged_summary_identity, hid]
    all_goals
      rcases update_sources_spec (exporter_flow (n + 1))
          (merge_flow s (cur_flow_summary (exporter_flow (n + 1)))) with
        ⟨p, q, hs, hp, hq, hu⟩ | ⟨p, m, q, hs, hp, hm, hu⟩
    · unfold merged_summary
      rw [hu]
      have hs' : s.sources = p ++ q := hs
      simp only [List.length_append, List.length_cons]
      rw [hs', List.length_append] at hlen
      omega
    · exfalso
      have hs' : s.sources = p ++ m :: q := hs
      have := hsrc m (by rw [hs']; simp)
      have hm' : m.flow_src = n + 1 := hm
      omega
    · unfold merged_summary
      rw [hu]
      show (s.source_count + 1) % U8 = (n + 1 + 1) % U8
      rw [hcnt]
      simp only [U8]
      omega
    · exfalso
      have hs' : s.sources = p ++ m :: q := hs
      have := hsrc m (by rw [hs']; simp)
      have hm' : m.flow_src = n + 1 := hm
      omega
    · unfold merged_summary
      rw [hu]
      have hs' : s.sources = p ++ q := hs
      intro e he
      simp only [List.mem_append, List.mem_cons] at he
      rcases he with he | rfl | he
      · have := hsrc e (by rw [hs']; exact List.mem_append.2 (Or.inl he))
        omega
      · show n + 1 ≤ n + 1
        exact le_refl _
      · have := hsrc e (by rw [hs']; exact List.mem_append.2 (Or.inr he))
        omega
    · exfalso
      have hs' : s.sources = p ++ m :: q := hs
      have := hsrc m (by rw [hs']; simp)
      have hm' : m.flow_src = n + 1 := hm
      omega

/-- Counterexample to C6 as stated: after the records of 256 distinct exporters
for one flow, the stored summary has 256 source nodes and `source_count` 0. -/
theorem source_count_wraps_at_256 :
    ∃ s ∈ (ingest_all (collector_init []) (exporter_flows 256)).flow_hash_trees
        (record_tree sample_flow),
      s.sources.length = 256 ∧ s.source_count = 0 ∧ s.source_count ≠ s.sources.length := by
  obtain ⟨s, ht, _, _, hlen, hcnt, _⟩ := exporter_flows_state 255
  refine ⟨s, by rw [ht]; exact List.mem_singleton_self s, hlen, hcnt, ?_⟩
  rw [hcnt, hlen]
  decide

/-- C6 (amended): after every sequence of `flow_callback` calls and janitor
sweeps from empty flow trees, the `source_count` of every stored summary is
the number of nodes of its source list modulo 256 (the field is 8 bits wide),
hence equal to that number whenever the list has at most 255 nodes. -/
theorem source_count_is_length_mod_256 (ex : pavl_table exclude_node)
    (ops : List collector_op) :
    ∃ st, run_ops (collector_init ex) ops = some st ∧
      ∀ k, ∀ s ∈ st.flow_hash_trees k,
        s.source_count = s.sources.length % 256 ∧
        (s.sources.length ≤ 255 → s.source_count = s.sources.length) := by
  obtain ⟨st, hrun, hwf⟩ := run_ops_wf ops (collector_init ex) (collector_wf_init ex)
  refine ⟨st, hrun, ?_⟩
  intro k s hs
  have h := hwf.counted k s hs
  simp only [U8] at h
  exact ⟨h, fun hle => by rw [h]; exact Nat.mod_eq_of_lt (by omega)⟩


/-! ## Stored summaries as a function of the records delivered -/

theorem summary_of_append_singleton (l : List unified_flow) (r : unified_flow) :
    summary_of (l ++ [r]) =
      match summary_of l with
      | none => some (created_summary r)
      | some s => some (merged_summary s r) := by
  cases l with
  | nil => rfl
  | cons a as => simp [summary_of, List.foldl_append]

theorem merged_records_append_singleton (ex : pavl_table exclude_node)
    (key : Nat × Nat × Nat × Nat × Nat) (l : List unified_flow) (r : unified_flow) :
    merged_records ex key (l ++ [r]) =
      if not_excluded ex r ∧ record_identity r = key then merged_records ex key l ++ [r]
      else merged_records ex key l := by
  unfold merged_records
  rw [List.filter_append]
  by_cases h : not_excluded ex r ∧ record_identity r = key
  · rw [if_pos h]
    simp [List.filter_cons, h.1, h.2]
  · rw [if_neg h]
    have : (decide (not_excluded ex r) && decide (record_identity r = key)) = false := by
      rw [Bool.and_eq_false_iff]
      by_cases h1 : not_excluded ex r
      · exact Or.inr (by simpa using fun h2 => h ⟨h1, h2⟩)
      · exact Or.inl (by simpa using h1)
    simp [List.filter_cons, this]

theorem mem_merged_records {ex : pavl_table exclude_node}
    {key : Nat × Nat × Nat × Nat × Nat} {l : List unified_flow} {r : unified_flow} :
    r ∈ merged_records ex key l ↔ r ∈ l ∧ not_excluded ex r ∧ record_identity r = key := by
  simp [merged_records, List.mem_filter]

/-- The two ways a record that passes the exclusion check changes a
well-formed state. -/
theorem flow_callback_cases {st : collector} (hwf : collector_wf st) (r : unified_flow)
    (hadm : not_excluded st.exclude_tree r) :
    (∃ l1 l2, st.flow_hash_trees (record_tree r) = l1 ++ l2 ∧
      (∀ y ∈ l1 ++ l2, flow_identity y ≠ record_identity r) ∧
      flow_callback st r = collector_created st r l1 l2) ∨
    (∃ l1 old l2, st.flow_hash_trees (record_tree r) = l1 ++ old :: l2 ∧
      flow_identity old = record_identity r ∧
      (∀ y ∈ l1 ++ l2, flow_identity y ≠ record_identity r) ∧
      flow_callback st r = collector_merged st r l1 old l2) := by
  by_cases h : ∃ s ∈ st.flow_hash_trees (record_tree r), flow_identity s = record_identity r
  · obtain ⟨s, hs, hid⟩ := h
    obtain ⟨l1, l2, ht, hu, hr⟩ :=
      flow_callback_present st r hadm (hwf.ordered _) hs hid
    exact Or.inr ⟨l1, s, l2, ht, hid, hu, hr⟩
  · have habs : ∀ s ∈ st.flow_hash_trees (record_tree r),
        flow_identity s ≠ record_identity r := fun s hs hid => h ⟨s, hs, hid⟩
    obtain ⟨l1, l2, ht, _, _, hr⟩ := flow_callback_absent st r hadm habs
    exact Or.inl ⟨l1, l2, ht, fun y hy => habs y (by rw [ht]; exact hy), hr⟩

/-- A summary stored in a well-formed state under another identity than that
of the record, in whatever tree. -/
theorem other_identity_of_tree {st : collector} (hwf : collector_wf st) (r : unified_flow)
    {k : Nat} {s : flow_summary} (hs : s ∈ st.flow_hash_trees k)
    (hk : k ≠ record_tree r) : flow_identity s ≠ record_identity r := by
  intro hid
  have h1 := hwf.hashed k s hs
  have h2 : TREEHASH s = record_tree r := TREEHASH_congr hid
  omega

/-- After any sequence of `flow_callback` calls from empty trees: the bounds
of the exclusion tree are as at the start, every stored summary is the one
built from the admitted records of its identity, in delivery order, and every
admitted record has its summary in the tree it hashes to. -/
theorem ingest_all_summaries (ex : pavl_table exclude_node) (rs : List unified_flow) :
    exclude_bounds (ingest_all (collector_init ex) rs).exclude_tree = exclude_bounds ex ∧
    (∀ k, ∀ s ∈ (ingest_all (collector_init ex) rs).flow_hash_trees k,
      summary_of (merged_records ex (flow_identity s) rs) = some s) ∧
    (∀ r ∈ rs, not_excluded ex r →
      ∃ s ∈ (ingest_all (collector_init ex) rs).flow_hash_trees (record_tree r),
        flow_identity s = record_identity r) := by
  induction rs using List.reverseRecOn with
  | nil =>
    refine ⟨rfl, ?_, ?_⟩
    · intro k s hs
      simp [ingest_all, collector_init] at hs
    · intro r hr
      cases hr
  | append_singleton rs r ih =>
    obtain ⟨hb, hsum, hcov⟩ := ih
    have hwf : collector_wf (ingest_all (collector_init ex) rs) :=
      ingest_all_wf rs _ (collector_wf_init ex)
    rw [ingest_all_append]
    show exclude_bounds (flow_callback (ingest_all (collector_init ex) rs) r).exclude_tree =
        exclude_bounds ex ∧
      (∀ k, ∀ s ∈ (flow_callback (ingest_all (collector_init ex) rs) r).flow_hash_trees k,
        summary_of (merged_records ex (flow_identity s) (rs ++ [r])) = some s) ∧
      (∀ x ∈ rs ++ [r], not_excluded ex x →
        ∃ s ∈ (flow_callback (ingest_all (collector_init ex) rs) r).flow_hash_trees
            (record_tree x), flow_identity s = record_identity x)
    generalize ingest_all (collector_init ex) rs = st at hb hsum hcov hwf
    by_cases hadm : not_excluded st.exclude_tree r
    · have hadm' : not_excluded ex r := (not_excluded_congr hb r).1 hadm
      rcases flow_callback_cases hwf r hadm with
        ⟨l1, l2, ht, habs, hr⟩ | ⟨l1, old, l2, ht, hid, huniq, hr⟩
      · -- the record creates its summary
        have hnone : merged_records ex (record_identity r) rs = [] := by
          rw [List.eq_nil_iff_forall_not_mem]
          intro x hx
          obtain ⟨hx1, hx2, hx3⟩ := mem_merged_records.1 hx
          obtain ⟨s, hs, hs'⟩ := hcov x hx1 hx2
          rw [record_tree_congr hx3, ht] at hs
          exact habs s hs (by rw [hs', hx3])
        have hmem : ∀ k s, s ∈ (flow_callback st r).flow_hash_trees k →
            (s ∈ st.flow_hash_trees k ∧ flow_identity s ≠ record_identity r) ∨
            s = created_summary r := by
          intro k s hs
          rw [hr] at hs
          simp only [collector_created] at hs
          by_cases hk : k = record_tree r
          · subst hk
            rw [if_pos rfl] at hs
            simp only [List.mem_append, List.mem_cons] at hs
            rcases hs with hs | rfl | hs
            · exact Or.inl ⟨by rw [ht]; exact List.mem_append.2 (Or.inl hs),
                habs s (List.mem_append.2 (Or.inl hs))⟩
            · exact Or.inr rfl
            · exact Or.inl ⟨by rw [ht]; exact List.mem_append.2 (Or.inr hs),
                habs s (List.mem_append.2 (Or.inr hs))⟩
          · rw [if_neg hk] at hs
            exact Or.inl ⟨hs, other_identity_of_tree hwf r hs hk⟩
        refine ⟨by rw [hr]; exact hb, ?_, ?_⟩
        · intro k s hs
          rcases hmem k s hs with ⟨hs', hne⟩ | rfl
          · rw [merged_records_append_singleton,
              if_neg (fun h => hne h.2.symm)]
            exact hsum k s hs'
          · rw [merged_records_append_singleton, created_summary_identity,
              if_pos ⟨hadm', rfl⟩, hnone]
            rfl
        · intro x hx hxa
          rcases List.mem_append.1 hx with hx | hx
          · obtain ⟨s, hs, hs'⟩ := hcov x hx hxa
            refine ⟨s, ?_, hs'⟩
            rw [hr]
            simp only [collector_created]
            by_cases hk : record_tree x = record_tree r
            · rw [if_pos hk]
              rw [hk, ht] at hs
              rcases List.mem_append.1 hs with hs | hs
              · exact List.mem_append.2 (Or.inl hs)
              · exact List.mem_append.2 (Or.inr (List.mem_cons_of_mem _ hs))
            · rw [if_neg hk]
              exact hs
          · rw [List.mem_singleton] at hx
            subst hx
            refine ⟨created_summary x, ?_, created_summary_identity x⟩
            rw [hr]
            simp [collector_created]
      · -- the record is merged into `old`
        have hold : old ∈ st.flow_hash_trees (record_tree r) := by rw [ht]; simp
        have hmem : ∀ k s, s ∈ (flow_callback st r).flow_hash_trees k →
            (s ∈ st.flow_hash_trees k ∧ flow_identity s ≠ record_identity r) ∨
            s = merged_summary old r := by
          intro k s hs
          rw [hr] at hs
          simp only [collector_merged] at hs
          by_cases hk : k = record_tree r
          · subst hk
            rw [if_pos rfl] at hs
            simp only [List.mem_append, List.mem_cons] at hs
            rcases hs with hs | rfl | hs
            · exact Or.inl ⟨by rw [ht]; exact List.mem_append.2 (Or.inl hs),
                huniq s (List.mem_append.2 (Or.inl hs))⟩
            · exact Or.inr rfl
            · exact Or.inl
                ⟨by rw [ht]; exact List.mem_append.2 (Or.inr (List.mem_cons_of_mem _ hs)),
                  huniq s (List.mem_append.2 (Or.inr hs))⟩
          · rw [if_neg hk] at hs
            exact Or.inl ⟨hs, other_identity_of_tree hwf r hs hk⟩
        refine ⟨by rw [hr]; exact hb, ?_, ?_⟩
        · intro k s hs
          rcases hmem k s hs with ⟨hs', hne⟩ | rfl
          · rw [merged_records_append_singleton,
              if_neg (fun h => hne h.2.symm)]
            exact hsum k s hs'
          · rw [merged_records_append_singleton, merged_summary_identity, hid,
              if_pos ⟨hadm', rfl⟩, summary_of_append_singleton]
            have := hsum _ old hold
            rw [hid] at this
            rw [this]
        · intro x hx hxa
          have hnew : merged_summary old r ∈
              (flow_callback st r).flow_hash_trees (record_tree r) := by
            rw [hr]
            simp [collector_merged]
          rcases List.mem_append.1 hx with hx | hx
          · obtain ⟨s, hs, hs'⟩ := hcov x hx hxa
            by_cases hxr : record_identity x = record_identity r
            · refine ⟨merged_summary old r, ?_, ?_⟩
              · rw [record_tree_congr hxr]
                exact hnew
              · rw [merged_summary_identity, hid, hxr]
            · refine ⟨s, ?_, hs'⟩
              rw [hr]
              simp only [collector_merged]
              by_cases hk : record_tree x = record_tree r
              · rw [if_pos hk]
                rw [hk, ht] at hs
                simp only [List.mem_append, List.mem_cons] at hs ⊢
                rcases hs with hs | rfl | hs
                · exact Or.inl hs
                · exact absurd (hs'.symm.trans hid) hxr
                · exact Or.inr (Or.inr hs)
              · rw [if_neg hk]
                exact hs
          · rw [List.mem_singleton] at hx
            subst hx
            exact ⟨merged_summary old x, hnew, by rw [merged_summary_identity, hid]⟩
    · have hadm' : ¬ not_excluded ex r := fun h => hadm ((not_excluded_congr hb r).2 h)
      obtain ⟨ex', hb', hr⟩ := flow_callback_excluded st r hadm
      rw [hr]
      refine ⟨hb'.trans hb, ?_, ?_⟩
      · intro k s hs
        rw [merged_records_append_singleton, if_neg (fun h => hadm' h.1)]
        exact hsum k s hs
      · intro x hx hxa
        rcases List.mem_append.1 hx with hx | hx
        · exact hcov x hx hxa
        · rw [List.mem_singleton] at hx
          subst hx
          exact absurd hxa hadm'


/-! ## Exporters of a source list -/

theorem update_sources_exporters (r : unified_flow) (s : flow_summary) (x : Nat) :
    x ∈ (update_sources r s).sources.map (fun n => n.flow_src) ↔
      x = r.flow_src ∨ x ∈ s.sources.map (fun n => n.flow_src) := by
  rcases update_sources_spec r s with ⟨p, q, hs, _, _, hu⟩ | ⟨p, n, q, hs, _, hn, hu⟩
  · rw [hu, hs]
    simp only [List.map_append, List.map_cons, List.mem_append, List.mem_cons,
      new_flow_source_summary]
    tauto
  · rw [hu, hs]
    simp only [List.map_append, List.map_cons, List.mem_append, List.mem_cons, hn]
    tauto

theorem merged_summary_exporters (s : flow_summary) (r : unified_flow) (x : Nat) :
    x ∈ (merged_summary s r).sources.map (fun n => n.flow_src) ↔
      x = r.flow_src ∨ x ∈ s.sources.map (fun n => n.flow_src) := by
  unfold merged_summary
  rw [update_sources_exporters]
  rfl

theorem foldl_merged_exporters (rs : List unified_flow) (x : Nat) :
    ∀ s : flow_summary,
      x ∈ (rs.foldl merged_summary s).sources.map (fun n => n.flow_src) ↔
        x ∈ s.sources.map (fun n => n.flow_src) ∨ ∃ r ∈ rs, r.flow_src = x := by
  induction rs with
  | nil => intro s; simp
  | cons y ys ih =>
    intro s
    rw [List.foldl_cons, ih, merged_summary_exporters]
    simp only [List.mem_cons, exists_eq_or_imp]
    constructor
    · rintro ((h | h) | h)
      · exact Or.inr (Or.inl h.symm)
      · exact Or.inl h
      · exact Or.inr (Or.inr h)
    · rintro (h | h | h)
      · exact Or.inl (Or.inr h)
      · exact Or.inl (Or.inl h.symm)
      · exact Or.inr h

theorem summary_of_exporters {m : List unified_flow} {s : flow_summary}
    (h : summary_of m = some s) (x : Nat) :
    x ∈ s.sources.map (fun n => n.flow_src) ↔ ∃ r ∈ m, r.flow_src = x := by
  cases m with
  | nil => cases h
  | cons a as =>
    simp only [summary_of, Option.some.injEq] at h
    rw [← h, foldl_merged_exporters, created_summary_eq]
    simp only [List.map_cons, List.map_nil, List.mem_singleton, List.mem_cons,
      List.not_mem_nil, or_false, exists_eq_or_imp]
    constructor
    · rintro (h | h)
      · exact Or.inl h.symm
      · exact Or.inr h
    · rintro (h | h)
      · exact Or.inl h.symm
      · exact Or.inr h

/-- C7: after any sequence of `flow_callback` calls from empty flow trees,
the source list of every stored summary is strictly ascending by exporter
address, so no exporter address occurs twice in it, and the exporter
addresses in the list are exactly the exporters of the records merged into
the summary, that is of the delivered records that pass the exclusion check
and carry the identity of the summary. -/
theorem sources_ascending_and_complete (ex : pavl_table exclude_node)
    (rs : List unified_flow) (k : Nat) (s : flow_summary)
    (hs : s ∈ (ingest_all (collector_init ex) rs).flow_hash_trees k) :
    s.sources.Pairwise (fun a b => a.flow_src < b.flow_src) ∧
    (s.sources.map (fun n => n.flow_src)).Nodup ∧
    ∀ x, x ∈ s.sources.map (fun n => n.flow_src) ↔
      ∃ r ∈ rs, not_excluded ex r ∧ record_identity r = flow_identity s ∧ r.flow_src = x := by
  have hwf : collector_wf (ingest_all (collector_init ex) rs) :=
    ingest_all_wf rs _ (collector_wf_init ex)
  have hasc := hwf.ascending k s hs
  refine ⟨hasc, ?_, ?_⟩
  · unfold List.Nodup
    rw [List.pairwise_map]
    exact hasc.imp (fun h => Nat.ne_of_lt h)
  · intro x
    rw [summary_of_exporters ((ingest_all_summaries ex rs).2.1 k s hs) x]
    constructor
    · rintro ⟨r, hr, hx⟩
      obtain ⟨h1, h2, h3⟩ := mem_merged_records.1 hr
      exact ⟨r, h1, h2, h3, hx⟩
    · rintro ⟨r, h1, h2, h3, hx⟩
      exact ⟨r, mem_merged_records.2 ⟨h1, h2, h3⟩, hx⟩

/-- Witness for C7: the same flow reported by exporters 9 and then 7 is stored
with the source list in the order 7, 9. -/
theorem sources_ascending_and_complete_witness :
    merged_summary (created_summary (exporter_flow 9)) (exporter_flow 7) ∈
      (ingest_all (collector_init []) [exporter_flow 9, exporter_flow 7]).flow_hash_trees
        (record_tree sample_flow) ∧
    (merged_summary (created_summary (exporter_flow 9)) (exporter_flow 7)).sources.map
      (fun n => n.flow_src) = [7, 9] ∧
    (merged_summary (created_summary (exporter_flow 9)) (exporter_flow 7)).sources.Pairwise
      (fun a b => a.flow_src < b.flow_src) :=
  have hs : merged_summary (created_summary (exporter_flow 9)) (exporter_flow 7) ∈
      (ingest_all (collector_init []) [exporter_flow 9, exporter_flow 7]).flow_hash_trees
        (record_tree sample_flow) := by decide
  ⟨hs, by decide,
    (sources_ascending_and_complete [] [exporter_flow 9, exporter_flow 7]
      (record_tree sample_flow) _ hs).1⟩


/-! ## A further record from a known exporter -/

theorem sources_split_unique :
    ∀ (p p' : List flow_source_summary) (e n : flow_source_summary)
      (q q' : List flow_source_summary),
      (p ++ e :: q).Pairwise (fun a b => a.flow_src < b.flow_src) →
      p ++ e :: q = p' ++ n :: q' → e.flow_src = n.flow_src →
      p = p' ∧ e = n ∧ q = q' := by
  intro p
  induction p with
  | nil =>
    intro p' e n q q' hasc heq hsrc
    cases p' with
    | nil =>
      simp only [List.nil_append, List.cons.injEq] at heq
      exact ⟨rfl, heq.1, heq.2⟩
    | cons z zs =>
      exfalso
      simp only [List.nil_append, List.cons_append, List.cons.injEq] at heq
      obtain ⟨h1, h2⟩ := heq
      rw [List.nil_append, List.pairwise_cons] at hasc
      have := hasc.1 n (by rw [h2]; simp)
      omega
  | cons w ws ih =>
    intro p' e n q q' hasc heq hsrc
    cases p' with
    | nil =>
      exfalso
      simp only [List.nil_append, List.cons_append, List.cons.injEq] at heq
      obtain ⟨h1, h2⟩ := heq
      rw [List.cons_append, List.pairwise_cons] at hasc
      have := hasc.1 e (by simp)
      rw [h1] at this
      omega
    | cons z zs =>
      simp only [List.cons_append, List.cons.injEq] at heq
      obtain ⟨h1, h2⟩ := heq
      rw [List.cons_append, List.pairwise_cons] at hasc
      obtain ⟨r1, r2, r3⟩ := ih zs e n q q' hasc.2 h2 hsrc
      exact ⟨by rw [h1, r1], r2, r3⟩

theorem update_sources_known_exporter (r : unified_flow) (s : flow_summary)
    (p : List flow_source_summary) (e : flow_source_summary) (q : List flow_source_summary)
    (hasc : s.sources.Pairwise (fun a b => a.flow_src < b.flow_src))
    (hsplit : s.sources = p ++ e :: q) (he : e.flow_src = r.flow_src) :
    update_sources r s = { s with sources := p ++ source_plus e r :: q } := by
  rcases update_sources_spec r s with ⟨p', q', hs, hp, hq, _⟩ | ⟨p', n, q', hs, _, hn, hu⟩
  · exfalso
    have hmem : e ∈ p' ++ q' := by rw [← hs, hsplit]; simp
    rcases List.mem_append.1 hmem with h | h
    · have := hp e h
      omega
    · cases q' with
      | nil => cases h
      | cons z zs =>
        have hz := hq z rfl
        rcases List.mem_cons.1 h with rfl | h
        · omega
        · rw [hs] at hasc
          have := (sources_ascending_mid hasc).2 e h
          omega
  · rw [hsplit] at hasc hs
    obtain ⟨r1, r2, r3⟩ := sources_split_unique p p' e n q q' hasc hs (by rw [he, hn])
    rw [hu, r1, r2, r3]
    rfl

theorem flow_callback_known_exporter {st : collector} (hwf : collector_wf st)
    (r : unified_flow) (l1 : List flow_summary) (s : flow_summary) (l2 : List flow_summary)
    (p : List flow_source_summary) (e : flow_source_summary) (q : List flow_source_summary)
    (ht : st.flow_hash_trees (record_tree r) = l1 ++ s :: l2)
    (hid : flow_identity s = record_identity r)
    (hsplit : s.sources = p ++ e :: q) (he : e.flow_src = r.flow_src) :
    (flow_callback st r).flow_hash_trees (record_tree r) =
        l1 ++ { merge_flow s (cur_flow_summary r) with
                sources := p ++ source_plus e r :: q } :: l2 ∧
      (∀ k, k ≠ record_tree r →
        (flow_callback st r).flow_hash_trees k = st.flow_hash_trees k) := by
  have hs : s ∈ st.flow_hash_trees (record_tree r) := by rw [ht]; simp
  have hadm : not_excluded st.exclude_tree r := by
    have h := hwf.admitted _ s hs
    simp only [flow_identity, record_identity, Prod.mk.injEq] at hid
    unfold not_excluded
    rw [← hid.2.1, ← hid.2.2.1]
    exact h
  have hord := hwf.ordered (record_tree r)
  rw [ht] at hord
  have hcs : flow_identity (cur_flow_summary r) = flow_identity s := by rw [hid]; rfl
  have hr := flow_callback_found st r hadm l1 s l2 ht
    (fun y hy => by
      rw [compare_flows_congr_left y hcs]
      exact flow_tree_ordered_before hord y hy)
    ((compare_flows_eq_zero_iff _ _).2 hcs)
  have hm : merged_summary s r =
      { merge_flow s (cur_flow_summary r) with sources := p ++ source_plus e r :: q } :=
    update_sources_known_exporter r (merge_flow s (cur_flow_summary r)) p e q
      (hwf.ascending _ s hs) hsplit he
  refine ⟨?_, ?_⟩
  · rw [hr, ← hm]
    simp [collector_merged]
  · intro k hk
    rw [hr]
    simp [collector_merged, hk]


/-- C8: in every state reached from empty flow trees by `flow_callback` calls
and janitor sweeps, if the summary `s` with the identity of the record `r`
has a source entry `e` for the exporter of `r`, then `flow_callback` on `r`
replaces `s` in place by a summary whose source list differs from that of
`s` only in this entry: its `num_flows` grows by 1, its `num_packets` by
`r.num_packets` and its `num_bytes` by `r.num_bytes` (modulo 2^64), while its
exporter address, `src_int` and `dst_int`, all other entries, the order of
the list and `source_count` stay as they are. Delivering `r` once more adds
the same amounts again. -/
theorem known_exporter_counts_add (ex : pavl_table exclude_node) (ops : List collector_op)
    (st : collector) (r : unified_flow) (k : Nat) (s : flow_summary)
    (e : flow_source_summary)
    (hrun : run_ops (collector_init ex) ops = some st)
    (hs : s ∈ st.flow_hash_trees k) (hid : flow_identity s = record_identity r)
    (he : e ∈ s.sources) (hsrc : e.flow_src = r.flow_src) :
    ∃ l1 l2 p q, st.flow_hash_trees k = l1 ++ s :: l2 ∧ s.sources = p ++ e :: q ∧
      (∃ s1, (flow_callback st r).flow_hash_trees k = l1 ++ s1 :: l2 ∧
        s1.sources = p ++
          { e with
            num_packets := (e.num_packets + r.num_packets) % 2 ^ 64
            num_bytes := (e.num_bytes + r.num_bytes) % 2 ^ 64
            num_flows := (e.num_flows + 1) % 2 ^ 64 } :: q ∧
        s1.source_count = s.source_count) ∧
      (∃ s2, (flow_callback (flow_callback st r) r).flow_hash_trees k = l1 ++ s2 :: l2 ∧
        s2.sources = p ++
          { e with
            num_packets := ((e.num_packets + r.num_packets) % 2 ^ 64 + r.num_packets) % 2 ^ 64
            num_bytes := ((e.num_bytes + r.num_bytes) % 2 ^ 64 + r.num_bytes) % 2 ^ 64
            num_flows := ((e.num_flows + 1) % 2 ^ 64 + 1) % 2 ^ 64 } :: q ∧
        s2.source_count = s.source_count) := by
  obtain ⟨st', hrun', hwf⟩ := run_ops_wf ops (collector_init ex) (collector_wf_init ex)
  rw [hrun] at hrun'
  cases hrun'
  have hk : k = record_tree r := by
    rw [← hwf.hashed k s hs]
    exact TREEHASH_congr hid
  subst hk
  obtain ⟨l1, l2, ht⟩ := List.append_of_mem hs
  obtain ⟨p, q, hsplit⟩ := List.append_of_mem he
  have h1 := flow_callback_known_exporter hwf r l1 s l2 p e q ht hid hsplit hsrc
  have hwf1 : collector_wf (flow_callback st r) := collector_wf_flow_callback hwf r
  have h2 := flow_callback_known_exporter hwf1 r l1 _ l2 p (source_plus e r) q h1.1
    (by rw [← hid]; rfl) rfl hsrc
  exact ⟨l1, l2, p, q, ht, hsplit, ⟨_, h1.1, rfl, rfl⟩, ⟨_, h2.1, rfl, rfl⟩⟩

/-- Witness for C8: `sample_flow` delivered to the state its first delivery
left. -/
theorem known_exporter_counts_add_witness :
    run_ops (collector_init []) [collector_op.ingest sample_flow] =
      some (flow_callback (collector_init []) sample_flow) ∧
    created_summary sample_flow ∈
      (flow_callback (collector_init []) sample_flow).flow_hash_trees
        (record_tree sample_flow) ∧
    new_flow_source_summary sample_flow ∈ (created_summary sample_flow).sources ∧
    ∃ l1 l2 p q s1,
      (flow_callback (flow_callback (collector_init []) sample_flow)
        sample_flow).flow_hash_trees (record_tree sample_flow) = l1 ++ s1 :: l2 ∧
      s1.sources = p ++
        { new_flow_source_summary sample_flow with
          num_packets := 10, num_bytes := 1000, num_flows := 2 } :: q := by
  have h1 : run_ops (collector_init []) [collector_op.ingest sample_flow] =
      some (flow_callback (collector_init []) sample_flow) := rfl
  have h2 : created_summary sample_flow ∈
      (flow_callback (collector_init []) sample_flow).flow_hash_trees
        (record_tree sample_flow) := by decide
  have h3 : new_flow_source_summary sample_flow ∈ (created_summary sample_flow).sources := by
    decide
  obtain ⟨l1, l2, p, q, _, _, ⟨s1, ht, hsrc, _⟩, _⟩ :=
    known_exporter_counts_add [] [collector_op.ingest sample_flow] _ sample_flow
      (record_tree sample_flow) (created_summary sample_flow)
      (new_flow_source_summary sample_flow) h1 h2 (by decide) h3 rfl
  exact ⟨h1, h2, h3, l1, l2, p, q, s1, ht, hsrc⟩


/-! ## Order of arrival -/

theorem ingest_pair_stored (ex : pavl_table exclude_node) (r1 r2 : unified_flow)
    (h1 : not_excluded ex r1) (h2 : not_excluded ex r2)
    (hid : record_identity r2 = record_identity r1) :
    (ingest_all (collector_init ex) [r1, r2]).flow_hash_trees (record_tree r1) =
      [merged_summary (created_summary r1) r2] := by
  obtain ⟨l1, l2, ht, hr, _⟩ := ingest_all_same_flow (collector_init ex) r1 [r2]
    (by
      intro x hx
      simp only [List.mem_cons, List.mem_singleton, List.not_mem_nil, or_false] at hx
      rcases hx with rfl | rfl
      · exact h1
      · exact h2)
    (by
      intro x hx
      rw [List.mem_singleton] at hx
      rw [hx, hid])
    (by intro s hs; simp [collector_init] at hs)
  have hnil : l1 ++ l2 = [] := by rw [← ht]; rfl
  obtain ⟨rfl, rfl⟩ := List.append_eq_nil.1 hnil
  rw [hr]
  rfl

theorem merged_pair_sources (r1 r2 : unified_flow) :
    (merged_summary (created_summary r1) r2).source_count =
        (merged_summary (created_summary r2) r1).source_count ∧
      (merged_summary (created_summary r1) r2).sources.map
          (fun n => (n.flow_src, n.num_packets, n.num_bytes, n.num_flows)) =
        (merged_summary (created_summary r2) r1).sources.map
          (fun n => (n.flow_src, n.num_packets, n.num_bytes, n.num_flows)) := by
  rw [created_summary_eq, created_summary_eq]
  rcases Nat.lt_trichotomy r1.flow_src r2.flow_src with h | h | h
  · have h' : ¬ r2.flow_src < r1.flow_src := by omega
    have h'' : ¬ r2.flow_src = r1.flow_src := by omega
    simp [merged_summary, update_sources, find_source, merge_flow, new_flow_source_summary,
      h, h', h'']
  · simp [merged_summary, update_sources, find_source, merge_flow, new_flow_source_summary,
      h, Nat.add_comm]
  · have h' : ¬ r1.flow_src < r2.flow_src := by omega
    have h'' : ¬ r1.flow_src = r2.flow_src := by omega
    simp [merged_summary, update_sources, find_source, merge_flow, new_flow_source_summary,
      h, h', h'']

/-- C9: for two records of one flow that pass the exclusion check, delivering
them to empty flow trees in either order leaves a single summary with the
same `tcp_flags`, `start_time`, `end_time` and `source_count`, and source
lists that name the same exporters in the same order with the same
`num_packets`, `num_bytes` and `num_flows`. -/
theorem merge_is_commutative (ex : pavl_table exclude_node) (r1 r2 : unified_flow)
    (h1 : not_excluded ex r1) (h2 : not_excluded ex r2)
    (hid : record_identity r1 = record_identity r2) :
    ∃ s12 s21,
      (ingest_all (collector_init ex) [r1, r2]).flow_hash_trees (record_tree r1) = [s12] ∧
      (ingest_all (collector_init ex) [r2, r1]).flow_hash_trees (record_tree r1) = [s21] ∧
      s12.tcp_flags = s21.tcp_flags ∧ s12.start_time = s21.start_time ∧
      s12.end_time = s21.end_time ∧ s12.source_count = s21.source_count ∧
      s12.sources.map (fun n => (n.flow_src, n.num_packets, n.num_bytes, n.num_flows)) =
        s21.sources.map (fun n => (n.flow_src, n.num_packets, n.num_bytes, n.num_flows)) := by
  have hk : record_tree r2 = record_tree r1 := record_tree_congr hid.symm
  have ha := ingest_pair_stored ex r1 r2 h1 h2 hid.symm
  have hb := ingest_pair_stored ex r2 r1 h2 h1 hid
  rw [hk] at hb
  refine ⟨_, _, ha, hb, ?_, ?_, ?_, (merged_pair_sources r1 r2).1, (merged_pair_sources r1 r2).2⟩
  · rw [merged_summary_tcp_flags, merged_summary_tcp_flags, created_summary_eq,
      created_summary_eq]
    exact Nat.lor_comm _ _
  · rw [merged_summary_start_time, merged_summary_start_time, created_summary_eq,
      created_summary_eq]
    exact min_comm _ _
  · rw [merged_summary_end_time, merged_summary_end_time, created_summary_eq,
      created_summary_eq]
    exact max_comm _ _

/-- Witness for C9: `sample_flow` from exporters 9 and 7, in both orders. -/
theorem merge_is_commutative_witness :
    not_excluded [] (exporter_flow 9) ∧ not_excluded [] (exporter_flow 7) ∧
    record_identity (exporter_flow 9) = record_identity (exporter_flow 7) ∧
    ∃ s12 s21,
      (ingest_all (collector_init []) [exporter_flow 9, exporter_flow 7]).flow_hash_trees
        (record_tree (exporter_flow 9)) = [s12] ∧
      (ingest_all (collector_init []) [exporter_flow 7, exporter_flow 9]).flow_hash_trees
        (record_tree (exporter_flow 9)) = [s21] ∧
      s12.sources.map (fun n => (n.flow_src, n.num_packets, n.num_bytes, n.num_flows)) =
        s21.sources.map (fun n => (n.flow_src, n.num_packets, n.num_bytes, n.num_flows)) := by
  have h1 : not_excluded [] (exporter_flow 9) := by decide
  have h2 : not_excluded [] (exporter_flow 7) := by decide
  have h3 : record_identity (exporter_flow 9) = record_identity (exporter_flow 7) := rfl
  obtain ⟨s12, s21, ha, hb, _, _, _, _, hsrc⟩ :=
    merge_is_commutative [] (exporter_flow 9) (exporter_flow 7) h1 h2 h3
  exact ⟨h1, h2, h3, s12, s21, ha, hb, hsrc⟩


/-! ## Receive times -/

theorem merged_summary_times (s : flow_summary) (x : unified_flow) :
    (merged_summary s x).time_added = s.time_added ∧
    (merged_summary s x).time_updated = x.recv_time := by
  unfold merged_summary
  rw [(update_sources_fields _ _).1, (update_sources_fields _ _).2.1]
  exact ⟨rfl, rfl⟩

theorem foldl_merged_times (rs : List unified_flow) :
    ∀ s : flow_summary, (∀ x ∈ rs, s.time_added ≤ x.recv_time) →
      s.time_added ≤ s.time_updated →
      (rs.foldl merged_summary s).time_added = s.time_added ∧
      s.time_added ≤ (rs.foldl merged_summary s).time_updated := by
  induction rs with
  | nil => exact fun s _ h => ⟨rfl, h⟩
  | cons y ys ih =>
    intro s hall _
    have hm := merged_summary_times s y
    have hy := hall y (List.mem_cons_self _ _)
    obtain ⟨h1, h2⟩ := ih (merged_summary s y)
      (fun x hx => by rw [hm.1]; exact hall x (List.mem_cons_of_mem _ hx))
      (by rw [hm.1, hm.2]; exact hy)
    rw [List.foldl_cons]
    exact ⟨by rw [h1, hm.1], by rw [← hm.1]; exact h2⟩

/-- Counterexample to C10 as stated: two records of one flow, the second with
an earlier `recv_time` than the first, leave a summary whose `time_updated`
(990) is before its `time_added` (1000). -/
theorem time_updated_before_time_added :
    ∃ s ∈ (ingest_all (collector_init [])
        [sample_flow, { sample_flow with recv_time := 990 }]).flow_hash_trees
        (record_tree sample_flow),
      s.time_added = 1000 ∧ s.time_updated = 990 ∧ ¬ s.time_added ≤ s.time_updated := by
  decide

/-- C10 (amended): after every sequence of `flow_callback` calls from empty
flow trees whose `recv_time` values do not decrease in call order, every
stored summary satisfies `time_added ≤ time_updated`. -/
theorem time_added_le_time_updated (ex : pavl_table exclude_node) (rs : List unified_flow)
    (hmono : rs.Pairwise (fun a b => a.recv_time ≤ b.recv_time)) :
    ∀ k, ∀ s ∈ (ingest_all (collector_init ex) rs).flow_hash_trees k,
      s.time_added ≤ s.time_updated := by
  intro k s hs
  have hsum := (ingest_all_summaries ex rs).2.1 k s hs
  have hsub : (merged_records ex (flow_identity s) rs).Pairwise
      (fun a b => a.recv_time ≤ b.recv_time) :=
    hmono.sublist (List.filter_sublist _)
  cases hm : merged_records ex (flow_identity s) rs with
  | nil => rw [hm] at hsum; cases hsum
  | cons a as =>
    rw [hm] at hsum hsub
    simp only [summary_of, Option.some.injEq] at hsum
    rw [List.pairwise_cons] at hsub
    have hc : (created_summary a).time_added = a.recv_time ∧
        (created_summary a).time_updated = a.recv_time := by
      rw [created_summary_eq]; exact ⟨rfl, rfl⟩
    obtain ⟨h1, h2⟩ := foldl_merged_times as (created_summary a)
      (fun x hx => by rw [hc.1]; exact hsub.1 x hx) (by rw [hc.1, hc.2])
    rw [← hsum, h1]
    exact h2

/-- Witness for C10 (amended): two records of one flow received at seconds
1000 and 1010. -/
theorem time_added_le_time_updated_witness :
    [sample_flow, { sample_flow with recv_time := 1010 }].Pairwise
      (fun a b => a.recv_time ≤ b.recv_time) ∧
    merged_summary (created_summary sample_flow) { sample_flow with recv_time := 1010 } ∈
      (ingest_all (collector_init [])
        [sample_flow, { sample_flow with recv_time := 1010 }]).flow_hash_trees
        (record_tree sample_flow) ∧
    (merged_summary (created_summary sample_flow)
        { sample_flow with recv_time := 1010 }).time_added ≤
      (merged_summary (created_summary sample_flow)
        { sample_flow with recv_time := 1010 }).time_updated :=
  have hmono : [sample_flow, { sample_flow with recv_time := 1010 }].Pairwise
      (fun a b => a.recv_time ≤ b.recv_time) := by decide
  have hs : merged_summary (created_summary sample_flow)
      { sample_flow with recv_time := 1010 } ∈
      (ingest_all (collector_init [])
        [sample_flow, { sample_flow with recv_time := 1010 }]).flow_hash_trees
        (record_tree sample_flow) := by decide
  ⟨hmono, hs,
    time_added_le_time_updated [] [sample_flow, { sample_flow with recv_time := 1010 }]
      hmono (record_tree sample_flow) _ hs⟩


/-! ## The time envelope of a summary -/

/-- Counterexample to C11 as stated: a record whose `start_time` (120) is
after its `end_time` (100) is stored as it is. -/
theorem start_time_after_end_time :
    ∃ s ∈ (ingest_all (collector_init [])
        [{ sample_flow with start_time := 120, end_time := 100 }]).flow_hash_trees
        (record_tree sample_flow),
      s.start_time = 120 ∧ s.end_time = 100 ∧ ¬ s.start_time ≤ s.end_time := by
  decide

/-- C11 (amended): after every sequence of `flow_callback` calls from empty
flow trees in which every record has `start_time ≤ end_time`, every stored
summary satisfies `start_time ≤ end_time`. -/
theorem start_time_le_end_time (ex : pavl_table exclude_node) (rs : List unified_flow)
    (hrec : ∀ r ∈ rs, r.start_time ≤ r.end_time) :
    ∀ k, ∀ s ∈ (ingest_all (collector_init ex) rs).flow_hash_trees k,
      s.start_time ≤ s.end_time := by
  intro k s hs
  have hsum := (ingest_all_summaries ex rs).2.1 k s hs
  cases hm : merged_records ex (flow_identity s) rs with
  | nil => rw [hm] at hsum; cases hsum
  | cons a as =>
    rw [hm] at hsum
    simp only [summary_of, Option.some.injEq] at hsum
    have ha : a ∈ rs := (mem_merged_records.1 (by rw [hm]; exact List.mem_cons_self _ _)).1
    have h1 : s.start_time ≤ a.start_time := by
      rw [← hsum, foldl_merged_start_time, created_summary_eq]
      exact (foldl_min_spec as a.start_time).1.1
    have h2 : a.end_time ≤ s.end_time := by
      rw [← hsum, foldl_merged_end_time, created_summary_eq]
      exact (foldl_max_spec as a.end_time).1.1
    exact le_trans h1 (le_trans (hrec a ha) h2)

/-- Witness for C11 (amended): two records of one flow with the (start, end)
pairs (100, 120) and (90, 115). -/
theorem start_time_le_end_time_witness :
    (∀ r ∈ [sample_flow, { sample_flow with start_time := 90, end_time := 115 }],
      r.start_time ≤ r.end_time) ∧
    merged_summary (created_summary sample_flow)
        { sample_flow with start_time := 90, end_time := 115 } ∈
      (ingest_all (collector_init [])
        [sample_flow, { sample_flow with start_time := 90, end_time := 115 }]).flow_hash_trees
        (record_tree sample_flow) ∧
    (merged_summary (created_summary sample_flow)
        { sample_flow with start_time := 90, end_time := 115 }).start_time ≤
      (merged_summary (created_summary sample_flow)
        { sample_flow with start_time := 90, end_time := 115 }).end_time :=
  have hrec : ∀ r ∈ [sample_flow, { sample_flow with start_time := 90, end_time := 115 }],
      r.start_time ≤ r.end_time := by decide
  have hs : merged_summary (created_summary sample_flow)
      { sample_flow with start_time := 90, end_time := 115 } ∈
      (ingest_all (collector_init [])
        [sample_flow, { sample_flow with start_time := 90, end_time := 115 }]).flow_hash_trees
        (record_tree sample_flow) := by decide
  ⟨hrec, hs,
    start_time_le_end_time []
      [sample_flow, { sample_flow with start_time := 90, end_time := 115 }]
      hrec (record_tree sample_flow) _ hs⟩


/-! ## The comparator as a lexicographic sign -/

theorem compare_flows_antisymm (a b : flow_summary) :
    compare_flows a b = - compare_flows b a := by
  rcases compare_flows_range a b with h | h | h
  · have h1 : compare_flows b a > 0 := compare_flows_pos_of_neg (by rw [h]; decide)
    rcases compare_flows_range b a with h2 | h2 | h2 <;> omega
  · have h1 : compare_flows b a = 0 := by
      rw [compare_flows_eq_zero_iff] at h ⊢
      exact h.symm
    omega
  · have h1 : compare_flows b a < 0 := compare_flows_neg_of_pos (by rw [h]; decide)
    rcases compare_flows_range b a with h2 | h2 | h2 <;> omega

/-- C18: `compare_flows a b` is the sign of the lexicographic comparison of
the tuples (protocol, src_addr, dst_addr, src_port, dst_port) of natural
numbers: -1 when the tuple of `a` is lexicographically smaller, 1 when it is
greater, 0 exactly when all five fields are equal; swapping the arguments
negates the result; and the result depends on no other field of the
summaries. -/
theorem compare_flows_is_lexicographic_sign (a b : flow_summary) :
    (compare_flows a b = -1 ↔
      toLex (a.protocol, toLex (a.src_addr, toLex (a.dst_addr,
        toLex (a.src_port, a.dst_port)))) <
      toLex (b.protocol, toLex (b.src_addr, toLex (b.dst_addr,
        toLex (b.src_port, b.dst_port))))) ∧
    (compare_flows a b = 1 ↔
      toLex (b.protocol, toLex (b.src_addr, toLex (b.dst_addr,
        toLex (b.src_port, b.dst_port)))) <
      toLex (a.protocol, toLex (a.src_addr, toLex (a.dst_addr,
        toLex (a.src_port, a.dst_port))))) ∧
    (compare_flows a b = 0 ↔
      a.protocol = b.protocol ∧ a.src_addr = b.src_addr ∧ a.dst_addr = b.dst_addr ∧
        a.src_port = b.src_port ∧ a.dst_port = b.dst_port) ∧
    (compare_flows a b = -1 ∨ compare_flows a b = 0 ∨ compare_flows a b = 1) ∧
    compare_flows a b = - compare_flows b a ∧
    (∀ a' b' : flow_summary,
      (a'.protocol, a'.src_addr, a'.dst_addr, a'.src_port, a'.dst_port) =
        (a.protocol, a.src_addr, a.dst_addr, a.src_port, a.dst_port) →
      (b'.protocol, b'.src_addr, b'.dst_addr, b'.src_port, b'.dst_port) =
        (b.protocol, b.src_addr, b.dst_addr, b.src_port, b.dst_port) →
      compare_flows a' b' = compare_flows a b) := by
  have hlex : ∀ x y : flow_summary,
      toLex (x.protocol, toLex (x.src_addr, toLex (x.dst_addr,
        toLex (x.src_port, x.dst_port)))) <
      toLex (y.protocol, toLex (y.src_addr, toLex (y.dst_addr,
        toLex (y.src_port, y.dst_port)))) ↔ flow_key_lt x y := by
    intro x y
    simp only [Prod.Lex.lt_iff, flow_key_lt]
  have hr := compare_flows_range a b
  refine ⟨?_, ?_, compare_flows_zero_iff a b, hr, compare_flows_antisymm a b, ?_⟩
  · rw [hlex, ← compare_flows_neg_iff]
    constructor
    · intro h; rw [h]; decide
    · intro h; omega
  · rw [hlex, ← compare_flows_pos_iff]
    constructor
    · intro h; rw [h]; decide
    · intro h; omega
  · intro a' b' ha hb
    rw [compare_flows_congr_left b' (show flow_identity a' = flow_identity a from ha),
      compare_flows_congr_right a (show flow_identity b' = flow_identity b from hb)]


/-! ## First and last receive time -/

theorem foldl_merged_time_added (rs : List unified_flow) :
    ∀ s : flow_summary, (rs.foldl merged_summary s).time_added = s.time_added := by
  induction rs with
  | nil => exact fun _ => rfl
  | cons y ys ih =>
    intro s
    rw [List.foldl_cons, ih, (merged_summary_times s y).1]

theorem foldl_merged_time_updated (r : unified_flow) (rs : List unified_flow)
    (s : flow_summary) (hs : s.time_updated = r.recv_time) :
    (rs.foldl merged_summary s).time_updated =
      ((r :: rs).getLast (List.cons_ne_nil r rs)).recv_time := by
  rcases List.eq_nil_or_concat rs with rfl | ⟨l, x, rfl⟩
  · simpa using hs
  · simp only [List.concat_eq_append, List.foldl_append, List.foldl_cons, List.foldl_nil]
    rw [(merged_summary_times _ x).2]
    simp

/-- C20: when a non-empty sequence of records of one flow, all passing the
exclusion check, is delivered to `flow_callback` (in a state that holds no
summary of the flow yet, and with no eviction in between), the stored summary
of the flow has as `time_added` the `recv_time` of the first record, as
`time_updated` the `recv_time` of the last record, and the five identity
fields of the records. The same holds after every initial part of the
sequence, so no merge changes `time_added` or an identity field. -/
theorem time_added_is_first_time_updated_is_last (st : collector) (r : unified_flow)
    (rs : List unified_flow)
    (hadm : ∀ x ∈ r :: rs, not_excluded st.exclude_tree x)
    (hsame : ∀ x ∈ rs, record_identity x = record_identity r)
    (habs : ∀ s ∈ st.flow_hash_trees (record_tree r), flow_identity s ≠ record_identity r) :
    (∃ s, ((ingest_all st (r :: rs)).flow_hash_trees (record_tree r)).filter
          (fun y => decide (flow_identity y = record_identity r)) = [s] ∧
      s.time_added = r.recv_time ∧
      s.time_updated = ((r :: rs).getLast (List.cons_ne_nil r rs)).recv_time ∧
      (s.protocol, s.src_addr, s.dst_addr, s.src_port, s.dst_port) =
        (r.protocol, r.src_addr, r.dst_addr, r.src_port, r.dst_port)) ∧
    (∀ n, ∃ s, ((ingest_all st (r :: rs.take n)).flow_hash_trees (record_tree r)).filter
          (fun y => decide (flow_identity y = record_identity r)) = [s] ∧
      s.time_added = r.recv_time ∧
      (s.protocol, s.src_addr, s.dst_addr, s.src_port, s.dst_port) =
        (r.protocol, r.src_addr, r.dst_addr, r.src_port, r.dst_port)) := by
  have hc : (created_summary r).time_added = r.recv_time ∧
      (created_summary r).time_updated = r.recv_time := by
    rw [created_summary_eq]; exact ⟨rfl, rfl⟩
  have key : ∀ l : List unified_flow,
      (l.foldl merged_summary (created_summary r)).time_added = r.recv_time ∧
      flow_identity (l.foldl merged_summary (created_summary r)) = record_identity r :=
    fun l => ⟨by rw [foldl_merged_time_added, hc.1],
      by rw [foldl_merged_identity, created_summary_identity]⟩
  refine ⟨⟨_, ingest_all_same_flow_stored st r rs hadm hsame habs, (key rs).1,
    foldl_merged_time_updated r rs _ hc.2, (key rs).2⟩, ?_⟩
  intro n
  refine ⟨_, ingest_all_same_flow_stored st r (rs.take n) ?_ ?_ habs,
    (key (rs.take n)).1, (key (rs.take n)).2⟩
  · intro x hx
    rcases List.mem_cons.1 hx with rfl | hx
    · exact hadm _ (List.mem_cons_self _ _)
    · exact hadm x (List.mem_cons_of_mem _ (List.mem_of_mem_take hx))
  · intro x hx
    exact hsame x (List.mem_of_mem_take hx)

/-- Witness for C20: the same flow received at seconds 1000, 1010 and 1020. -/
theorem time_added_is_first_time_updated_is_last_witness :
    (∀ x ∈ [sample_flow, { sample_flow with recv_time := 1010 },
        { sample_flow with recv_time := 1020 }], not_excluded [] x) ∧
    (∀ x ∈ [{ sample_flow with recv_time := 1010 }, { sample_flow with recv_time := 1020 }],
      record_identity x = record_identity sample_flow) ∧
    ∃ s, ((ingest_all (collector_init [])
            [sample_flow, { sample_flow with recv_time := 1010 },
              { sample_flow with recv_time := 1020 }]).flow_hash_trees
          (record_tree sample_flow)).filter
          (fun y => decide (flow_identity y = record_identity sample_flow)) = [s] ∧
      s.time_added = 1000 ∧ s.time_updated = 1020 := by
  have h1 : ∀ x ∈ [sample_flow, { sample_flow with recv_time := 1010 },
      { sample_flow with recv_time := 1020 }], not_excluded [] x := by decide
  have h2 : ∀ x ∈ [{ sample_flow with recv_time := 1010 },
      { sample_flow with recv_time := 1020 }],
      record_identity x = record_identity sample_flow := by decide
  obtain ⟨⟨s, hs, ha, hu, _⟩, _⟩ :=
    time_added_is_first_time_updated_is_last (collector_init []) sample_flow
      [{ sample_flow with recv_time := 1010 }, { sample_flow with recv_time := 1020 }] h1 h2
      (by intro s hs; simp [collector_init] at hs)
  exact ⟨h1, h2, s, hs, ha.trans (by decide), hu.trans (by decide)⟩


/-! ## The shard hash -/

theorem mask16_eq : (0xFFFF : Nat) = 2 ^ 16 - 1 := by decide

theorem ROL16_lt (x a : Nat) : ROL16 x a < 2 ^ 16 := by
  unfold ROL16
  apply Nat.or_lt_two_pow
  · exact Nat.and_lt_two_pow _ (by decide)
  · rw [Nat.shiftRight_eq_div_pow]
    exact Nat.lt_of_le_of_lt (Nat.div_le_self _ _) (Nat.and_lt_two_pow _ (by decide))

theorem ROL16_testBit (x a i : Nat) (ha : 0 < a) (ha' : a < 16) (hi : i < 16) :
    (ROL16 x a).testBit i = x.testBit ((i + 16 - a) % 16) := by
  unfold ROL16
  rw [mask16_eq]
  simp only [Nat.testBit_or, Nat.testBit_and, Nat.testBit_shiftLeft, Nat.testBit_shiftRight,
    Nat.testBit_two_pow_sub_one]
  by_cases h : a ≤ i
  · have h1 : (i + 16 - a) % 16 = i - a := by omega
    have h2 : ¬ (16 - a + i < 16) := by omega
    simp [h1, h2, h, hi]
  · have h1 : (i + 16 - a) % 16 = 16 - a + i := by omega
    have h2 : 16 - a + i < 16 := by omega
    have h3 : ¬ (i ≥ a) := h
    simp [h1, h2, h3]

theorem high_half_eq (x : Nat) (hx : x < 2 ^ 32) :
    (x &&& 0xFFFF0000) >>> 16 = x >>> 16 := by
  apply Nat.eq_of_testBit_eq
  intro i
  have hm : (0xFFFF0000 : Nat) = (2 ^ 16 - 1) <<< 16 := by decide
  rw [hm]
  simp only [Nat.testBit_shiftRight, Nat.testBit_and, Nat.testBit_shiftLeft,
    Nat.testBit_two_pow_sub_one]
  by_cases h : i < 16
  · simp [h]
  · have : x.testBit (16 + i) = false :=
      Nat.testBit_lt_two_pow (Nat.lt_of_lt_of_le hx (Nat.pow_le_pow_right (by decide) (by omega)))
    simp [this]

/-- C19: for a summary whose addresses, source port and protocol are in the
range of their C types (32, 16 and 8 bits; `ROL16` masks `dst_port` itself),
`TREEHASH` is the XOR of the low half of `src_addr`, the high half of
`src_addr` rotated left by 7, the low half of `dst_addr`, the high half of
`dst_addr` rotated left by 13, `src_port`, `dst_port` rotated left by 3 and
`protocol`, where `ROL16 x a` is the 16-bit left rotation (bit `i` of the
result is bit `i - a` modulo 16 of `x`, and the result is below 2^16); the
hash is below 65536, the number of flow trees, and is the same for summaries
with the same five identity fields, in particular for summaries that compare
equal under `compare_flows`. -/
theorem TREEHASH_is_rotate_xor_below_TREES (f : flow_summary)
    (hsrc : f.src_addr < 2 ^ 32) (hdst : f.dst_addr < 2 ^ 32)
    (hsp : f.src_port < 2 ^ 16) (hpr : f.protocol < 2 ^ 8) :
    TREEHASH f =
      (f.src_addr &&& 0xFFFF) ^^^ ROL16 (f.src_addr >>> 16) 7 ^^^
      (f.dst_addr &&& 0xFFFF) ^^^ ROL16 (f.dst_addr >>> 16) 13 ^^^
      f.src_port ^^^ ROL16 f.dst_port 3 ^^^ f.protocol ∧
    (∀ x a, x < 2 ^ 16 → 0 < a → a < 16 →
      ROL16 x a < 2 ^ 16 ∧ ∀ i, i < 16 → (ROL16 x a).testBit i = x.testBit ((i + 16 - a) % 16)) ∧
    f.src_addr >>> 16 < 2 ^ 16 ∧ f.dst_addr >>> 16 < 2 ^ 16 ∧
    TREEHASH f < 65536 ∧ TREEHASH f < TREES ∧
    (∀ g : flow_summary,
      (g.protocol, g.src_addr, g.dst_addr, g.src_port, g.dst_port) =
        (f.protocol, f.src_addr, f.dst_addr, f.src_port, f.dst_port) →
      TREEHASH g = TREEHASH f) ∧
    (∀ g : flow_summary, compare_flows f g = 0 → TREEHASH g = TREEHASH f) := by
  have hlt : TREEHASH f < 2 ^ 16 := by
    unfold TREEHASH
    refine Nat.xor_lt_two_pow (Nat.xor_lt_two_pow (Nat.xor_lt_two_pow (Nat.xor_lt_two_pow
      (Nat.xor_lt_two_pow (Nat.xor_lt_two_pow ?_ ?_) ?_) ?_) ?_) ?_) ?_
    · exact Nat.and_lt_two_pow _ (by decide)
    · exact ROL16_lt _ _
    · exact Nat.and_lt_two_pow _ (by decide)
    · exact ROL16_lt _ _
    · exact hsp
    · exact ROL16_lt _ _
    · exact Nat.lt_of_lt_of_le hpr (by decide)
  have hshift : ∀ x : Nat, x < 2 ^ 32 → x >>> 16 < 2 ^ 16 := by
    intro x hx
    rw [Nat.shiftRight_eq_div_pow]
    omega
  refine ⟨?_, ?_, hshift _ hsrc, hshift _ hdst, hlt, hlt, ?_, ?_⟩
  · unfold TREEHASH
    rw [high_half_eq _ hsrc, high_half_eq _ hdst]
  · intro x a _ ha ha'
    exact ⟨ROL16_lt x a, fun i hi => ROL16_testBit x a i ha ha' hi⟩
  · intro g hg
    exact TREEHASH_congr hg
  · intro g hg
    exact TREEHASH_congr ((compare_flows_eq_zero_iff f g).1 hg).symm

/-- Witness for C19: the summary of `sample_flow` hashes to tree 1810. -/
theorem TREEHASH_is_rotate_xor_below_TREES_witness :
    (cur_flow_summary sample_flow).src_addr < 2 ^ 32 ∧
    (cur_flow_summary sample_flow).dst_addr < 2 ^ 32 ∧
    (cur_flow_summary sample_flow).src_port < 2 ^ 16 ∧
    (cur_flow_summary sample_flow).protocol < 2 ^ 8 ∧
    TREEHASH (cur_flow_summary sample_flow) = 1810 ∧
    TREEHASH (cur_flow_summary sample_flow) < 65536 :=
  ⟨by decide, by decide, by decide, by decide, by decide,
    (TREEHASH_is_rotate_xor_below_TREES (cur_flow_summary sample_flow) (by decide)
      (by decide) (by decide) (by decide)).2.2.2.2.1⟩


/-! ## The comparator `compare_excludes` -/

theorem compare_excludes_pos_iff (a b : exclude_node) :
    compare_excludes a b > 0 ↔ a.addr_start > b.addr_end := by
  unfold compare_excludes
  by_cases h1 : a.addr_start > b.addr_end
  · rw [if_pos h1]; exact ⟨fun _ => h1, fun _ => by decide⟩
  · rw [if_neg h1]
    by_cases h2 : a.addr_end < b.addr_start
    · rw [if_pos h2]; exact ⟨fun h => absurd h (by decide), fun h => absurd h h1⟩
    · rw [if_neg h2]; exact ⟨fun h => absurd h (by decide), fun h => absurd h h1⟩

theorem compare_excludes_zero_iff (a b : exclude_node) :
    compare_excludes a b = 0 ↔ a.addr_start ≤ b.addr_end ∧ b.addr_start ≤ a.addr_end := by
  unfold compare_excludes
  by_cases h1 : a.addr_start > b.addr_end
  · rw [if_pos h1]; exact ⟨fun h => absurd h (by decide), fun h => by omega⟩
  · rw [if_neg h1]
    by_cases h2 : a.addr_end < b.addr_start
    · rw [if_pos h2]; exact ⟨fun h => absurd h (by decide), fun h => by omega⟩
    · rw [if_neg h2]; exact ⟨fun _ => by omega, fun _ => rfl⟩

theorem compare_excludes_neg_iff (a b : exclude_node) :
    compare_excludes a b < 0 ↔ a.addr_start ≤ b.addr_end ∧ a.addr_end < b.addr_start := by
  unfold compare_excludes
  by_cases h1 : a.addr_start > b.addr_end
  · rw [if_pos h1]; exact ⟨fun h => absurd h (by decide), fun h => by omega⟩
  · rw [if_neg h1]
    by_cases h2 : a.addr_end < b.addr_start
    · rw [if_pos h2]; exact ⟨fun _ => by omega, fun _ => by decide⟩
    · rw [if_neg h2]; exact ⟨fun h => absurd h (by decide), fun h => by omega⟩

/-! ## Probing and deleting at a known place -/

theorem pavl_probe_insert_at {α : Type} (cmp : α → α → Int) (l1 l2 : List α) (item : α)
    (h1 : ∀ y ∈ l1, cmp item y > 0) (h2 : ∀ y, l2.head? = some y → cmp item y < 0) :
    pavl_probe cmp (l1 ++ l2) item = ⟨l1 ++ item :: l2, l1.length, true⟩ := by
  induction l1 with
  | nil =>
    cases l2 with
    | nil => rfl
    | cons z zs =>
      have hz := h2 z rfl
      have n1 : ¬ cmp item z > 0 := by omega
      have n2 : ¬ cmp item z = 0 := by omega
      simp [pavl_probe, n1, n2]
  | cons w ws ih =>
    have hw := h1 w (List.mem_cons_self _ _)
    have := ih (fun y hy => h1 y (List.mem_cons_of_mem _ hy))
    simp [pavl_probe, hw, this]

theorem pavl_delete_at {α : Type} (cmp : α → α → Int) (l1 : List α) (y : α) (l2 : List α)
    (item : α) (h1 : ∀ z ∈ l1, cmp item z > 0) (h2 : cmp item y = 0) :
    pavl_delete cmp (l1 ++ y :: l2) item = (l1 ++ l2, some y) := by
  induction l1 with
  | nil =>
    have n1 : ¬ cmp item y > 0 := by omega
    simp [pavl_delete, n1, h2]
  | cons w ws ih =>
    have hw := h1 w (List.mem_cons_self _ _)
    have := ih (fun z hz => h1 z (List.mem_cons_of_mem _ hz))
    simp [pavl_delete, hw, this]

/-! ## Ordered exclusion trees -/

theorem exclude_tree_ordered_nil : exclude_tree_ordered [] :=
  ⟨List.Pairwise.nil, fun _ h => by cases h⟩

theorem exclude_tree_ordered_sublist {t t' : pavl_table exclude_node}
    (h : exclude_tree_ordered t) (hs : t'.Sublist t) : exclude_tree_ordered t' :=
  ⟨h.1.sublist hs, fun y hy => h.2 y (hs.subset hy)⟩

theorem exclude_tree_ordered_bounds {t t' : pavl_table exclude_node}
    (hb : exclude_bounds t' = exclude_bounds t) (h : exclude_tree_ordered t) :
    exclude_tree_ordered t' := by
  have key : ∀ (P : Nat × Nat → Nat × Nat → Prop) (Q : Nat × Nat → Prop)
      (l : pavl_table exclude_node),
      (l.Pairwise (fun a b => P (a.addr_start, a.addr_end) (b.addr_start, b.addr_end)) ↔
        (exclude_bounds l).Pairwise P) ∧
      ((∀ y ∈ l, Q (y.addr_start, y.addr_end)) ↔ ∀ p ∈ exclude_bounds l, Q p) := by
    intro P Q l
    constructor
    · unfold exclude_bounds
      rw [List.pairwise_map]
    · unfold exclude_bounds
      simp only [List.mem_map, forall_exists_index, and_imp, forall_apply_eq_imp_iff₂]
  unfold exclude_tree_ordered at *
  have k1 := fun l => (key (fun p q => p.2 < q.1) (fun p => p.1 ≤ p.2) l).1
  have k2 := fun l => (key (fun p q => p.2 < q.1) (fun p => p.1 ≤ p.2) l).2
  simp only at k1 k2
  rw [k1 t', k2 t', hb, ← k1 t, ← k2 t]
  exact h

theorem exclude_covered_bounds {t t' : pavl_table exclude_node}
    (hb : exclude_bounds t' = exclude_bounds t) (x : Nat) :
    exclude_covered t' x ↔ exclude_covered t x := by
  have key : ∀ l : pavl_table exclude_node,
      exclude_covered l x ↔ ∃ p ∈ exclude_bounds l, p.1 ≤ x ∧ x ≤ p.2 := by
    intro l
    unfold exclude_covered exclude_bounds
    simp only [List.mem_map, exists_exists_and_eq_and]
  rw [key, key, hb]

/-- On an ordered exclusion tree the search of `is_excluded` finds an interval
exactly when one covers the address. -/
theorem pavl_find_point_iff (x : Nat) :
    ∀ t : pavl_table exclude_node, exclude_tree_ordered t →
      ((pavl_find compare_excludes t ⟨x, x, 0⟩).isSome ↔ exclude_covered t x) := by
  intro t
  induction t with
  | nil =>
    intro _
    simp [pavl_find, exclude_covered]
  | cons y ys ih =>
    intro hord
    have hys : exclude_tree_ordered ys := exclude_tree_ordered_sublist hord (by simp)
    have hy : y.addr_start ≤ y.addr_end := hord.2 y (List.mem_cons_self _ _)
    have hlater : ∀ z ∈ ys, y.addr_end < z.addr_start := by
      have := hord.1
      rw [List.pairwise_cons] at this
      exact this.1
    by_cases h1 : compare_excludes ⟨x, x, 0⟩ y > 0
    · have hx : x > y.addr_end := (compare_excludes_pos_iff _ _).1 h1
      rw [pavl_find, if_pos h1, Option.isSome_map', ih hys]
      unfold exclude_covered
      constructor
      · rintro ⟨z, hz, hc⟩
        exact ⟨z, List.mem_cons_of_mem _ hz, hc⟩
      · rintro ⟨z, hz, hc⟩
        rcases List.mem_cons.1 hz with rfl | hz
        · omega
        · exact ⟨z, hz, hc⟩
    · by_cases h2 : compare_excludes ⟨x, x, 0⟩ y = 0
      · have hx := (compare_excludes_zero_iff _ _).1 h2
        rw [pavl_find, if_neg h1, if_pos h2]
        simp only [Option.isSome_some, true_iff]
        exact ⟨y, List.mem_cons_self _ _, hx.2, hx.1⟩
      · have hx : x < y.addr_start := by
          have n1 : ¬ x > y.addr_end := fun h => h1 ((compare_excludes_pos_iff _ _).2 h)
          have n2 : ¬ (x ≤ y.addr_end ∧ y.addr_start ≤ x) :=
            fun h => h2 ((compare_excludes_zero_iff _ _).2 h)
          omega
        rw [pavl_find, if_neg h1, if_neg h2]
        simp only [Option.isSome_none, Bool.false_eq_true, false_iff]
        rintro ⟨z, hz, hc⟩
        rcases List.mem_cons.1 hz with rfl | hz
        · omega
        · have := hlater z hz
          omega

theorem is_excluded_iff_covered {t : pavl_table exclude_node} (hord : exclude_tree_ordered t)
    (x : Nat) : (is_excluded t x).1 = 1 ↔ exclude_covered t x := by
  rw [is_excluded_fst_eq, ← pavl_find_point_iff x t hord]
  split <;> simp_all

theorem not_excluded_iff_not_covered {t : pavl_table exclude_node}
    (hord : exclude_tree_ordered t) (r : unified_flow) :
    not_excluded t r ↔ ¬ exclude_covered t r.src_addr ∧ ¬ exclude_covered t r.dst_addr := by
  unfold not_excluded
  rw [← is_excluded_iff_covered hord, ← is_excluded_iff_covered hord]


/-! ## One `add_exclusion` call -/

/-- The two outcomes of the probe in `add_exclusion`: the new interval is
stored between `l1` and `l2`, or `add_exclusion` goes on without the
overlapping interval `y`, with the bounds widened to cover `y`. -/
theorem add_exclusion_step (fuel : Nat) (t : pavl_table exclude_node) (s e : Nat) :
    (∃ l1 l2, t = l1 ++ l2 ∧ (∀ z ∈ l1, s > z.addr_end) ∧
      (∀ z, l2.head? = some z → s ≤ z.addr_end ∧ e < z.addr_start) ∧
      add_exclusion (fuel + 1) t s e = some (l1 ++ ⟨s, e, 0⟩ :: l2)) ∨
    (∃ l1 y l2, t = l1 ++ y :: l2 ∧ (∀ z ∈ l1, s > z.addr_end) ∧
      s ≤ y.addr_end ∧ y.addr_start ≤ e ∧
      add_exclusion (fuel + 1) t s e =
        add_exclusion fuel (pavl_delete compare_excludes t y).1
          (if y.addr_start < s then y.addr_start else s)
          (if y.addr_end > e then y.addr_end else e)) := by
  obtain ⟨l1, l2, ht, hl1, hslot, hcase⟩ :=
    pavl_probe_spec compare_excludes t ⟨s, e, 0⟩
  have hl1' : ∀ z ∈ l1, s > z.addr_end :=
    fun z hz => (compare_excludes_pos_iff _ _).1 (hl1 z hz)
  rcases hcase with ⟨hins, htab, hhead⟩ | ⟨hins, htab, y, l2', hl2, hy⟩
  · refine Or.inl ⟨l1, l2, ht, hl1', ?_, ?_⟩
    · intro z hz
      exact (compare_excludes_neg_iff _ _).1 (hhead z hz)
    · have hget : (pavl_probe compare_excludes t ⟨s, e, 0⟩).table[
          (pavl_probe compare_excludes t ⟨s, e, 0⟩).slot]? = some ⟨s, e, 0⟩ := by
        rw [htab, hslot]; exact list_get?_mid _ _ _
      simp only [add_exclusion, hget, hins, if_true]
      rw [htab]
  · subst hl2
    have hy' := (compare_excludes_zero_iff _ _).1 hy
    refine Or.inr ⟨l1, y, l2', ht, hl1', hy'.1, hy'.2, ?_⟩
    have hget : (pavl_probe compare_excludes t ⟨s, e, 0⟩).table[
        (pavl_probe compare_excludes t ⟨s, e, 0⟩).slot]? = some y := by
      rw [htab, hslot, ht]; exact list_get?_mid _ _ _
    simp only [add_exclusion, hget, hins]
    rw [htab]
    by_cases c1 : y.addr_start < s <;> by_cases c2 : y.addr_end > e <;>
      simp [c1, c2]

theorem add_exclusion_ordered :
    ∀ (fuel : Nat) (t : pavl_table exclude_node) (s e : Nat),
      exclude_tree_ordered t → s ≤ e → t.length < fuel →
      ∃ t', add_exclusion fuel t s e = some t' ∧ exclude_tree_ordered t' ∧
        t'.length ≤ t.length + 1 ∧
        ∀ x, exclude_covered t' x ↔ exclude_covered t x ∨ (s ≤ x ∧ x ≤ e) := by
  intro fuel
  induction fuel with
  | zero => intro t s e _ _ h; exact absurd h (Nat.not_lt_zero _)
  | succ fuel ih =>
    intro t s e hord hse hfuel
    rcases add_exclusion_step fuel t s e with
      ⟨l1, l2, ht, hl1, hhead, hr⟩ | ⟨l1, y, l2, ht, hl1, hy1, hy2, hr⟩
    · -- stored as it is
      subst ht
      refine ⟨_, hr, ?_, by simp only [List.length_append, List.length_cons]; omega, ?_⟩
      · obtain ⟨ho, hv⟩ := hord
        rw [List.pairwise_append] at ho
        obtain ⟨o1, o2, o3⟩ := ho
        refine ⟨?_, ?_⟩
        · rw [List.pairwise_append]
          refine ⟨o1, ?_, ?_⟩
          · rw [List.pairwise_cons]
            refine ⟨?_, o2⟩
            intro z hz
            cases l2 with
            | nil => cases hz
            | cons w ws =>
              have hw := hhead w rfl
              rcases List.mem_cons.1 hz with rfl | hz
              · exact hw.2
              · rw [List.pairwise_cons] at o2
                have h1 := o2.1 z hz
                have h2 := hv w (by simp)
                show e < z.addr_start
                omega
          · intro a ha b hb
            rcases List.mem_cons.1 hb with rfl | hb
            · exact hl1 a ha
            · exact o3 a ha b hb
        · intro z hz
          simp only [List.mem_append, List.mem_cons] at hz
          rcases hz with hz | rfl | hz
          · exact hv z (List.mem_append.2 (Or.inl hz))
          · exact hse
          · exact hv z (List.mem_append.2 (Or.inr hz))
      · intro x
        unfold exclude_covered
        simp only [List.mem_append, List.mem_cons]
        constructor
        · rintro ⟨z, hz | rfl | hz, hc⟩
          · exact Or.inl ⟨z, Or.inl hz, hc⟩
          · exact Or.inr hc
          · exact Or.inl ⟨z, Or.inr hz, hc⟩
        · rintro (⟨z, hz | hz, hc⟩ | hc)
          · exact ⟨z, Or.inl hz, hc⟩
          · exact ⟨z, Or.inr (Or.inr hz), hc⟩
          · exact ⟨⟨s, e, 0⟩, Or.inr (Or.inl rfl), hc⟩
    · -- merged with `y`
      subst ht
      have hyv : y.addr_start ≤ y.addr_end := hord.2 y (by simp)
      have hbefore : ∀ z ∈ l1, z.addr_end < y.addr_start := by
        have := hord.1
        rw [List.pairwise_append] at this
        exact fun z hz => this.2.2 z hz y (List.mem_cons_self _ _)
      have hdel : pavl_delete compare_excludes (l1 ++ y :: l2) y = (l1 ++ l2, some y) :=
        pavl_delete_at compare_excludes l1 y l2 y
          (fun z hz => (compare_excludes_pos_iff _ _).2 (hbefore z hz))
          ((compare_excludes_zero_iff _ _).2 ⟨hyv, hyv⟩)
      rw [hdel] at hr
      have hord' : exclude_tree_ordered (l1 ++ l2) :=
        exclude_tree_ordered_sublist hord (by simp)
      have hlen : (l1 ++ l2).length < fuel := by
        simp only [List.length_append, List.length_cons] at hfuel ⊢
        omega
      obtain ⟨t', ht', ho', hl', hc'⟩ := ih (l1 ++ l2)
        (if y.addr_start < s then y.addr_start else s)
        (if y.addr_end > e then y.addr_end else e) hord'
        (by split <;> split <;> omega) hlen
      refine ⟨t', by rw [hr]; exact ht', ho', ?_, ?_⟩
      · simp only [List.length_append, List.length_cons] at hl' ⊢
        omega
      · intro x
        rw [hc' x]
        unfold exclude_covered
        simp only [List.mem_append, List.mem_cons]
        constructor
        · rintro (⟨z, hz | hz, hc⟩ | hc)
          · exact Or.inl ⟨z, Or.inl hz, hc⟩
          · exact Or.inl ⟨z, Or.inr (Or.inr hz), hc⟩
          · by_cases hx : s ≤ x ∧ x ≤ e
            · exact Or.inr hx
            · refine Or.inl ⟨y, Or.inr (Or.inl rfl), ?_⟩
              revert hc
              split <;> split <;> intro hc <;> omega
        · rintro (⟨z, hz | rfl | hz, hc⟩ | hc)
          · exact Or.inl ⟨z, Or.inl hz, hc⟩
          · refine Or.inr ?_
            split <;> split <;> omega
          · exact Or.inl ⟨z, Or.inr hz, hc⟩
          · refine Or.inr ?_
            split <;> split <;> omega


/-! ## Sequences of `add_exclusion` calls -/

theorem add_exclusions_ordered :
    ∀ (calls : List (Nat × Nat)) (t : pavl_table exclude_node) (fuel : Nat),
      exclude_tree_ordered t → (∀ c ∈ calls, c.1 ≤ c.2) →
      t.length + calls.length < fuel →
      ∃ t', add_exclusions fuel t calls = some t' ∧ exclude_tree_ordered t' ∧
        t'.length ≤ t.length + calls.length ∧
        ∀ x, exclude_covered t' x ↔
          exclude_covered t x ∨ ∃ c ∈ calls, c.1 ≤ x ∧ x ≤ c.2 := by
  intro calls
  induction calls with
  | nil =>
    intro t fuel hord _ _
    exact ⟨t, rfl, hord, by simp, fun x => by simp⟩
  | cons c cs ih =>
    intro t fuel hord hv hfuel
    obtain ⟨s, e⟩ := c
    simp only [List.length_cons] at hfuel
    obtain ⟨t1, h1, ho1, hl1, hc1⟩ := add_exclusion_ordered fuel t s e hord
      (hv (s, e) (List.mem_cons_self _ _)) (by omega)
    obtain ⟨t2, h2, ho2, hl2, hc2⟩ := ih t1 fuel ho1
      (fun c hc => hv c (List.mem_cons_of_mem _ hc)) (by omega)
    refine ⟨t2, by simp only [add_exclusions, h1, h2], ho2, ?_, ?_⟩
    · simp only [List.length_cons]; omega
    · intro x
      rw [hc2 x, hc1 x]
      simp only [List.mem_cons, exists_eq_or_imp]
      tauto

theorem exclude_tree_ordered_disjoint {t : pavl_table exclude_node}
    (hord : exclude_tree_ordered t) :
    ∀ a ∈ t, ∀ b ∈ t, a ≠ b → a.addr_end < b.addr_start ∨ b.addr_end < a.addr_start := by
  have hp : t.Pairwise (fun a b => a.addr_end < b.addr_start ∨ b.addr_end < a.addr_start) :=
    hord.1.imp (fun h => Or.inl h)
  exact hp.forall (fun a b h => h.symm)

/-! ## Disjoint intervals -/

/-- Counterexample to C13 as stated: after `add_exclusion(1, 2)` and
`add_exclusion(3, 4)` the touching intervals [1, 2] and [3, 4] are both
stored; and after the calls (10, 0), (5, 5), (0, 7), the first with
`addr_start > addr_end`, the overlapping intervals [0, 7] and [5, 5] are both
stored. -/
theorem touching_intervals_are_kept :
    (∃ t, add_exclusions 2 [] [(1, 2), (3, 4)] = some t ∧
      ∃ a ∈ t, ∃ b ∈ t, a ≠ b ∧
        ¬ (a.addr_end + 1 < b.addr_start ∨ b.addr_end + 1 < a.addr_start)) ∧
    (∃ t, add_exclusions 2 [] [(10, 0), (5, 5), (0, 7)] = some t ∧
      ∃ a ∈ t, ∃ b ∈ t, a ≠ b ∧
        ¬ (a.addr_end < b.addr_start ∨ b.addr_end < a.addr_start) ∧
        ¬ (a.addr_end + 1 < b.addr_start ∨ b.addr_end + 1 < a.addr_start)) :=
  ⟨⟨[⟨1, 2, 0⟩, ⟨3, 4, 0⟩], by decide, ⟨1, 2, 0⟩, by decide, ⟨3, 4, 0⟩, by decide,
      by decide, by decide⟩,
    ⟨[⟨0, 7, 0⟩, ⟨10, 0, 0⟩, ⟨5, 5, 0⟩], by decide, ⟨0, 7, 0⟩, by decide, ⟨5, 5, 0⟩,
      by decide, by decide, by decide, by decide⟩⟩

/-- C13 (amended): starting from the empty exclusion tree, every sequence of
`add_exclusion` calls that all have `addr_start ≤ addr_end` terminates and
leaves a tree in which no two distinct stored intervals overlap: for distinct
stored `a` and `b`, `a.addr_end < b.addr_start` or
`b.addr_end < a.addr_start`. -/
theorem stored_intervals_do_not_overlap (calls : List (Nat × Nat)) (fuel : Nat)
    (hvalid : ∀ c ∈ calls, c.1 ≤ c.2) (hfuel : calls.length < fuel) :
    ∃ t, add_exclusions fuel [] calls = some t ∧
      ∀ a ∈ t, ∀ b ∈ t, a ≠ b →
        a.addr_end < b.addr_start ∨ b.addr_end < a.addr_start := by
  obtain ⟨t, ht, hord, _, _⟩ := add_exclusions_ordered calls [] fuel
    exclude_tree_ordered_nil hvalid (by simpa using hfuel)
  exact ⟨t, ht, exclude_tree_ordered_disjoint hord⟩

/-- Witness for C13 (amended): the three `add_exclusion` calls of `main`. -/
theorem stored_intervals_do_not_overlap_witness :
    (∀ c ∈ main_exclusions, c.1 ≤ c.2) ∧ main_exclusions.length < 4 ∧
    ∃ t, add_exclusions 4 [] main_exclusions = some t ∧
      ∀ a ∈ t, ∀ b ∈ t, a ≠ b →
        a.addr_end < b.addr_start ∨ b.addr_end < a.addr_start :=
  ⟨by decide, by decide,
    stored_intervals_do_not_overlap main_exclusions 4 (by decide) (by decide)⟩


/-! ## Membership queries -/

theorem is_excluded_result (t : pavl_table exclude_node) (x : Nat) :
    ((is_excluded t x).1 = 0 ∧ (is_excluded t x).2 = t) ∨
    ((is_excluded t x).1 = 1 ∧
      ∃ i y, pavl_find compare_excludes t ⟨x, x, 0⟩ = some i ∧ t[i]? = some y ∧
        (is_excluded t x).2 =
          t.set i { y with exclude_count := (y.exclude_count + 1) % U64 }) := by
  cases hf : pavl_find compare_excludes t ⟨x, x, 0⟩ with
  | none => exact Or.inl (by simp [is_excluded, hf])
  | some i =>
    have hi := pavl_find_lt _ _ _ _ hf
    have hg : t[i]? = some t[i] := List.getElem?_eq_getElem hi
    exact Or.inr ⟨by simp [is_excluded, hf, hg], i, t[i], rfl, hg,
      by simp [is_excluded, hf, hg]⟩

theorem pavl_find_overlaps {t : pavl_table exclude_node} {c : exclude_node} {i : Nat}
    {y : exclude_node} (hf : pavl_find compare_excludes t c = some i) (hy : t[i]? = some y) :
    compare_excludes c y = 0 := by
  induction t generalizing i with
  | nil => simp [pavl_find] at hf
  | cons z zs ih =>
    by_cases h1 : compare_excludes c z > 0
    · rw [pavl_find, if_pos h1, Option.map_eq_some'] at hf
      obtain ⟨j, hj, rfl⟩ := hf
      rw [List.getElem?_cons_succ] at hy
      exact ih hj hy
    · by_cases h2 : compare_excludes c z = 0
      · rw [pavl_find, if_neg h1, if_pos h2] at hf
        cases hf
        rw [List.getElem?_cons_zero] at hy
        cases hy
        exact h2
      · rw [pavl_find, if_neg h1, if_neg h2] at hf
        cases hf

/-- C14: for every exclusion tree built from the empty tree by `add_exclusion`
calls with `addr_start ≤ addr_end` (and every tree with the same interval
bounds, whatever its hit counters), and every address `x`: `is_excluded`
returns 1 exactly when a stored interval has `addr_start ≤ x ≤ addr_end` and 0
otherwise; a call that returns 0 leaves the tree as it is, and a call that
returns 1 changes only the `exclude_count` of one interval covering `x`, so no
interval bounds change. -/
theorem is_excluded_iff_interval_covers (calls : List (Nat × Nat)) (fuel : Nat)
    (hvalid : ∀ c ∈ calls, c.1 ≤ c.2) (hfuel : calls.length < fuel) :
    ∃ built, add_exclusions fuel [] calls = some built ∧
      ∀ t : pavl_table exclude_node,
        t.map (fun n => (n.addr_start, n.addr_end)) =
          built.map (fun n => (n.addr_start, n.addr_end)) →
        ∀ x,
          ((is_excluded t x).1 = 1 ↔ ∃ y ∈ t, y.addr_start ≤ x ∧ x ≤ y.addr_end) ∧
          ((is_excluded t x).1 = 0 ↔ ¬ ∃ y ∈ t, y.addr_start ≤ x ∧ x ≤ y.addr_end) ∧
          ((is_excluded t x).2.map (fun n => (n.addr_start, n.addr_end)) =
            t.map (fun n => (n.addr_start, n.addr_end))) ∧
          ((is_excluded t x).1 = 0 → (is_excluded t x).2 = t) ∧
          ((is_excluded t x).1 = 1 → ∃ i y, t[i]? = some y ∧
            y.addr_start ≤ x ∧ x ≤ y.addr_end ∧
            (is_excluded t x).2 =
              t.set i { y with exclude_count := (y.exclude_count + 1) % 2 ^ 64 }) := by
  obtain ⟨built, hb, hord, _, _⟩ := add_exclusions_ordered calls [] fuel
    exclude_tree_ordered_nil hvalid (by simpa using hfuel)
  refine ⟨built, hb, ?_⟩
  intro t ht x
  have hordt : exclude_tree_ordered t := exclude_tree_ordered_bounds ht hord
  have h1 : (is_excluded t x).1 = 1 ↔ ∃ y ∈ t, y.addr_start ≤ x ∧ x ≤ y.addr_end :=
    is_excluded_iff_covered hordt x
  refine ⟨h1, ?_, is_excluded_bounds t x, ?_, ?_⟩
  · rw [← h1]
    rcases is_excluded_fst t x with h | h <;> rw [h] <;> decide
  · intro h0
    rcases is_excluded_result t x with h | h
    · exact h.2
    · rw [h.1] at h0
      exact absurd h0 (by decide)
  · intro h1'
    rcases is_excluded_result t x with h | ⟨_, i, y, hf, hy, hr⟩
    · rw [h.1] at h1'
      exact absurd h1' (by decide)
    · have hc := (compare_excludes_zero_iff _ _).1 (pavl_find_overlaps hf hy)
      exact ⟨i, y, hy, hc.2, hc.1, hr⟩

/-- Witness for C14: the exclusion tree of `main`. -/
theorem is_excluded_iff_interval_covers_witness :
    (∀ c ∈ main_exclusions, c.1 ≤ c.2) ∧ main_exclusions.length < 4 ∧
    ∃ built, add_exclusions 4 [] main_exclusions = some built ∧
      ((is_excluded built 0x2C010203).1 = 1 ↔
        ∃ y ∈ built, y.addr_start ≤ 0x2C010203 ∧ 0x2C010203 ≤ y.addr_end) := by
  obtain ⟨built, hb, h⟩ :=
    is_excluded_iff_interval_covers main_exclusions 4 (by decide) (by decide)
  exact ⟨by decide, by decide, built, hb, (h built rfl 0x2C010203).1⟩

/-! ## Coverage after `add_exclusion` -/

/-- C16: for every exclusion tree built from the empty tree by `add_exclusion`
calls with `addr_start ≤ addr_end`, and every `s ≤ e`, `add_exclusion(s, e)`
terminates and afterwards `is_excluded` returns 1 for exactly the addresses
for which it returned 1 before and the addresses of `[s, e]`. -/
theorem add_exclusion_adds_exactly_the_range (calls : List (Nat × Nat)) (fuel s e : Nat)
    (hvalid : ∀ c ∈ calls, c.1 ≤ c.2) (hse : s ≤ e) (hfuel : calls.length + 1 < fuel) :
    ∃ t t', add_exclusions fuel [] calls = some t ∧ add_exclusion fuel t s e = some t' ∧
      ∀ x, (is_excluded t' x).1 = 1 ↔ (is_excluded t x).1 = 1 ∨ (s ≤ x ∧ x ≤ e) := by
  obtain ⟨t, ht, hord, hlen, _⟩ := add_exclusions_ordered calls [] fuel
    exclude_tree_ordered_nil hvalid (by simp only [List.length_nil]; omega)
  obtain ⟨t', ht', hord', _, hcov⟩ := add_exclusion_ordered fuel t s e hord hse
    (by simp only [List.length_nil] at hlen; omega)
  refine ⟨t, t', ht, ht', ?_⟩
  intro x
  rw [is_excluded_iff_covered hord', is_excluded_iff_covered hord, hcov x]

/-- Witness for C16: the range [44.255.255.0, 45.0.0.255] added to the
exclusion tree of `main` merges with 44.0.0.0/8. -/
theorem add_exclusion_adds_exactly_the_range_witness :
    (∀ c ∈ main_exclusions, c.1 ≤ c.2) ∧ (0x2CFFFF00 : Nat) ≤ 0x2D0000FF ∧
    main_exclusions.length + 1 < 5 ∧
    ∃ t t', add_exclusions 5 [] main_exclusions = some t ∧
      add_exclusion 5 t 0x2CFFFF00 0x2D0000FF = some t' ∧
      ((is_excluded t' 0x2D000001).1 = 1 ↔
        (is_excluded t 0x2D000001).1 = 1 ∨
          (0x2CFFFF00 ≤ 0x2D000001 ∧ 0x2D000001 ≤ 0x2D0000FF)) := by
  obtain ⟨t, t', h1, h2, h3⟩ :=
    add_exclusion_adds_exactly_the_range main_exclusions 5 0x2CFFFF00 0x2D0000FF
      (by decide) (by decide) (by decide)
  exact ⟨by decide, by decide, by decide, t, t', h1, h2, h3 0x2D000001⟩


/-! ## Calls with `addr_start > addr_end` -/

theorem add_exclusion_insert_at (fuel : Nat) (l1 l2 : pavl_table exclude_node) (s e : Nat)
    (h1 : ∀ z ∈ l1, s > z.addr_end)
    (h2 : ∀ z, l2.head? = some z → s ≤ z.addr_end ∧ e < z.addr_start) :
    add_exclusion (fuel + 1) (l1 ++ l2) s e = some (l1 ++ ⟨s, e, 0⟩ :: l2) := by
  have hp := pavl_probe_insert_at compare_excludes l1 l2 ⟨s, e, 0⟩
    (fun z hz => (compare_excludes_pos_iff _ _).2 (h1 z hz))
    (fun z hz => (compare_excludes_neg_iff _ _).2 (h2 z hz))
  simp only [add_exclusion, hp, list_get?_mid, if_true]

/-- Counterexample to C15 as stated: `add_exclusion(5, 3)` on the empty
exclusion tree is not rejected, the interval is stored as given. -/
theorem inverted_interval_is_stored :
    add_exclusion 1 [] 5 3 = some [⟨5, 3, 0⟩] ∧
    ∃ t, add_exclusion 1 [] 5 3 = some t ∧ t ≠ [] :=
  ⟨by decide, [⟨5, 3, 0⟩], by decide, by decide⟩

/-- C15 (amended): `add_exclusion` does not reject a pair with
`addr_start > addr_end`. On an exclusion tree of disjoint non-empty intervals
the call stores the interval as given, next to the intervals already stored,
unless a stored interval covers both `addr_end` and `addr_start`; in that case
the stored interval bounds are the same after the call as before it (the
covering interval is stored again, with a hit counter of zero). -/
theorem add_exclusion_with_start_above_end (t : pavl_table exclude_node) (s e fuel : Nat)
    (hord : t.Pairwise (fun a b => a.addr_end < b.addr_start) ∧
      ∀ y ∈ t, y.addr_start ≤ y.addr_end)
    (hse : s > e) :
    ((¬ ∃ y ∈ t, y.addr_start ≤ e ∧ s ≤ y.addr_end) →
      ∃ l1 l2, t = l1 ++ l2 ∧
        add_exclusion (fuel + 2) t s e = some (l1 ++ ⟨s, e, 0⟩ :: l2)) ∧
    ((∃ y ∈ t, y.addr_start ≤ e ∧ s ≤ y.addr_end) →
      ∃ l1 y l2, t = l1 ++ y :: l2 ∧ y.addr_start ≤ e ∧ s ≤ y.addr_end ∧
        add_exclusion (fuel + 2) t s e =
          some (l1 ++ ⟨y.addr_start, y.addr_end, 0⟩ :: l2) ∧
        (l1 ++ ⟨y.addr_start, y.addr_end, 0⟩ :: l2).map
            (fun n => (n.addr_start, n.addr_end)) =
          t.map (fun n => (n.addr_start, n.addr_end))) := by
  have hord' : exclude_tree_ordered t := hord
  rcases add_exclusion_step (fuel + 1) t s e with
    ⟨l1, l2, ht, hl1, hhead, hr⟩ | ⟨l1, y, l2, ht, hl1, hy1, hy2, hr⟩
  · subst ht
    refine ⟨fun _ => ⟨l1, l2, rfl, hr⟩, ?_⟩
    rintro ⟨y, hy, hc1, hc2⟩
    exfalso
    rcases List.mem_append.1 hy with hy | hy
    · have := hl1 y hy
      omega
    · cases l2 with
      | nil => cases hy
      | cons w ws =>
        have hw := hhead w rfl
        rcases List.mem_cons.1 hy with rfl | hy
        · omega
        · have ho := hord.1
          rw [List.pairwise_append, List.pairwise_cons] at ho
          have h1 := ho.2.1.1 y hy
          have h2 := hord.2 w (by simp)
          omega
  · subst ht
    refine ⟨fun h => absurd ⟨y, by simp, hy2, hy1⟩ h, ?_⟩
    intro _
    have hyv : y.addr_start ≤ y.addr_end := hord.2 y (by simp)
    have ho := hord.1
    rw [List.pairwise_append, List.pairwise_cons] at ho
    obtain ⟨_, ⟨o2, _⟩, o3⟩ := ho
    have hdel : pavl_delete compare_excludes (l1 ++ y :: l2) y = (l1 ++ l2, some y) :=
      pavl_delete_at compare_excludes l1 y l2 y
        (fun z hz => (compare_excludes_pos_iff _ _).2 (o3 z hz y (List.mem_cons_self _ _)))
        ((compare_excludes_zero_iff _ _).2 ⟨hyv, hyv⟩)
    have c1 : y.addr_start < s := by omega
    have c2 : y.addr_end > e := by omega
    rw [hdel, if_pos c1, if_pos c2] at hr
    have hins := add_exclusion_insert_at fuel l1 l2 y.addr_start y.addr_end
      (fun z hz => o3 z hz y (List.mem_cons_self _ _))
      (fun z hz => by
        have hz' : z ∈ l2 := by
          cases l2 with
          | nil => cases hz
          | cons w ws =>
            simp only [List.head?_cons, Option.some.injEq] at hz
            subst hz
            exact List.mem_cons_self _ _
        have h1 := o2 z hz'
        have h2 := hord'.2 z (by simp [hz'])
        omega)
    refine ⟨l1, y, l2, rfl, hy2, hy1, by rw [hr, hins], ?_⟩
    simp

/-- Witness for C15 (amended): on the tree with the single interval [10, 20],
`add_exclusion(5, 3)` stores [5, 3] and `add_exclusion(15, 12)` leaves the
bounds as they are. -/
theorem add_exclusion_with_start_above_end_witness :
    (([⟨10, 20, 0⟩] : pavl_table exclude_node).Pairwise
        (fun a b => a.addr_end < b.addr_start) ∧
      ∀ y ∈ ([⟨10, 20, 0⟩] : pavl_table exclude_node), y.addr_start ≤ y.addr_end) ∧
    (5 : Nat) > 3 ∧
    (∃ l1 l2, ([⟨10, 20, 0⟩] : pavl_table exclude_node) = l1 ++ l2 ∧
      add_exclusion 2 [⟨10, 20, 0⟩] 5 3 = some (l1 ++ ⟨5, 3, 0⟩ :: l2)) ∧
    (∃ l1 y l2, ([⟨10, 20, 0⟩] : pavl_table exclude_node) = l1 ++ y :: l2 ∧
      add_exclusion 2 [⟨10, 20, 0⟩] 15 12 =
        some (l1 ++ ⟨y.addr_start, y.addr_end, 0⟩ :: l2)) := by
  have hord : ([⟨10, 20, 0⟩] : pavl_table exclude_node).Pairwise
        (fun a b => a.addr_end < b.addr_start) ∧
      ∀ y ∈ ([⟨10, 20, 0⟩] : pavl_table exclude_node), y.addr_start ≤ y.addr_end := by
    decide
  refine ⟨hord, by decide, ?_, ?_⟩
  · exact (add_exclusion_with_start_above_end [⟨10, 20, 0⟩] 5 3 0 hord (by decide)).1
      (by decide)
  · obtain ⟨l1, y, l2, h1, _, _, h2, _⟩ :=
      (add_exclusion_with_start_above_end [⟨10, 20, 0⟩] 15 12 0 hord (by decide)).2
        (by decide)
    exact ⟨l1, y, l2, h1, h2⟩

/-! ## Excluded records -/

/-- C12: with an exclusion tree of disjoint non-empty intervals (as
`add_exclusion` builds it from valid ranges), `flow_callback` on a record
whose `src_addr` or `dst_addr` is covered by a stored interval leaves every
flow tree unchanged, adds 1 to `stat_total_flows` and to `stat_excluded_flows`
(modulo 2^64, the width of the counters, so exactly 1 below the largest value)
and changes none of `stat_new_flows`, `stat_dup_flows`, `stat_current_flows`,
`stat_proto_flows`; on a record with neither address covered it leaves
`stat_excluded_flows` unchanged. -/
theorem excluded_record_changes_only_two_counters (st : collector) (r : unified_flow)
    (hord : st.exclude_tree.Pairwise (fun a b => a.addr_end < b.addr_start) ∧
      ∀ y ∈ st.exclude_tree, y.addr_start ≤ y.addr_end) :
    (((∃ y ∈ st.exclude_tree, y.addr_start ≤ r.src_addr ∧ r.src_addr ≤ y.addr_end) ∨
      (∃ y ∈ st.exclude_tree, y.addr_start ≤ r.dst_addr ∧ r.dst_addr ≤ y.addr_end)) →
      (flow_callback st r).flow_hash_trees = st.flow_hash_trees ∧
      (flow_callback st r).stat_total_flows = (st.stat_total_flows + 1) % 2 ^ 64 ∧
      (flow_callback st r).stat_excluded_flows = (st.stat_excluded_flows + 1) % 2 ^ 64 ∧
      (st.stat_total_flows + 1 < 2 ^ 64 →
        (flow_callback st r).stat_total_flows = st.stat_total_flows + 1) ∧
      (st.stat_excluded_flows + 1 < 2 ^ 64 →
        (flow_callback st r).stat_excluded_flows = st.stat_excluded_flows + 1) ∧
      (flow_callback st r).stat_new_flows = st.stat_new_flows ∧
      (flow_callback st r).stat_dup_flows = st.stat_dup_flows ∧
      (flow_callback st r).stat_current_flows = st.stat_current_flows ∧
      (flow_callback st r).stat_proto_flows = st.stat_proto_flows) ∧
    ((¬ (∃ y ∈ st.exclude_tree, y.addr_start ≤ r.src_addr ∧ r.src_addr ≤ y.addr_end) ∧
      ¬ (∃ y ∈ st.exclude_tree, y.addr_start ≤ r.dst_addr ∧ r.dst_addr ≤ y.addr_end)) →
      (flow_callback st r).stat_excluded_flows = st.stat_excluded_flows) := by
  have hord' : exclude_tree_ordered st.exclude_tree := hord
  have hiff := not_excluded_iff_not_covered hord' r
  unfold exclude_covered at hiff
  refine ⟨?_, ?_⟩
  · intro hcov
    have hx : ¬ not_excluded st.exclude_tree r := by
      rw [hiff]
      intro h
      rcases hcov with h1 | h1
      · exact h.1 h1
      · exact h.2 h1
    obtain ⟨ex, _, hr⟩ := flow_callback_excluded st r hx
    rw [hr]
    refine ⟨rfl, rfl, rfl, ?_, ?_, rfl, rfl, rfl, rfl⟩
    · intro h
      exact Nat.mod_eq_of_lt h
    · intro h
      exact Nat.mod_eq_of_lt h
  · intro hnc
    have hx : not_excluded st.exclude_tree r := hiff.2 hnc
    obtain ⟨l1, l2, _, hcase⟩ := flow_callback_not_excluded st r hx
    rcases hcase with ⟨_, _, hr⟩ | ⟨old, _, _, hr⟩
    · rw [hr]; rfl
    · rw [hr]; rfl

/-- Witness for C12: with the exclusion 44.0.0.0/8 a record from 44.1.2.3 is
counted as excluded and leaves the flow trees empty. -/
theorem excluded_record_changes_only_two_counters_witness :
    (([⟨0x2C000000, 0x2CFFFFFF, 0⟩] : pavl_table exclude_node).Pairwise
        (fun a b => a.addr_end < b.addr_start) ∧
      ∀ y ∈ ([⟨0x2C000000, 0x2CFFFFFF, 0⟩] : pavl_table exclude_node),
        y.addr_start ≤ y.addr_end) ∧
    (∃ y ∈ ([⟨0x2C000000, 0x2CFFFFFF, 0⟩] : pavl_table exclude_node),
      y.addr_start ≤ 0x2C010203 ∧ 0x2C010203 ≤ y.addr_end) ∧
    (flow_callback (collector_init [⟨0x2C000000, 0x2CFFFFFF, 0⟩])
        { sample_flow with src_addr := 0x2C010203 }).flow_hash_trees =
      (collector_init [⟨0x2C000000, 0x2CFFFFFF, 0⟩]).flow_hash_trees ∧
    (flow_callback (collector_init [⟨0x2C000000, 0x2CFFFFFF, 0⟩])
        { sample_flow with src_addr := 0x2C010203 }).stat_excluded_flows = 1 := by
  have hord : ([⟨0x2C000000, 0x2CFFFFFF, 0⟩] : pavl_table exclude_node).Pairwise
        (fun a b => a.addr_end < b.addr_start) ∧
      ∀ y ∈ ([⟨0x2C000000, 0x2CFFFFFF, 0⟩] : pavl_table exclude_node),
        y.addr_start ≤ y.addr_end := by decide
  have hcov : ∃ y ∈ ([⟨0x2C000000, 0x2CFFFFFF, 0⟩] : pavl_table exclude_node),
      y.addr_start ≤ 0x2C010203 ∧ 0x2C010203 ≤ y.addr_end := by decide
  obtain ⟨h1, _, h3, _⟩ :=
    (excluded_record_changes_only_two_counters
      (collector_init [⟨0x2C000000, 0x2CFFFFFF, 0⟩])
      { sample_flow with src_addr := 0x2C010203 } hord).1 (Or.inl hcov)
  exact ⟨hord, hcov, h1, h3.trans (by decide)⟩


/-! ## The exclusion tree and the output -/

theorem flow_callback_flow_state_admitted (st : collector) (r : unified_flow)
    (h : not_excluded st.exclude_tree r) :
    flow_state (flow_callback st r) = flow_callback (flow_state st) r := by
  obtain ⟨h1, h2⟩ := h
  have e1 := is_excluded_miss _ _ h1
  have e2 := is_excluded_miss _ _ h2
  have n1 : ∀ a, is_excluded [] a = (0, []) := fun a => rfl
  simp only [flow_callback, flow_state, h1, e1, h2, e2, n1, if_false]
  split
  · rfl
  · split <;> rfl

theorem flow_callback_flow_state_excluded (st : collector) (r : unified_flow)
    (h : ¬ not_excluded st.exclude_tree r) :
    flow_state (flow_callback st r) = collector_excluded (flow_state st) [] := by
  obtain ⟨ex, _, hr⟩ := flow_callback_excluded st r h
  rw [hr]
  rfl

theorem flow_callback_exclude_bounds (st : collector) (r : unified_flow) :
    exclude_bounds (flow_callback st r).exclude_tree = exclude_bounds st.exclude_tree := by
  by_cases h : not_excluded st.exclude_tree r
  · obtain ⟨l1, l2, _, hcase⟩ := flow_callback_not_excluded st r h
    rcases hcase with ⟨_, _, hr⟩ | ⟨old, _, _, hr⟩
    · rw [hr]; rfl
    · rw [hr]; rfl
  · obtain ⟨ex, hex, hr⟩ := flow_callback_excluded st r h
    rw [hr]
    exact hex

theorem flow_callback_agree (a b : collector) (r : unified_flow)
    (hab : flow_state a = flow_state b)
    (hx : not_excluded a.exclude_tree r ↔ not_excluded b.exclude_tree r) :
    flow_state (flow_callback a r) = flow_state (flow_callback b r) := by
  by_cases h : not_excluded a.exclude_tree r
  · rw [flow_callback_flow_state_admitted a r h, flow_callback_flow_state_admitted b r (hx.1 h), hab]
  · rw [flow_callback_flow_state_excluded a r h,
      flow_callback_flow_state_excluded b r (fun hb => h (hx.2 hb)), hab]

theorem janitor_tree_flow_state (cur_time : Int) (tree_num : Nat) (r : janitor_result) :
    janitor_tree cur_time tree_num ⟨flow_state r.st, r.emitted, r.deleted⟩ =
      (janitor_tree cur_time tree_num r).map
        (fun x => ⟨flow_state x.st, x.emitted, x.deleted⟩) := by
  simp only [janitor_tree, flow_state]
  cases janitor_sweep cur_time (r.st.flow_hash_trees tree_num) r.deleted <;> rfl

theorem janitor_for_flow_state (cur_time : Int) (trees : List Nat) :
    ∀ r : janitor_result,
      janitor_for cur_time trees ⟨flow_state r.st, r.emitted, r.deleted⟩ =
        (janitor_for cur_time trees r).map
          (fun x => ⟨flow_state x.st, x.emitted, x.deleted⟩) := by
  induction trees with
  | nil => intro r; rfl
  | cons k ks ih =>
    intro r
    simp only [janitor_for]
    rw [janitor_tree_flow_state]
    cases janitor_tree cur_time k r with
    | none => rfl
    | some r1 => exact ih r1

theorem janitor_pass_flow_state (cur_time : Int) (st : collector) :
    janitor_pass cur_time (flow_state st) =
      (janitor_pass cur_time st).map
        (fun x => ⟨flow_state x.st, x.emitted, x.deleted⟩) := by
  unfold janitor_pass
  generalize List.range TREES = trees
  have h := janitor_for_flow_state cur_time trees ⟨st, [], 0⟩
  simp only at h
  rw [h]
  cases janitor_for cur_time trees ⟨st, [], 0⟩ <;> rfl

theorem run_op_trace_agree (a b : collector) (o : collector_op)
    (hab : flow_state a = flow_state b)
    (hx : ∀ r, o = collector_op.ingest r →
      (not_excluded a.exclude_tree r ↔ not_excluded b.exclude_tree r)) :
    (run_op_trace a o).map (fun p => (flow_state p.1, p.2)) =
      (run_op_trace b o).map (fun p => (flow_state p.1, p.2)) := by
  cases o with
  | ingest r =>
    simp only [run_op_trace, Option.map_some']
    rw [flow_callback_agree a b r hab (hx r rfl)]
  | sweep cur_time tree_num =>
    have ha := janitor_tree_flow_state cur_time tree_num ⟨a, [], 0⟩
    have hb := janitor_tree_flow_state cur_time tree_num ⟨b, [], 0⟩
    simp only at ha hb
    rw [hab, hb] at ha
    simp only [run_op_trace, Option.map_map]
    have hc := congrArg (Option.map (fun x : janitor_result => (x.st, x.emitted))) ha
    simp only [Option.map_map] at hc
    exact hc.symm
  | pass cur_time =>
    have ha := janitor_pass_flow_state cur_time a
    have hb := janitor_pass_flow_state cur_time b
    rw [hab, hb] at ha
    simp only [run_op_trace, Option.map_map]
    have hc := congrArg (Option.map (fun x : janitor_result => (x.st, x.emitted))) ha
    simp only [Option.map_map] at hc
    exact hc.symm

theorem janitor_for_exclude_tree (cur_time : Int) (trees : List Nat) :
    ∀ r r1 : janitor_result, janitor_for cur_time trees r = some r1 →
      r1.st.exclude_tree = r.st.exclude_tree := by
  induction trees with
  | nil =>
    intro r r1 h
    simp only [janitor_for, Option.some.injEq] at h
    rw [← h]
  | cons k ks ih =>
    intro r r1 h
    simp only [janitor_for] at h
    cases hk : janitor_tree cur_time k r with
    | none => rw [hk] at h; exact absurd h (by simp)
    | some r2 =>
      rw [hk] at h
      rw [ih r2 r1 h]
      simp only [janitor_tree] at hk
      cases hs : janitor_sweep cur_time (r.st.flow_hash_trees k) r.deleted with
      | none => rw [hs] at hk; exact absurd hk (by simp)
      | some s =>
        rw [hs] at hk
        simp only [Option.some.injEq] at hk
        rw [← hk]

theorem run_op_trace_exclude_bounds (st st1 : collector) (o : collector_op)
    (out : List flow_summary) (h : run_op_trace st o = some (st1, out)) :
    exclude_bounds st1.exclude_tree = exclude_bounds st.exclude_tree := by
  cases o with
  | ingest r =>
    simp only [run_op_trace, Option.some.injEq, Prod.mk.injEq] at h
    rw [← h.1]
    exact flow_callback_exclude_bounds st r
  | sweep cur_time tree_num =>
    simp only [run_op_trace, Option.map_eq_some', Prod.mk.injEq] at h
    obtain ⟨r1, hr1, hst, _⟩ := h
    have := janitor_for_exclude_tree cur_time [tree_num] ⟨st, [], 0⟩ r1
      (by simp only [janitor_for, hr1])
    rw [← hst, this]
  | pass cur_time =>
    simp only [run_op_trace, Option.map_eq_some', Prod.mk.injEq] at h
    obtain ⟨r1, hr1, hst, _⟩ := h
    unfold janitor_pass at hr1
    generalize List.range TREES = trees at hr1
    cases hf : janitor_for cur_time trees ⟨st, [], 0⟩ with
    | none => rw [hf] at hr1; exact absurd hr1 (by simp)
    | some r2 =>
      rw [hf] at hr1
      simp only [Option.some.injEq] at hr1
      have := janitor_for_exclude_tree cur_time trees ⟨st, [], 0⟩ r2 hf
      rw [← hst, ← hr1]
      exact congrArg exclude_bounds this

theorem run_op_trace_fst (st : collector) (o : collector_op) :
    (run_op_trace st o).map Prod.fst = run_op st o := by
  cases o with
  | ingest r => rfl
  | sweep cur_time tree_num =>
    simp only [run_op_trace, run_op, Option.map_map]
    cases janitor_tree cur_time tree_num ⟨st, [], 0⟩ <;> rfl
  | pass cur_time =>
    simp only [run_op_trace, run_op, Option.map_map]
    generalize janitor_pass cur_time st = x
    cases x <;> rfl

theorem run_op_trace_wf (st : collector) (hwf : collector_wf st) (o : collector_op) :
    ∃ st1 out, run_op_trace st o = some (st1, out) ∧ collector_wf st1 := by
  obtain ⟨st1, h1, hw⟩ := run_op_wf st hwf o
  rw [← run_op_trace_fst, Option.map_eq_some'] at h1
  obtain ⟨p, hp, hfst⟩ := h1
  exact ⟨p.1, p.2, hp, by rw [hfst]; exact hw⟩

theorem flow_state_fields (a b : collector) (h : flow_state a = flow_state b) :
    a.flow_hash_trees = b.flow_hash_trees ∧
    a.stat_total_flows = b.stat_total_flows ∧
    a.stat_excluded_flows = b.stat_excluded_flows ∧
    a.stat_new_flows = b.stat_new_flows ∧
    a.stat_dup_flows = b.stat_dup_flows ∧
    a.stat_current_flows = b.stat_current_flows ∧
    a.stat_proto_flows = b.stat_proto_flows := by
  have h1 : (flow_state a).flow_hash_trees = (flow_state b).flow_hash_trees := by rw [h]
  have h2 : (flow_state a).stat_total_flows = (flow_state b).stat_total_flows := by rw [h]
  have h3 : (flow_state a).stat_excluded_flows = (flow_state b).stat_excluded_flows := by rw [h]
  have h4 : (flow_state a).stat_new_flows = (flow_state b).stat_new_flows := by rw [h]
  have h5 : (flow_state a).stat_dup_flows = (flow_state b).stat_dup_flows := by rw [h]
  have h6 : (flow_state a).stat_current_flows = (flow_state b).stat_current_flows := by rw [h]
  have h7 : (flow_state a).stat_proto_flows = (flow_state b).stat_proto_flows := by rw [h]
  exact ⟨h1, h2, h3, h4, h5, h6, h7⟩

/-- Two runs of the same operations from states that differ in the exclusion
tree only, with exclusion trees that decide every record of the run the same
way, end in states that differ in the exclusion tree only and print the same
summaries. -/
theorem run_trace_agree (E E' : pavl_table exclude_node) (ops : List collector_op) :
    ∀ a b : collector, collector_wf a → collector_wf b →
      flow_state a = flow_state b →
      exclude_bounds a.exclude_tree = exclude_bounds E →
      exclude_bounds b.exclude_tree = exclude_bounds E' →
      (∀ r, collector_op.ingest r ∈ ops → (not_excluded E r ↔ not_excluded E' r)) →
      ∃ st1 st2 out, run_trace a ops = some (st1, out) ∧
        run_trace b ops = some (st2, out) ∧ flow_state st1 = flow_state st2 := by
  induction ops with
  | nil =>
    intro a b _ _ hab _ _ _
    exact ⟨a, b, [], rfl, rfl, hab⟩
  | cons o os ih =>
    intro a b hwa hwb hab hea heb hx
    obtain ⟨a1, outa, ha1, hwa1⟩ := run_op_trace_wf a hwa o
    obtain ⟨b1, outb, hb1, hwb1⟩ := run_op_trace_wf b hwb o
    have hag := run_op_trace_agree a b o hab (by
      intro r hr
      rw [not_excluded_congr hea r, not_excluded_congr heb r]
      exact hx r (by rw [hr]; exact List.mem_cons_self _ _))
    rw [ha1, hb1] at hag
    simp only [Option.map_some', Option.some.injEq, Prod.mk.injEq] at hag
    obtain ⟨hab1, hout⟩ := hag
    subst hout
    obtain ⟨st1, st2, out, h1, h2, h3⟩ := ih a1 b1 hwa1 hwb1 hab1
      ((run_op_trace_exclude_bounds a a1 o outa ha1).trans hea)
      ((run_op_trace_exclude_bounds b b1 o outa hb1).trans heb)
      (fun r hr => hx r (List.mem_cons_of_mem _ hr))
    exact ⟨st1, st2, outa ++ out, by simp only [run_trace, ha1, h1],
      by simp only [run_trace, hb1, h2], h3⟩

/-- C17: for every exclusion tree `E` of disjoint non-empty intervals, every
range [s, e] with `s ≤ e` and every sequence of `flow_callback` calls, janitor
sweeps of one tree and janitor passes in which no record has its `src_addr` or
its `dst_addr` in [s, e]: `add_exclusion(s, e)` on `E` returns a tree `E2`, the
sequence runs to the end both from `E` and from `E2`, and the two runs end with
the same flow trees and the same six flow counters and hand the same summaries
in the same order to `print_flow_json`. -/
theorem exclusion_outside_workload_changes_nothing
    (E : pavl_table exclude_node) (s e fuel : Nat) (ops : List collector_op)
    (hE : E.Pairwise (fun a b => a.addr_end < b.addr_start) ∧
      ∀ y ∈ E, y.addr_start ≤ y.addr_end)
    (hse : s ≤ e) (hfuel : E.length < fuel)
    (hops : ∀ r, collector_op.ingest r ∈ ops →
      ¬ (s ≤ r.src_addr ∧ r.src_addr ≤ e) ∧ ¬ (s ≤ r.dst_addr ∧ r.dst_addr ≤ e)) :
    ∃ E2 st1 st2 out, add_exclusion fuel E s e = some E2 ∧
      run_trace (collector_init E) ops = some (st1, out) ∧
      run_trace (collector_init E2) ops = some (st2, out) ∧
      st1.flow_hash_trees = st2.flow_hash_trees ∧
      st1.stat_total_flows = st2.stat_total_flows ∧
      st1.stat_excluded_flows = st2.stat_excluded_flows ∧
      st1.stat_new_flows = st2.stat_new_flows ∧
      st1.stat_dup_flows = st2.stat_dup_flows ∧
      st1.stat_current_flows = st2.stat_current_flows ∧
      st1.stat_proto_flows = st2.stat_proto_flows := by
  have hE' : exclude_tree_ordered E := hE
  obtain ⟨E2, hadd, hord2, _, hcov⟩ := add_exclusion_ordered fuel E s e hE' hse hfuel
  have hx : ∀ r, collector_op.ingest r ∈ ops → (not_excluded E r ↔ not_excluded E2 r) := by
    intro r hr
    obtain ⟨h1, h2⟩ := hops r hr
    rw [not_excluded_iff_not_covered hE' r, not_excluded_iff_not_covered hord2 r,
      hcov r.src_addr, hcov r.dst_addr]
    constructor
    · rintro ⟨ha, hb⟩
      exact ⟨fun h => h.elim ha h1, fun h => h.elim hb h2⟩
    · rintro ⟨ha, hb⟩
      exact ⟨fun h => ha (Or.inl h), fun h => hb (Or.inl h)⟩
  obtain ⟨st1, st2, out, h1, h2, h3⟩ :=
    run_trace_agree E E2 ops (collector_init E) (collector_init E2)
      (collector_wf_init E) (collector_wf_init E2) rfl rfl rfl hx
  exact ⟨E2, st1, st2, out, hadd, h1, h2, flow_state_fields st1 st2 h3⟩

/-- Witness for C17: with the exclusion 44.0.0.0/8 stored, adding [10, 20]
changes nothing for a run that ingests the sample record twice around a sweep
of its tree. -/
theorem exclusion_outside_workload_changes_nothing_witness :
    (([⟨0x2C000000, 0x2CFFFFFF, 0⟩] : pavl_table exclude_node).Pairwise
        (fun a b => a.addr_end < b.addr_start) ∧
      ∀ y ∈ ([⟨0x2C000000, 0x2CFFFFFF, 0⟩] : pavl_table exclude_node),
        y.addr_start ≤ y.addr_end) ∧
    (10 : Nat) ≤ 20 ∧
    ∃ E2 st1 st2 out, add_exclusion 2 [⟨0x2C000000, 0x2CFFFFFF, 0⟩] 10 20 = some E2 ∧
      run_trace (collector_init [⟨0x2C000000, 0x2CFFFFFF, 0⟩])
        [.ingest sample_flow, .sweep 2000 (record_tree sample_flow), .ingest sample_flow] =
        some (st1, out) ∧
      run_trace (collector_init E2)
        [.ingest sample_flow, .sweep 2000 (record_tree sample_flow), .ingest sample_flow] =
        some (st2, out) ∧
      st1.flow_hash_trees = st2.flow_hash_trees ∧
      st1.stat_total_flows = st2.stat_total_flows ∧
      st1.stat_excluded_flows = st2.stat_excluded_flows ∧
      st1.stat_new_flows = st2.stat_new_flows ∧
      st1.stat_dup_flows = st2.stat_dup_flows ∧
      st1.stat_current_flows = st2.stat_current_flows ∧
      st1.stat_proto_flows = st2.stat_proto_flows := by
  have hord : ([⟨0x2C000000, 0x2CFFFFFF, 0⟩] : pavl_table exclude_node).Pairwise
        (fun a b => a.addr_end < b.addr_start) ∧
      ∀ y ∈ ([⟨0x2C000000, 0x2CFFFFFF, 0⟩] : pavl_table exclude_node),
        y.addr_start ≤ y.addr_end := by decide
  refine ⟨hord, by decide, ?_⟩
  refine exclusion_outside_workload_changes_nothing [⟨0x2C000000, 0x2CFFFFFF, 0⟩] 10 20 2
    [.ingest sample_flow, .sweep 2000 (record_tree sample_flow), .ingest sample_flow]
    hord (by decide) (by decide) ?_
  intro r hr
  simp only [List.mem_cons, collector_op.ingest.injEq, List.mem_singleton, reduceCtorEq,
    false_or, or_self, List.not_mem_nil, or_false] at hr
  subst hr
  decide


/-! ## Datagrams -/

theorem foldl_flow_callback_range (st : collector) (n : Nat) (f : Nat → unified_flow) :
    (List.range n).foldl (fun st i => flow_callback st (f i)) st =
      ingest_all st ((List.range n).map f) := by
  unfold ingest_all
  rw [List.foldl_map]

theorem parse_netflow_v5_sized (st : collector) (peer : Nat) (flow : List Nat)
    (recv_time : Int) (hv : ntohs_at flow 0 = 5)
    (hlen : flow.length = 24 + ntohs_at flow 2 * 48) :
    parse_netflow_v5 st peer flow recv_time =
      ingest_all st ((List.range (ntohs_at flow 2)).map
        (netflow_v5_flow peer flow recv_time)) := by
  have h1 : ¬ flow.length < 24 := by omega
  simp only [parse_netflow_v5, sizeof_netflow_v5, sizeof_netflow_v5_record]
  rw [if_neg h1, if_neg (not_not.2 hv), if_neg (not_not.2 hlen)]
  exact foldl_flow_callback_range st _ _

theorem parse_netflow_v5_dropped (st : collector) (peer : Nat) (flow : List Nat)
    (recv_time : Int) (hlen : flow.length ≠ 24 + ntohs_at flow 2 * 48) :
    parse_netflow_v5 st peer flow recv_time = st := by
  simp only [parse_netflow_v5, sizeof_netflow_v5, sizeof_netflow_v5_record]
  rw [if_pos hlen]
  simp only [ite_self]

theorem parse_netflow_v7_sized (st : collector) (flow : List Nat)
    (recv_time : Int) (hv : ntohs_at flow 0 = 7)
    (hlen : flow.length = 24 + ntohs_at flow 2 * 52) :
    parse_netflow_v7 st flow recv_time =
      ingest_all st ((List.range (ntohs_at flow 2)).map (netflow_v7_flow flow recv_time)) := by
  have h1 : ¬ flow.length < 24 := by omega
  simp only [parse_netflow_v7, sizeof_netflow_v7, sizeof_netflow_v7_record]
  rw [if_neg h1, if_neg (not_not.2 hv), if_neg (not_not.2 hlen)]
  exact foldl_flow_callback_range st _ _

theorem parse_netflow_v7_dropped (st : collector) (flow : List Nat)
    (recv_time : Int) (hlen : flow.length ≠ 24 + ntohs_at flow 2 * 52) :
    parse_netflow_v7 st flow recv_time = st := by
  simp only [parse_netflow_v7, sizeof_netflow_v7, sizeof_netflow_v7_record]
  rw [if_pos hlen]
  simp only [ite_self]

/-- The calls `packet_callback` makes, in terms of the decoders of the two
parsers. -/
theorem packet_callback_calls (st : collector) (peer : Nat)
    (flow : List Nat) (recv_time : Int) :
    (ntohs_at flow 0 = 5 → flow.length = 24 + ntohs_at flow 2 * 48 →
      packet_callback st peer flow recv_time =
        ingest_all st ((List.range (ntohs_at flow 2)).map
          (netflow_v5_flow peer flow recv_time))) ∧
    (ntohs_at flow 0 = 7 → flow.length = 24 + ntohs_at flow 2 * 52 →
      packet_callback st peer flow recv_time =
        ingest_all st ((List.range (ntohs_at flow 2)).map
          (netflow_v7_flow flow recv_time))) ∧
    (¬ (ntohs_at flow 0 = 5 ∧ flow.length = 24 + ntohs_at flow 2 * 48) →
      ¬ (ntohs_at flow 0 = 7 ∧ flow.length = 24 + ntohs_at flow 2 * 52) →
      packet_callback st peer flow recv_time = st) := by
  refine ⟨?_, ?_, ?_⟩
  · intro hv hlen
    by_cases hz : ntohs_at flow 2 = 0
    · have hl : flow.length = 24 := by rw [hlen, hz]
      simp [packet_callback, sizeof_netflow_v5, sizeof_netflow_v7, hl, hv, hz, ingest_all]
    · have hgt : flow.length > 24 ∧ ntohs_at flow 0 = 5 := ⟨by rw [hlen]; omega, hv⟩
      simp only [packet_callback, sizeof_netflow_v5]
      rw [if_pos hgt]
      exact parse_netflow_v5_sized st peer flow recv_time hv hlen
  · intro hv hlen
    have hv5 : ¬ (flow.length > 24 ∧ ntohs_at flow 0 = 5) := by
      rw [hv]
      exact fun h => absurd h.2 (by decide)
    by_cases hz : ntohs_at flow 2 = 0
    · have hl : flow.length = 24 := by rw [hlen, hz]
      simp [packet_callback, sizeof_netflow_v5, sizeof_netflow_v7, hl, hv, hz, ingest_all]
    · have hgt : flow.length > 24 ∧ ntohs_at flow 0 = 7 := ⟨by rw [hlen]; omega, hv⟩
      simp only [packet_callback, sizeof_netflow_v5, sizeof_netflow_v7]
      rw [if_neg hv5, if_pos hgt]
      exact parse_netflow_v7_sized st flow recv_time hv hlen
  · intro h5 h7
    simp only [packet_callback, sizeof_netflow_v5, sizeof_netflow_v7]
    by_cases c5 : flow.length > 24 ∧ ntohs_at flow 0 = 5
    · rw [if_pos c5]
      exact parse_netflow_v5_dropped st peer flow recv_time (fun h => h5 ⟨c5.2, h⟩)
    · rw [if_neg c5]
      by_cases c7 : flow.length > 24 ∧ ntohs_at flow 0 = 7
      · rw [if_pos c7]
        exact parse_netflow_v7_dropped st flow recv_time (fun h => h7 ⟨c7.2, h⟩)
      · rw [if_neg c7]

theorem ntohl_at_eq (flow : List Nat) (k : Nat) :
    ntohl_at flow k =
      flow.getD k 0 % 256 * 2 ^ 24 + flow.getD (k + 1) 0 % 256 * 2 ^ 16 +
        flow.getD (k + 2) 0 % 256 * 2 ^ 8 + flow.getD (k + 3) 0 % 256 := by
  simp only [ntohl_at, u_char_at]
  ring

theorem flow_time_eq (flow : List Nat) (k : Nat) :
    flow_time flow k =
      ((ntohl_at flow 8 + 2 ^ 32 - (ntohl_at flow 4 + 2 ^ 32 - ntohl_at flow k) % 2 ^ 32 / 1000)
        % 2 ^ 32 : Nat) := by
  have hm : (0xFFFFFFFF : Nat) = 2 ^ 32 - 1 := by decide
  simp only [flow_time]
  rw [hm, Nat.and_pow_two_sub_one_eq_mod, Nat.mod_mod]

/-- C21: write `byte k` for byte `k` of the datagram, `be16 k` and `be32 k`
for the big-endian numbers in the 2 and 4 bytes from offset `k`, and `secs k`
for `be32 8` minus a thousandth (rounded down) of `be32 4 - be32 k`, both
differences modulo 2^32. `packet_callback` passes records to `flow_callback`
only for a datagram with `be16 0` equal to 5 or 7 and length 24 plus
`be16 2` (its `flow_count`) times 48 (version 5) or 52 (version 7); the
state it returns is then the state after exactly `flow_count` calls of
`flow_callback`, call `i` (from 0, in ascending order) on the record whose
fields are read at the fixed offsets from the start `24 + i * 48`
(`24 + i * 52`) of record `i` of the datagram, with the exporter taken from
the peer address (version 5) or from offset 48 of the record (version 7).
For every other datagram the state (flow trees, exclusion tree, counters) is
returned unchanged. -/
theorem packet_callback_passes_exactly_the_records (st : collector) (peer : Nat)
    (flow : List Nat) (recv_time : Int) :
    let byte : Nat → Nat := fun k => flow.getD k 0 % 256
    let be16 : Nat → Nat := fun k => byte k * 256 + byte (k + 1)
    let be32 : Nat → Nat := fun k =>
      byte k * 2 ^ 24 + byte (k + 1) * 2 ^ 16 + byte (k + 2) * 2 ^ 8 + byte (k + 3)
    let secs : Nat → Int := fun k =>
      ((be32 8 + 2 ^ 32 - (be32 4 + 2 ^ 32 - be32 k) % 2 ^ 32 / 1000) % 2 ^ 32 : Nat)
    let record_v5 : Nat → unified_flow := fun i =>
      { flow_src := peer
        recv_time := recv_time
        src_int := be16 (24 + i * 48 + 12)
        dst_int := be16 (24 + i * 48 + 14)
        src_addr := be32 (24 + i * 48)
        dst_addr := be32 (24 + i * 48 + 4)
        protocol := byte (24 + i * 48 + 38)
        src_port := be16 (24 + i * 48 + 32)
        dst_port := be16 (24 + i * 48 + 34)
        tcp_flags := byte (24 + i * 48 + 37)
        num_packets := be32 (24 + i * 48 + 16)
        num_bytes := be32 (24 + i * 48 + 20)
        start_time := secs (24 + i * 48 + 24)
        end_time := secs (24 + i * 48 + 28) }
    let record_v7 : Nat → unified_flow := fun i =>
      { flow_src := be32 (24 + i * 52 + 48)
        recv_time := recv_time
        src_int := be16 (24 + i * 52 + 12)
        dst_int := be16 (24 + i * 52 + 14)
        src_addr := be32 (24 + i * 52)
        dst_addr := be32 (24 + i * 52 + 4)
        protocol := byte (24 + i * 52 + 38)
        src_port := be16 (24 + i * 52 + 32)
        dst_port := be16 (24 + i * 52 + 34)
        tcp_flags := byte (24 + i * 52 + 37)
        num_packets := be32 (24 + i * 52 + 16)
        num_bytes := be32 (24 + i * 52 + 20)
        start_time := secs (24 + i * 52 + 24)
        end_time := secs (24 + i * 52 + 28) }
    (be16 0 = 5 → flow.length = 24 + be16 2 * 48 →
      packet_callback st peer flow recv_time =
        ingest_all st ((List.range (be16 2)).map record_v5)) ∧
    (be16 0 = 7 → flow.length = 24 + be16 2 * 52 →
      packet_callback st peer flow recv_time =
        ingest_all st ((List.range (be16 2)).map record_v7)) ∧
    (¬ (be16 0 = 5 ∧ flow.length = 24 + be16 2 * 48) →
      ¬ (be16 0 = 7 ∧ flow.length = 24 + be16 2 * 52) →
      packet_callback st peer flow recv_time = st) := by
  intro byte be16 be32 secs record_v5 record_v7
  have h16 : ∀ k, ntohs_at flow k = be16 k := fun k => rfl
  have h32 : ∀ k, ntohl_at flow k = be32 k := fun k => ntohl_at_eq flow k
  have hsecs : ∀ k, flow_time flow k = secs k := by
    intro k
    rw [flow_time_eq, h32, h32, h32]
  have h5 : netflow_v5_flow peer flow recv_time = record_v5 := by
    funext i
    simp only [netflow_v5_flow, sizeof_netflow_v5, sizeof_netflow_v5_record, h16, h32, hsecs]
    rfl
  have h7 : netflow_v7_flow flow recv_time = record_v7 := by
    funext i
    simp only [netflow_v7_flow, sizeof_netflow_v7, sizeof_netflow_v7_record, h16, h32, hsecs]
    rfl
  have h := packet_callback_calls st peer flow recv_time
  rw [h5, h7] at h
  simp only [h16] at h
  exact h

/-- Witness for C21: the two records of the version 5 datagram
`sample_datagram` (120 bytes, from the peer 192.0.2.1) and the record of the
version 7 datagram `sample_datagram_v7` (76 bytes) are passed with every field
as sent; the version 5 datagram without its last byte, and its header alone,
are dropped. -/
theorem packet_callback_passes_exactly_the_records_witness :
    sample_datagram.length = 120 ∧ sample_datagram_v7.length = 76 ∧
    packet_callback (collector_init []) 0xC0000201 sample_datagram 1000 =
      ingest_all (collector_init [])
        [{ flow_src := 0xC0000201, recv_time := 1000, src_int := 1, dst_int := 2,
           src_addr := 0x0A000001, dst_addr := 0x0A000002, protocol := 6,
           src_port := 1234, dst_port := 80, tcp_flags := 2, num_packets := 5,
           num_bytes := 500, start_time := 995, end_time := 1000 },
         { flow_src := 0xC0000201, recv_time := 1000, src_int := 1, dst_int := 2,
           src_addr := 0x0A000003, dst_addr := 0x0A000002, protocol := 6,
           src_port := 1235, dst_port := 80, tcp_flags := 16, num_packets := 7,
           num_bytes := 700, start_time := 995, end_time := 1000 }] ∧
    packet_callback (collector_init []) 0xC0000201 sample_datagram_v7 1000 =
      ingest_all (collector_init [])
        [{ flow_src := 0xC0000209, recv_time := 1000, src_int := 1, dst_int := 2,
           src_addr := 0x0A000001, dst_addr := 0x0A000002, protocol := 6,
           src_port := 1234, dst_port := 80, tcp_flags := 2, num_packets := 5,
           num_bytes := 500, start_time := 995, end_time := 1000 }] ∧
    packet_callback (collector_init []) 0xC0000201 (sample_datagram.take 119) 1000 =
      collector_init [] ∧
    packet_callback (collector_init []) 0xC0000201 (sample_datagram.take 24) 1000 =
      collector_init [] := by
  have h5 := (packet_callback_passes_exactly_the_records (collector_init []) 0xC0000201
    sample_datagram 1000).1 (by decide) (by decide)
  have h7 := (packet_callback_passes_exactly_the_records (collector_init []) 0xC0000201
    sample_datagram_v7 1000).2.1 (by decide) (by decide)
  have hd1 := (packet_callback_passes_exactly_the_records (collector_init []) 0xC0000201
    (sample_datagram.take 119) 1000).2.2 (by decide) (by decide)
  have hd2 := (packet_callback_passes_exactly_the_records (collector_init []) 0xC0000201
    (sample_datagram.take 24) 1000).2.2 (by decide) (by decide)
  refine ⟨by decide, by decide, h5.trans (congrArg _ ?_), h7.trans (congrArg _ ?_), hd1, hd2⟩
  · decide
  · decide

/-! ## Per-exporter totals -/

theorem sources_of_none (x : Nat) (l : List flow_source_summary)
    (h : ∀ n ∈ l, n.flow_src ≠ x) : sources_of x l = [] := by
  unfold sources_of
  rw [List.filter_eq_nil_iff]
  intro n hn
  simpa using h n hn

/-- What one more record does to the nodes of exporter `x` in an ascending
source list. -/
theorem update_sources_sources_of (y : unified_flow) (s : flow_summary) (x : Nat)
    (hasc : s.sources.Pairwise (fun a b => a.flow_src < b.flow_src)) :
    sources_of x (update_sources y s).sources =
      if y.flow_src = x then
        match sources_of x s.sources with
        | [] => [new_flow_source_summary y]
        | e :: _ => [source_plus e y]
      else sources_of x s.sources := by
  rcases update_sources_spec y s with ⟨p, q, hs, hp, hq, hu⟩ | ⟨p, n, q, hs, hp, hn, hu⟩
  · rw [hu, hs]
    have hq2 : ∀ m ∈ q, y.flow_src < m.flow_src := by
      cases q with
      | nil => intro m hm; exact absurd hm (List.not_mem_nil _)
      | cons z zs =>
        intro m hm
        have hz := hq z rfl
        rcases List.mem_cons.1 hm with rfl | hm
        · exact hz
        · rw [hs] at hasc
          have := (List.pairwise_cons.1 (List.pairwise_append.1 hasc).2.1).1 m hm
          omega
    by_cases hx : y.flow_src = x
    · rw [if_pos hx]
      have e1 : sources_of x p = [] :=
        sources_of_none x p (fun m hm => by have := hp m hm; omega)
      have e2 : sources_of x q = [] :=
        sources_of_none x q (fun m hm => by have := hq2 m hm; omega)
      have e3 : sources_of x (p ++ q) = [] := by
        unfold sources_of at e1 e2 ⊢
        rw [List.filter_append, e1, e2]
        rfl
      rw [e3]
      unfold sources_of at e1 e2 ⊢
      simp only [List.filter_append, e1, List.nil_append]
      rw [List.filter_cons_of_pos (by simpa [new_flow_source_summary] using hx), e2]
    · rw [if_neg hx]
      unfold sources_of
      simp only [List.filter_append]
      rw [List.filter_cons_of_neg (by simpa [new_flow_source_summary] using hx)]
  · rw [hu, hs]
    rw [hs] at hasc
    obtain ⟨h1, h2⟩ := sources_ascending_mid hasc
    by_cases hx : y.flow_src = x
    · rw [if_pos hx]
      have e1 : sources_of x p = [] :=
        sources_of_none x p (fun m hm => by have := h1 m hm; omega)
      have e2 : sources_of x q = [] :=
        sources_of_none x q (fun m hm => by have := h2 m hm; omega)
      have e3 : sources_of x (p ++ n :: q) = [n] := by
        unfold sources_of at e1 e2 ⊢
        rw [List.filter_append, e1, List.filter_cons_of_pos (by simpa using hn.trans hx), e2]
        rfl
      rw [e3]
      unfold sources_of at e1 e2 ⊢
      simp only [List.filter_append, e1, List.nil_append]
      rw [List.filter_cons_of_pos (by simpa using hn.trans hx), e2]
      rfl
    · rw [if_neg hx]
      have hn2 : ¬ n.flow_src = x := fun h => hx (hn.symm.trans h)
      unfold sources_of
      simp only [List.filter_append]
      rw [List.filter_cons_of_neg (by simpa using hn2),
        List.filter_cons_of_neg (by simpa using hn2)]

theorem records_from_append (x : Nat) (l : List unified_flow) (y : unified_flow) :
    records_from x (l ++ [y]) =
      if y.flow_src = x then records_from x l ++ [y] else records_from x l := by
  unfold records_from
  rw [List.filter_append]
  by_cases hx : y.flow_src = x
  · rw [if_pos hx, List.filter_cons_of_pos (by simpa using hx)]
    rfl
  · rw [if_neg hx, List.filter_cons_of_neg (by simpa using hx)]
    simp

/-- The totals of exporter `x` after one more record `y`. -/
theorem source_total_append (x : Nat) (l : List unified_flow) (y : unified_flow)
    (hp : y.num_packets < 2 ^ 64) (hb : y.num_bytes < 2 ^ 64) :
    source_total x (l ++ [y]) =
      if y.flow_src = x then
        match source_total x l with
        | [] => [new_flow_source_summary y]
        | e :: _ => [source_plus e y]
      else source_total x l := by
  unfold source_total
  rw [records_from_append]
  by_cases hx : y.flow_src = x
  · rw [if_pos hx, if_pos hx]
    cases hr : records_from x l with
    | nil =>
      simp only [List.nil_append, List.map_cons, List.map_nil, List.sum_cons, List.sum_nil,
        Nat.add_zero, List.length_singleton, new_flow_source_summary, hx,
        Nat.mod_eq_of_lt hp, Nat.mod_eq_of_lt hb]
      rfl
    | cons f fs =>
      simp only [List.cons_append, List.map_cons, List.map_append, List.map_nil,
        List.sum_cons, List.sum_append, List.sum_nil, Nat.add_zero, List.length_cons,
        List.length_append, List.length_nil, source_plus, Nat.mod_add_mod, Nat.add_assoc]
  · rw [if_neg hx, if_neg hx]

theorem foldl_merged_ascending (rs : List unified_flow) :
    ∀ s : flow_summary, s.sources.Pairwise (fun a b => a.flow_src < b.flow_src) →
      (rs.foldl merged_summary s).sources.Pairwise (fun a b => a.flow_src < b.flow_src) := by
  induction rs with
  | nil => exact fun s h => h
  | cons y ys ih =>
    intro s h
    exact ih _ (update_sources_ascending y _ h)

/-- The nodes of exporter `x` in the summary that the records `r :: rs` of
one flow build up are the totals of the records of `x`. -/
theorem foldl_merged_sources_of (r : unified_flow) (x : Nat) (rs : List unified_flow) :
    (∀ y ∈ r :: rs, y.num_packets < 2 ^ 64 ∧ y.num_bytes < 2 ^ 64) →
      sources_of x (rs.foldl merged_summary (created_summary r)).sources =
        source_total x (r :: rs) := by
  induction rs using List.reverseRecOn with
  | nil =>
    intro ht
    have h := update_sources_sources_of r (cur_flow_summary r) x List.Pairwise.nil
    have h2 := source_total_append x [] r (ht r (List.mem_cons_self _ _)).1
      (ht r (List.mem_cons_self _ _)).2
    simp only [List.foldl_nil, created_summary]
    rw [h]
    simp only [List.nil_append] at h2
    rw [h2]
    rfl
  | append_singleton l y ih =>
    intro ht
    have hl : ∀ z ∈ r :: l, z.num_packets < 2 ^ 64 ∧ z.num_bytes < 2 ^ 64 := by
      intro z hz
      apply ht z
      rcases List.mem_cons.1 hz with rfl | hz
      · exact List.mem_cons_self _ _
      · exact List.mem_cons_of_mem _ (List.mem_append_left _ hz)
    have hy := ht y (List.mem_cons_of_mem _ (List.mem_append_right _ (List.mem_singleton_self y)))
    have hasc := foldl_merged_ascending l (created_summary r) (created_summary_wf r).1
    have h := update_sources_sources_of y
      (merge_flow (l.foldl merged_summary (created_summary r)) (cur_flow_summary y)) x hasc
    have h2 := source_total_append x (r :: l) y hy.1 hy.2
    simp only [List.foldl_append, List.foldl_cons, List.foldl_nil]
    rw [show r :: (l ++ [y]) = (r :: l) ++ [y] from rfl, h2, ← ih hl]
    exact h

theorem same_flow_sources_of (st : collector) (r : unified_flow) (rs : List unified_flow)
    (hadm : ∀ x ∈ r :: rs, not_excluded st.exclude_tree x)
    (hsame : ∀ x ∈ rs, record_identity x = record_identity r)
    (habs : ∀ s ∈ st.flow_hash_trees (record_tree r), flow_identity s ≠ record_identity r)
    (htype : ∀ y ∈ r :: rs, y.num_packets < 2 ^ 32 ∧ y.num_bytes < 2 ^ 32) :
    ∃ s, ((ingest_all st (r :: rs)).flow_hash_trees (record_tree r)).filter
          (fun y => decide (flow_identity y = record_identity r)) = [s] ∧
      ∀ x, sources_of x s.sources = source_total x (r :: rs) := by
  refine ⟨_, ingest_all_same_flow_stored st r rs hadm hsame habs, fun x => ?_⟩
  apply foldl_merged_sources_of
  intro y hy
  obtain ⟨h1, h2⟩ := htype y hy
  exact ⟨by omega, by omega⟩

theorem records_from_nonempty (x : Nat) (l : List unified_flow)
    (h : ∃ y ∈ l, y.flow_src = x) : ∃ first rest, records_from x l = first :: rest := by
  obtain ⟨y, hy, hx⟩ := h
  have hm : y ∈ records_from x l := by
    unfold records_from
    exact List.mem_filter.2 ⟨hy, by simpa using hx⟩
  cases hr : records_from x l with
  | nil => rw [hr] at hm; exact absurd hm (List.not_mem_nil _)
  | cons f fs => exact ⟨f, fs, rfl⟩

theorem records_from_take_head (x : Nat) (r : unified_flow) (rs : List unified_flow) (n : Nat)
    (first : unified_flow) (rest : List unified_flow)
    (h : records_from x (r :: rs.take n) = first :: rest) :
    ∃ rest2, records_from x (r :: rs) = first :: rest2 := by
  have hp : (r :: rs.take n) <+: (r :: rs) := by
    obtain ⟨t, ht⟩ := List.take_prefix n rs
    exact ⟨t, by rw [List.cons_append, ht]⟩
  have hf : records_from x (r :: rs.take n) <+: records_from x (r :: rs) := by
    unfold records_from
    exact hp.filter _
  rw [h] at hf
  obtain ⟨t, ht⟩ := hf
  exact ⟨rest ++ t, by rw [← ht]; rfl⟩

/-- C23: when a non-empty sequence of records of one flow, all passing the
exclusion check and with `num_packets` and `num_bytes` in the range of their
32-bit fields, is ingested into a state that holds no summary of the flow,
then for every exporter `x` that sent a record the stored summary has exactly
one source node for `x`; its `num_flows` is the number of records from `x`
(modulo 2^64, so that number itself below 2^64), its `num_packets` and
`num_bytes` are the sums over the records from `x` modulo 2^64, and its
`src_int` and `dst_int` are those of the first record from `x`. The
interfaces are those of that first record after every prefix of the sequence
that contains a record from `x`. -/
theorem source_entry_totals_per_exporter (st : collector) (r : unified_flow)
    (rs : List unified_flow)
    (hadm : ∀ x ∈ r :: rs, not_excluded st.exclude_tree x)
    (hsame : ∀ x ∈ rs, record_identity x = record_identity r)
    (habs : ∀ s ∈ st.flow_hash_trees (record_tree r), flow_identity s ≠ record_identity r)
    (htype : ∀ y ∈ r :: rs, y.num_packets < 2 ^ 32 ∧ y.num_bytes < 2 ^ 32) :
    (∃ s, ((ingest_all st (r :: rs)).flow_hash_trees (record_tree r)).filter
          (fun y => decide (flow_identity y = record_identity r)) = [s] ∧
      ∀ x, (∃ y ∈ r :: rs, y.flow_src = x) →
        ∃ e first rest, sources_of x s.sources = [e] ∧
          records_from x (r :: rs) = first :: rest ∧
          e.src_int = first.src_int ∧ e.dst_int = first.dst_int ∧
          e.num_flows = (first :: rest).length % 2 ^ 64 ∧
          ((first :: rest).length < 2 ^ 64 → e.num_flows = (first :: rest).length) ∧
          e.num_packets = ((first :: rest).map (fun y => y.num_packets)).sum % 2 ^ 64 ∧
          e.num_bytes = ((first :: rest).map (fun y => y.num_bytes)).sum % 2 ^ 64) ∧
    (∀ n, ∃ s, ((ingest_all st (r :: rs.take n)).flow_hash_trees (record_tree r)).filter
          (fun y => decide (flow_identity y = record_identity r)) = [s] ∧
      ∀ x, (∃ y ∈ r :: rs.take n, y.flow_src = x) →
        ∃ e first rest, sources_of x s.sources = [e] ∧
          records_from x (r :: rs) = first :: rest ∧
          e.src_int = first.src_int ∧ e.dst_int = first.dst_int) := by
  constructor
  · obtain ⟨s, hs, hsrc⟩ := same_flow_sources_of st r rs hadm hsame habs htype
    refine ⟨s, hs, fun x hx => ?_⟩
    obtain ⟨first, rest, hr⟩ := records_from_nonempty x _ hx
    have h := hsrc x
    simp only [source_total, hr] at h
    exact ⟨_, first, rest, h, hr, rfl, rfl, rfl, fun hlt => Nat.mod_eq_of_lt hlt, rfl, rfl⟩
  · intro n
    have hadm2 : ∀ x ∈ r :: rs.take n, not_excluded st.exclude_tree x := by
      intro x hx
      rcases List.mem_cons.1 hx with rfl | hx
      · exact hadm _ (List.mem_cons_self _ _)
      · exact hadm x (List.mem_cons_of_mem _ (List.mem_of_mem_take hx))
    have htype2 : ∀ y ∈ r :: rs.take n, y.num_packets < 2 ^ 32 ∧ y.num_bytes < 2 ^ 32 := by
      intro x hx
      rcases List.mem_cons.1 hx with rfl | hx
      · exact htype _ (List.mem_cons_self _ _)
      · exact htype x (List.mem_cons_of_mem _ (List.mem_of_mem_take hx))
    obtain ⟨s, hs, hsrc⟩ := same_flow_sources_of st r (rs.take n) hadm2
      (fun x hx => hsame x (List.mem_of_mem_take hx)) habs htype2
    refine ⟨s, hs, fun x hx => ?_⟩
    obtain ⟨first, rest, hr⟩ := records_from_nonempty x _ hx
    obtain ⟨rest2, hr2⟩ := records_from_take_head x r rs n first rest hr
    have h := hsrc x
    simp only [source_total, hr] at h
    exact ⟨_, first, rest2, h, hr2, rfl, rfl⟩

/-- Witness for C23: one flow reported by exporter 9 (5 packets, interfaces
1 and 2), then by exporter 7, then again by exporter 9 with 7 packets and
other interfaces: the node of exporter 9 counts 2 records and 12 packets and
keeps the interfaces 1 and 2. -/
theorem source_entry_totals_per_exporter_witness :
    (∀ x ∈ [exporter_flow 9, exporter_flow 7,
        { exporter_flow 9 with num_packets := 7, src_int := 3, dst_int := 4 }],
      not_excluded [] x) ∧
    (∀ x ∈ [exporter_flow 7,
        { exporter_flow 9 with num_packets := 7, src_int := 3, dst_int := 4 }],
      record_identity x = record_identity (exporter_flow 9)) ∧
    (∀ y ∈ [exporter_flow 9, exporter_flow 7,
        { exporter_flow 9 with num_packets := 7, src_int := 3, dst_int := 4 }],
      y.num_packets < 2 ^ 32 ∧ y.num_bytes < 2 ^ 32) ∧
    ∃ s, ((ingest_all (collector_init [])
            [exporter_flow 9, exporter_flow 7,
              { exporter_flow 9 with num_packets := 7, src_int := 3, dst_int := 4 }]
            ).flow_hash_trees (record_tree (exporter_flow 9))).filter
          (fun y => decide (flow_identity y = record_identity (exporter_flow 9))) = [s] ∧
      ∃ e, sources_of 9 s.sources = [e] ∧ e.src_int = 1 ∧ e.dst_int = 2 ∧
        e.num_flows = 2 ∧ e.num_packets = 12 ∧ e.num_bytes = 1000 := by
  have h1 : ∀ x ∈ [exporter_flow 9, exporter_flow 7,
      { exporter_flow 9 with num_packets := 7, src_int := 3, dst_int := 4 }],
      not_excluded [] x := by decide
  have h2 : ∀ x ∈ [exporter_flow 7,
      { exporter_flow 9 with num_packets := 7, src_int := 3, dst_int := 4 }],
      record_identity x = record_identity (exporter_flow 9) := by decide
  have h3 : ∀ y ∈ [exporter_flow 9, exporter_flow 7,
      { exporter_flow 9 with num_packets := 7, src_int := 3, dst_int := 4 }],
      y.num_packets < 2 ^ 32 ∧ y.num_bytes < 2 ^ 32 := by decide
  obtain ⟨⟨s, hs, hx⟩, _⟩ := source_entry_totals_per_exporter (collector_init [])
    (exporter_flow 9)
    [exporter_flow 7, { exporter_flow 9 with num_packets := 7, src_int := 3, dst_int := 4 }]
    h1 h2 (by intro s hs; simp [collector_init] at hs) h3
  obtain ⟨e, first, rest, he, hr, hi1, hi2, hf, _, hp, hb⟩ :=
    hx 9 ⟨exporter_flow 9, List.mem_cons_self _ _, rfl⟩
  have hr2 : records_from 9 [exporter_flow 9, exporter_flow 7,
      { exporter_flow 9 with num_packets := 7, src_int := 3, dst_int := 4 }] =
      [exporter_flow 9,
        { exporter_flow 9 with num_packets := 7, src_int := 3, dst_int := 4 }] := by decide
  rw [hr2] at hr
  obtain ⟨rfl, rfl⟩ := List.cons.inj hr
  exact ⟨h1, h2, h3, s, hs, e, he, hi1.trans (by decide), hi2.trans (by decide),
    hf.trans (by decide), hp.trans (by decide), hb.trans (by decide)⟩


/-! ## Number of exporters -/

theorem foldl_merged_count (rs : List unified_flow) :
    ∀ s : flow_summary, s.sources.Pairwise (fun a b => a.flow_src < b.flow_src) →
      s.source_count = s.sources.length % U8 →
      (rs.foldl merged_summary s).source_count =
        (rs.foldl merged_summary s).sources.length % U8 := by
  induction rs with
  | nil => exact fun s _ h => h
  | cons y ys ih =>
    intro s h1 h2
    exact ih _ (merged_summary_wf s y h1 h2).1 (merged_summary_wf s y h1 h2).2

theorem sources_length_eq_exporters (l : List flow_source_summary) (xs : List Nat)
    (hasc : l.Pairwise (fun a b => a.flow_src < b.flow_src))
    (hmem : ∀ x, x ∈ l.map (fun n => n.flow_src) ↔ x ∈ xs) :
    l.length = xs.dedup.length := by
  have hnd : (l.map (fun n => n.flow_src)).Nodup := by
    unfold List.Nodup
    rw [List.pairwise_map]
    exact hasc.imp (fun h => Nat.ne_of_lt h)
  have h1 : (l.map (fun n => n.flow_src)).toFinset = xs.toFinset := by
    ext x
    simp only [List.mem_toFinset]
    exact hmem x
  have h2 := List.toFinset_card_of_nodup hnd
  rw [h1, List.card_toFinset, List.length_map] at h2
  exact h2.symm

/-- C24: when a non-empty sequence of records of one flow, all passing the
exclusion check, is ingested into a state that holds no summary of the flow,
the stored summary has as many source nodes as the sequence has distinct
exporters, `k`; its `source_count` is `k` modulo 256, and is `k` when
`k ≤ 255`. -/
theorem source_count_is_number_of_exporters (st : collector) (r : unified_flow)
    (rs : List unified_flow)
    (hadm : ∀ x ∈ r :: rs, not_excluded st.exclude_tree x)
    (hsame : ∀ x ∈ rs, record_identity x = record_identity r)
    (habs : ∀ s ∈ st.flow_hash_trees (record_tree r), flow_identity s ≠ record_identity r) :
    ∃ s, ((ingest_all st (r :: rs)).flow_hash_trees (record_tree r)).filter
          (fun y => decide (flow_identity y = record_identity r)) = [s] ∧
      s.sources.length = ((r :: rs).map (fun y => y.flow_src)).dedup.length ∧
      s.source_count = ((r :: rs).map (fun y => y.flow_src)).dedup.length % 256 ∧
      (((r :: rs).map (fun y => y.flow_src)).dedup.length ≤ 255 →
        s.source_count = ((r :: rs).map (fun y => y.flow_src)).dedup.length) := by
  have hlen : (rs.foldl merged_summary (created_summary r)).sources.length =
      ((r :: rs).map (fun y => y.flow_src)).dedup.length := by
    apply sources_length_eq_exporters _ _
      (foldl_merged_ascending rs _ (created_summary_wf r).1)
    intro x
    rw [foldl_merged_exporters]
    have hc : x ∈ (created_summary r).sources.map (fun n => n.flow_src) ↔ x = r.flow_src := by
      unfold created_summary
      rw [update_sources_exporters]
      simp [cur_flow_summary]
    rw [hc]
    simp only [List.map_cons, List.mem_cons, List.mem_map]
  have hcnt := foldl_merged_count rs (created_summary r) (created_summary_wf r).1
    (created_summary_wf r).2
  rw [hlen] at hcnt
  refine ⟨_, ingest_all_same_flow_stored st r rs hadm hsame habs, hlen, hcnt, ?_⟩
  intro hk
  rw [hcnt]
  exact Nat.mod_eq_of_lt (by unfold U8; omega)

/-- Witness for C24: the exporters 9, 7, 9 of one flow give two source nodes
and `source_count` 2. -/
theorem source_count_is_number_of_exporters_witness :
    (∀ x ∈ [exporter_flow 9, exporter_flow 7, exporter_flow 9], not_excluded [] x) ∧
    (∀ x ∈ [exporter_flow 7, exporter_flow 9],
      record_identity x = record_identity (exporter_flow 9)) ∧
    ∃ s, ((ingest_all (collector_init [])
            [exporter_flow 9, exporter_flow 7, exporter_flow 9]).flow_hash_trees
          (record_tree (exporter_flow 9))).filter
          (fun y => decide (flow_identity y = record_identity (exporter_flow 9))) = [s] ∧
      s.sources.length = 2 ∧ s.source_count = 2 := by
  have h1 : ∀ x ∈ [exporter_flow 9, exporter_flow 7, exporter_flow 9],
      not_excluded [] x := by decide
  have h2 : ∀ x ∈ [exporter_flow 7, exporter_flow 9],
      record_identity x = record_identity (exporter_flow 9) := by decide
  obtain ⟨s, hs, hl, hc, _⟩ := source_count_is_number_of_exporters (collector_init [])
    (exporter_flow 9) [exporter_flow 7, exporter_flow 9] h1 h2
    (by intro s hs; simp [collector_init] at hs)
  exact ⟨h1, h2, s, hs, hl.trans (by decide), hc.trans (by decide)⟩


/-! ## The order of disjoint intervals -/

theorem compare_excludes_valid (a b : exclude_node)
    (ha : a.addr_start ≤ a.addr_end) (hb : b.addr_start ≤ b.addr_end) :
    (compare_excludes a b = -1 ↔ a.addr_end < b.addr_start) ∧
    (compare_excludes a b = 1 ↔ a.addr_start > b.addr_end) ∧
    (compare_excludes a b = 0 ↔ ¬ a.addr_end < b.addr_start ∧ ¬ a.addr_start > b.addr_end) := by
  unfold compare_excludes
  by_cases h1 : a.addr_start > b.addr_end
  · rw [if_pos h1]
    exact ⟨⟨fun h => absurd h (by decide), fun h => by omega⟩, ⟨fun _ => h1, fun _ => rfl⟩,
      ⟨fun h => absurd h (by decide), fun h => absurd h1 h.2⟩⟩
  · rw [if_neg h1]
    by_cases h2 : a.addr_end < b.addr_start
    · rw [if_pos h2]
      exact ⟨⟨fun _ => h2, fun _ => rfl⟩, ⟨fun h => absurd h (by decide), fun h => absurd h h1⟩,
        ⟨fun h => absurd h (by decide), fun h => absurd h2 h.1⟩⟩
    · rw [if_neg h2]
      exact ⟨⟨fun h => absurd h (by decide), fun h => absurd h h2⟩,
        ⟨fun h => absurd h (by decide), fun h => absurd h h1⟩, ⟨fun _ => ⟨h2, h1⟩, fun _ => rfl⟩⟩

/-- C25: for intervals `a` and `b` with `addr_start ≤ addr_end`,
`compare_excludes a b` is -1 exactly when `a.addr_end < b.addr_start`, 1
exactly when `a.addr_start > b.addr_end`, and 0 otherwise, which is exactly
when some address lies in both closed intervals; and on every set of such
intervals that pairwise share no address, "`compare_excludes x y = -1`" is a
strict total order: irreflexive, asymmetric, transitive, and any two distinct
members are comparable. -/
theorem compare_excludes_orders_disjoint_intervals (a b : exclude_node)
    (ha : a.addr_start ≤ a.addr_end) (hb : b.addr_start ≤ b.addr_end) :
    (compare_excludes a b = -1 ↔ a.addr_end < b.addr_start) ∧
    (compare_excludes a b = 1 ↔ a.addr_start > b.addr_end) ∧
    (compare_excludes a b = 0 ↔ ¬ a.addr_end < b.addr_start ∧ ¬ a.addr_start > b.addr_end) ∧
    (compare_excludes a b = 0 ↔
      ∃ x, a.addr_start ≤ x ∧ x ≤ a.addr_end ∧ b.addr_start ≤ x ∧ x ≤ b.addr_end) ∧
    (∀ S : Set exclude_node, (∀ x ∈ S, x.addr_start ≤ x.addr_end) →
      (∀ x ∈ S, ∀ y ∈ S, x ≠ y →
        ¬ ∃ z, x.addr_start ≤ z ∧ z ≤ x.addr_end ∧ y.addr_start ≤ z ∧ z ≤ y.addr_end) →
      (∀ x ∈ S, compare_excludes x x ≠ -1) ∧
      (∀ x ∈ S, ∀ y ∈ S, compare_excludes x y = -1 → compare_excludes y x ≠ -1) ∧
      (∀ x ∈ S, ∀ y ∈ S, ∀ z ∈ S, compare_excludes x y = -1 → compare_excludes y z = -1 →
        compare_excludes x z = -1) ∧
      (∀ x ∈ S, ∀ y ∈ S, x ≠ y → compare_excludes x y = -1 ∨ compare_excludes y x = -1) ∧
      (∀ x ∈ S, ∀ y ∈ S, compare_excludes x y = 0 ↔ x = y)) := by
  obtain ⟨h1, h2, h3⟩ := compare_excludes_valid a b ha hb
  refine ⟨h1, h2, h3, ?_, ?_⟩
  · rw [h3]
    constructor
    · intro h
      by_cases hab : a.addr_start ≤ b.addr_start
      · exact ⟨b.addr_start, hab, by omega, le_refl _, hb⟩
      · exact ⟨a.addr_start, le_refl _, ha, by omega, by omega⟩
    · rintro ⟨x, hx1, hx2, hx3, hx4⟩
      exact ⟨by omega, by omega⟩
  · intro S hv hd
    refine ⟨?_, ?_, ?_, ?_, ?_⟩
    · intro x hx h
      have := (compare_excludes_valid x x (hv x hx) (hv x hx)).1.1 h
      have := hv x hx
      omega
    · intro x hx y hy h h'
      have e1 := (compare_excludes_valid x y (hv x hx) (hv y hy)).1.1 h
      have e2 := (compare_excludes_valid y x (hv y hy) (hv x hx)).1.1 h'
      have := hv x hx
      have := hv y hy
      omega
    · intro x hx y hy z hz h h'
      have e1 := (compare_excludes_valid x y (hv x hx) (hv y hy)).1.1 h
      have e2 := (compare_excludes_valid y z (hv y hy) (hv z hz)).1.1 h'
      have := hv y hy
      exact (compare_excludes_valid x z (hv x hx) (hv z hz)).1.2 (by omega)
    · intro x hx y hy hne
      rw [(compare_excludes_valid x y (hv x hx) (hv y hy)).1,
        (compare_excludes_valid y x (hv y hy) (hv x hx)).1]
      by_contra hcon
      have hvx := hv x hx
      have hvy := hv y hy
      apply hd x hx y hy hne
      by_cases hxy : x.addr_start ≤ y.addr_start
      · exact ⟨y.addr_start, hxy, by omega, le_refl _, hvy⟩
      · exact ⟨x.addr_start, le_refl _, hvx, by omega, by omega⟩
    · intro x hx y hy
      have hvx := hv x hx
      have hvy := hv y hy
      constructor
      · intro h
        by_contra hne
        have h0 := (compare_excludes_valid x y hvx hvy).2.2.1 h
        apply hd x hx y hy hne
        by_cases hxy : x.addr_start ≤ y.addr_start
        · exact ⟨y.addr_start, hxy, by omega, le_refl _, hvy⟩
        · exact ⟨x.addr_start, le_refl _, hvx, by omega, by omega⟩
      · rintro rfl
        exact (compare_excludes_valid x x hvx hvx).2.2.2 ⟨by omega, by omega⟩

/-- Witness for C25: the intervals [1, 5] and [7, 9]. -/
theorem compare_excludes_orders_disjoint_intervals_witness :
    (1 : Nat) ≤ 5 ∧ (7 : Nat) ≤ 9 ∧
    (compare_excludes ⟨1, 5, 0⟩ ⟨7, 9, 0⟩ = -1 ↔ (5 : Nat) < 7) ∧
    (compare_excludes ⟨1, 5, 0⟩ ⟨7, 9, 0⟩ = 1 ↔ (1 : Nat) > 9) ∧
    compare_excludes ⟨1, 5, 0⟩ ⟨7, 9, 0⟩ = -1 ∧
    compare_excludes ⟨7, 9, 0⟩ ⟨1, 5, 0⟩ = 1 ∧
    compare_excludes ⟨1, 5, 0⟩ ⟨5, 9, 0⟩ = 0 :=
  ⟨by decide, by decide,
    (compare_excludes_orders_disjoint_intervals ⟨1, 5, 0⟩ ⟨7, 9, 0⟩ (by decide) (by decide)).1,
    (compare_excludes_orders_disjoint_intervals ⟨1, 5, 0⟩ ⟨7, 9, 0⟩
      (by decide) (by decide)).2.1,
    by decide, by decide, by decide⟩


/-! ## Recursion depth of `add_exclusion` -/

/-- The two outcomes of the probe in `add_exclusion`, for every recursion
bound: the new interval is stored, or the call goes on with one bound less
after the search for the overlapping interval `y` in `pavl_delete`. -/
theorem add_exclusion_cases (t : pavl_table exclude_node) (s e : Nat) :
    (∃ l1 l2, t = l1 ++ l2 ∧ (∀ z ∈ l1, s > z.addr_end) ∧
      (∀ z, l2.head? = some z → s ≤ z.addr_end ∧ e < z.addr_start) ∧
      ∀ fuel, add_exclusion (fuel + 1) t s e = some (l1 ++ ⟨s, e, 0⟩ :: l2)) ∨
    (∃ l1 y l2, t = l1 ++ y :: l2 ∧ (∀ z ∈ l1, s > z.addr_end) ∧
      s ≤ y.addr_end ∧ y.addr_start ≤ e ∧
      ∀ fuel, add_exclusion (fuel + 1) t s e =
        add_exclusion fuel (pavl_delete compare_excludes t y).1
          (if y.addr_start < s then y.addr_start else s)
          (if y.addr_end > e then y.addr_end else e)) := by
  obtain ⟨l1, l2, ht, hl1, hslot, hcase⟩ :=
    pavl_probe_spec compare_excludes t ⟨s, e, 0⟩
  have hl1' : ∀ z ∈ l1, s > z.addr_end :=
    fun z hz => (compare_excludes_pos_iff _ _).1 (hl1 z hz)
  rcases hcase with ⟨hins, htab, hhead⟩ | ⟨hins, htab, y, l2', hl2, hy⟩
  · have hh : ∀ z, l2.head? = some z → s ≤ z.addr_end ∧ e < z.addr_start :=
      fun z hz => (compare_excludes_neg_iff _ _).1 (hhead z hz)
    refine Or.inl ⟨l1, l2, ht, hl1', hh, ?_⟩
    intro fuel
    rw [ht]
    exact add_exclusion_insert_at fuel l1 l2 s e hl1' hh
  · subst hl2
    have hy' := (compare_excludes_zero_iff _ _).1 hy
    refine Or.inr ⟨l1, y, l2', ht, hl1', hy'.1, hy'.2, ?_⟩
    intro fuel
    have hget : (pavl_probe compare_excludes t ⟨s, e, 0⟩).table[
        (pavl_probe compare_excludes t ⟨s, e, 0⟩).slot]? = some y := by
      rw [htab, hslot, ht]; exact list_get?_mid _ _ _
    simp only [add_exclusion, hget, hins]
    rw [htab]
    by_cases c1 : y.addr_start < s <;> by_cases c2 : y.addr_end > e <;>
      simp [c1, c2]

/-- On a tree of disjoint intervals a call with `s ≤ e` makes `n` recursive
calls, `n` at most the number of stored intervals: it completes at recursion
bound `n + 1` and not at `n`; each recursive call follows the removal of one
interval, and the last call stores an interval that covers `[s, e]`. -/
theorem add_exclusion_depth :
    ∀ (m : Nat) (t : pavl_table exclude_node) (s e : Nat),
      t.length ≤ m → exclude_tree_ordered t → s ≤ e →
      ∃ n t', n ≤ t.length ∧ add_exclusion (n + 1) t s e = some t' ∧
        add_exclusion n t s e = none ∧
        (∀ fuel, n < fuel → add_exclusion fuel t s e = some t') ∧
        t'.length + n = t.length + 1 ∧
        ∃ y ∈ t', y.addr_start ≤ s ∧ e ≤ y.addr_end ∧ y.exclude_count = 0 := by
  intro m
  induction m with
  | zero =>
    intro t s e hlen _ _
    have ht : t = [] := List.eq_nil_of_length_eq_zero (by omega)
    subst ht
    refine ⟨0, [⟨s, e, 0⟩], le_refl _, rfl, rfl, ?_, rfl,
      ⟨s, e, 0⟩, List.mem_singleton_self _, le_refl _, le_refl _, rfl⟩
    intro fuel hf
    obtain ⟨f, rfl⟩ := Nat.exists_eq_succ_of_ne_zero (by omega : fuel ≠ 0)
    exact add_exclusion_insert_at f [] [] s e (fun z hz => absurd hz (List.not_mem_nil _))
      (fun z hz => by simp at hz)
  | succ m ih =>
    intro t s e hlen hord hse
    rcases add_exclusion_cases t s e with
      ⟨l1, l2, ht, hl1, hhead, hr⟩ | ⟨l1, y, l2, ht, hl1, hy1, hy2, hr⟩
    · subst ht
      refine ⟨0, _, Nat.zero_le _, hr 0, rfl, ?_,
        by simp only [List.length_append, List.length_cons]; omega,
        ⟨s, e, 0⟩, by simp, le_refl _, le_refl _, rfl⟩
      intro fuel hf
      obtain ⟨f, rfl⟩ := Nat.exists_eq_succ_of_ne_zero (by omega : fuel ≠ 0)
      exact hr f
    · subst ht
      have hyv : y.addr_start ≤ y.addr_end := hord.2 y (by simp)
      have hbefore : ∀ z ∈ l1, z.addr_end < y.addr_start := by
        have := hord.1
        rw [List.pairwise_append] at this
        exact fun z hz => this.2.2 z hz y (List.mem_cons_self _ _)
      have hdel : pavl_delete compare_excludes (l1 ++ y :: l2) y = (l1 ++ l2, some y) :=
        pavl_delete_at compare_excludes l1 y l2 y
          (fun z hz => (compare_excludes_pos_iff _ _).2 (hbefore z hz))
          ((compare_excludes_zero_iff _ _).2 ⟨hyv, hyv⟩)
      rw [hdel] at hr
      have hord' : exclude_tree_ordered (l1 ++ l2) :=
        exclude_tree_ordered_sublist hord (by simp)
      have hlen' : (l1 ++ l2).length ≤ m := by
        simp only [List.length_append, List.length_cons] at hlen ⊢
        omega
      obtain ⟨n, t', hn, h1, h0, hall, hl, z, hz, hz1, hz2, hz3⟩ := ih (l1 ++ l2)
        (if y.addr_start < s then y.addr_start else s)
        (if y.addr_end > e then y.addr_end else e) hlen' hord'
        (by split <;> split <;> omega)
      refine ⟨n + 1, t', ?_, by rw [hr]; exact h1, by rw [hr]; exact h0, ?_, ?_,
        z, hz, ?_, ?_, hz3⟩
      · simp only [List.length_append, List.length_cons] at hn ⊢
        omega
      · intro fuel hf
        obtain ⟨f, rfl⟩ := Nat.exists_eq_succ_of_ne_zero (by omega : fuel ≠ 0)
        rw [hr]
        exact hall f (by omega)
      · simp only [List.length_append, List.length_cons] at hl ⊢
        omega
      · revert hz1; split <;> intro hz1 <;> omega
      · revert hz2; split <;> intro hz2 <;> omega

/-- C26: for every exclusion tree built from the empty tree by `add_exclusion`
calls with `addr_start ≤ addr_end`, and every `s ≤ e`, `add_exclusion(s, e)`
terminates after `n` recursive calls with `n` at most the number of stored
intervals (it completes within recursion depth `n + 1` and not within `n`);
each recursive call follows the removal of one stored interval, so the tree
ends with `n` intervals fewer and one more, and the interval stored by the
last call covers `[s, e]`. -/
theorem add_exclusion_terminates_within_stored_count (calls : List (Nat × Nat))
    (fuel s e : Nat)
    (hvalid : ∀ c ∈ calls, c.1 ≤ c.2) (hse : s ≤ e) (hfuel : calls.length < fuel) :
    ∃ t, add_exclusions fuel [] calls = some t ∧
      ∃ n t', n ≤ t.length ∧ add_exclusion (n + 1) t s e = some t' ∧
        add_exclusion n t s e = none ∧
        (∀ depth, n < depth → add_exclusion depth t s e = some t') ∧
        t'.length + n = t.length + 1 ∧
        ∃ y ∈ t', y.addr_start ≤ s ∧ e ≤ y.addr_end ∧ y.exclude_count = 0 := by
  obtain ⟨t, ht, hord, _, _⟩ := add_exclusions_ordered calls [] fuel
    exclude_tree_ordered_nil hvalid (by simp only [List.length_nil]; omega)
  exact ⟨t, ht, add_exclusion_depth t.length t s e (le_refl _) hord hse⟩

/-- Witness for C26: on the intervals [1, 2], [5, 6], [9, 10] the call
`add_exclusion(2, 9)` absorbs all three in three recursive calls and stores
[1, 10]. -/
theorem add_exclusion_terminates_within_stored_count_witness :
    (∀ c ∈ [((1 : Nat), (2 : Nat)), (5, 6), (9, 10)], c.1 ≤ c.2) ∧ (2 : Nat) ≤ 9 ∧
    [((1 : Nat), (2 : Nat)), (5, 6), (9, 10)].length < 4 ∧
    (∃ t, add_exclusions 4 [] [(1, 2), (5, 6), (9, 10)] = some t ∧
      ∃ n t', n ≤ t.length ∧ add_exclusion (n + 1) t 2 9 = some t' ∧
        add_exclusion n t 2 9 = none ∧ t'.length + n = t.length + 1) ∧
    add_exclusions 4 [] [(1, 2), (5, 6), (9, 10)] =
      some [⟨1, 2, 0⟩, ⟨5, 6, 0⟩, ⟨9, 10, 0⟩] ∧
    add_exclusion 4 [⟨1, 2, 0⟩, ⟨5, 6, 0⟩, ⟨9, 10, 0⟩] 2 9 = some [⟨1, 10, 0⟩] ∧
    add_exclusion 3 [⟨1, 2, 0⟩, ⟨5, 6, 0⟩, ⟨9, 10, 0⟩] 2 9 = none := by
  obtain ⟨t, ht, n, t', h1, h2, h3, _, h5, _⟩ :=
    add_exclusion_terminates_within_stored_count [(1, 2), (5, 6), (9, 10)] 4 2 9
      (by decide) (by decide) (by decide)
  exact ⟨by decide, by decide, by decide, ⟨t, ht, n, t', h1, h2, h3, h5⟩,
    by decide, by decide, by decide⟩


/-! ## Termination of `add_exclusion` -/

/-- Counterexample to C27 as stated: `add_exclusion(10, 0)` on the empty tree
stores the node [10, 0]; a following `add_exclusion(0, 10)` finds that node
overlapping, `pavl_delete` does not find it (the node compares greater than
itself) and removes nothing, and the recursive call `add_exclusion(0, 10)`
meets the same tree again: no recursion depth is enough. -/
theorem add_exclusion_recurses_forever :
    add_exclusions 1 [] [(10, 0)] = some [⟨10, 0, 0⟩] ∧
    compare_excludes ⟨10, 0, 0⟩ ⟨10, 0, 0⟩ = 1 ∧
    pavl_delete compare_excludes [⟨10, 0, 0⟩] ⟨10, 0, 0⟩ = ([⟨10, 0, 0⟩], none) ∧
    ∀ fuel, add_exclusion fuel [⟨10, 0, 0⟩] 0 10 = none := by
  refine ⟨by decide, by decide, by decide, ?_⟩
  intro fuel
  induction fuel with
  | zero => rfl
  | succ fuel ih =>
    have h : add_exclusion (fuel + 1) [⟨10, 0, 0⟩] 0 10 =
        add_exclusion fuel [⟨10, 0, 0⟩] 0 10 := by
      simp [add_exclusion, pavl_probe, pavl_delete, compare_excludes]
    rw [h, ih]

/-- On a tree of disjoint intervals `add_exclusion` completes for every pair
of arguments, after at most as many recursive calls as intervals are
stored. -/
theorem add_exclusion_any_pair (t : pavl_table exclude_node) (s e : Nat)
    (hord : exclude_tree_ordered t) :
    ∃ n t', n ≤ t.length ∧ ∀ depth, n < depth → add_exclusion depth t s e = some t' := by
  by_cases hse : s ≤ e
  · obtain ⟨n, t', hn, _, _, hall, _⟩ := add_exclusion_depth t.length t s e (le_refl _) hord hse
    exact ⟨n, t', hn, hall⟩
  · rcases add_exclusion_cases t s e with
      ⟨l1, l2, ht, hl1, hhead, hr⟩ | ⟨l1, y, l2, ht, hl1, hy1, hy2, hr⟩
    · refine ⟨0, l1 ++ ⟨s, e, 0⟩ :: l2, Nat.zero_le _, ?_⟩
      intro depth hd
      obtain ⟨f, rfl⟩ := Nat.exists_eq_succ_of_ne_zero (by omega : depth ≠ 0)
      exact hr f
    · subst ht
      have hyv : y.addr_start ≤ y.addr_end := hord.2 y (by simp)
      have hbefore : ∀ z ∈ l1, z.addr_end < y.addr_start := by
        have := hord.1
        rw [List.pairwise_append] at this
        exact fun z hz => this.2.2 z hz y (List.mem_cons_self _ _)
      have hdel : pavl_delete compare_excludes (l1 ++ y :: l2) y = (l1 ++ l2, some y) :=
        pavl_delete_at compare_excludes l1 y l2 y
          (fun z hz => (compare_excludes_pos_iff _ _).2 (hbefore z hz))
          ((compare_excludes_zero_iff _ _).2 ⟨hyv, hyv⟩)
      rw [hdel] at hr
      obtain ⟨n, t', hn, _, _, hall, _⟩ := add_exclusion_depth (l1 ++ l2).length (l1 ++ l2)
        (if y.addr_start < s then y.addr_start else s)
        (if y.addr_end > e then y.addr_end else e) (le_refl _)
        (exclude_tree_ordered_sublist hord (by simp))
        (by split <;> split <;> omega)
      refine ⟨n + 1, t', ?_, ?_⟩
      · simp only [List.length_append, List.length_cons] at hn ⊢
        omega
      · intro depth hd
        obtain ⟨f, rfl⟩ := Nat.exists_eq_succ_of_ne_zero (by omega : depth ≠ 0)
        rw [hr]
        exact hall f (by omega)

/-- C27 (amended): on every exclusion tree built from the empty tree by
`add_exclusion` calls with `addr_start ≤ addr_end`, `add_exclusion`
terminates for every pair of arguments, also with `addr_start > addr_end`:
it completes after `n` recursive calls, `n` at most the number of stored
intervals. -/
theorem add_exclusion_terminates_on_valid_trees (calls : List (Nat × Nat))
    (fuel s e : Nat)
    (hvalid : ∀ c ∈ calls, c.1 ≤ c.2) (hfuel : calls.length < fuel) :
    ∃ t, add_exclusions fuel [] calls = some t ∧
      ∃ n t', n ≤ t.length ∧ ∀ depth, n < depth → add_exclusion depth t s e = some t' := by
  obtain ⟨t, ht, hord, _, _⟩ := add_exclusions_ordered calls [] fuel
    exclude_tree_ordered_nil hvalid (by simp only [List.length_nil]; omega)
  exact ⟨t, ht, add_exclusion_any_pair t s e hord⟩

/-- Witness for C27 (amended): on the exclusion tree of `main` the call
`add_exclusion(45.0.0.0, 44.0.0.5)` terminates. -/
theorem add_exclusion_terminates_on_valid_trees_witness :
    (∀ c ∈ main_exclusions, c.1 ≤ c.2) ∧ main_exclusions.length < 4 ∧
    ∃ t, add_exclusions 4 [] main_exclusions = some t ∧
      ∃ n t', n ≤ t.length ∧
        ∀ depth, n < depth → add_exclusion depth t 0x2D000000 0x2C000005 = some t' :=
  ⟨by decide, by decide,
    add_exclusion_terminates_on_valid_trees main_exclusions 4 0x2D000000 0x2C000005
      (by decide) (by decide)⟩


/-! ## The invariant of the exclusion tree -/

/-- C28: starting from the empty exclusion tree, every sequence of
`add_exclusion` calls that all have `addr_start ≤ addr_end` terminates and
leaves a tree in which every stored interval has `addr_start ≤ addr_end`, no
two distinct stored intervals share an address, distinct stored intervals
never compare equal under `compare_excludes`, and the in-order listing is
strictly ascending: `compare_excludes a b = -1` for every `a` stored before
`b`. No assumption is made on how the new intervals overlap the stored
ones. -/
theorem exclusion_tree_is_disjoint_and_ordered (calls : List (Nat × Nat)) (fuel : Nat)
    (hvalid : ∀ c ∈ calls, c.1 ≤ c.2) (hfuel : calls.length < fuel) :
    ∃ t, add_exclusions fuel [] calls = some t ∧
      (∀ y ∈ t, y.addr_start ≤ y.addr_end) ∧
      (∀ a ∈ t, ∀ b ∈ t, a ≠ b →
        ¬ ∃ x, a.addr_start ≤ x ∧ x ≤ a.addr_end ∧ b.addr_start ≤ x ∧ x ≤ b.addr_end) ∧
      (∀ a ∈ t, ∀ b ∈ t, a ≠ b → compare_excludes a b ≠ 0) ∧
      t.Pairwise (fun a b => compare_excludes a b = -1) := by
  obtain ⟨t, ht, hord, _, _⟩ := add_exclusions_ordered calls [] fuel
    exclude_tree_ordered_nil hvalid (by simp only [List.length_nil]; omega)
  have hdis := exclude_tree_ordered_disjoint hord
  refine ⟨t, ht, hord.2, ?_, ?_, ?_⟩
  · rintro a ha b hb hne ⟨x, h1, h2, h3, h4⟩
    rcases hdis a ha b hb hne with h | h <;> omega
  · intro a ha b hb hne h0
    have h := (compare_excludes_zero_iff a b).1 h0
    rcases hdis a ha b hb hne with h' | h' <;> omega
  · have hp : t.Pairwise (fun a b =>
        (a.addr_start ≤ a.addr_end ∧ b.addr_start ≤ b.addr_end) ∧ a.addr_end < b.addr_start) :=
      List.Pairwise.and (List.pairwise_of_forall_mem_list
        (fun a ha b hb => ⟨hord.2 a ha, hord.2 b hb⟩)) hord.1
    exact hp.imp (fun h => (compare_excludes_valid _ _ h.1.1 h.1.2).1.2 h.2)

/-- Witness for C28: the call (2, 9) overlaps the three stored intervals
[1, 2], [5, 6], [9, 10] at once; one interval [1, 10] is left, next to
[20, 30]. -/
theorem exclusion_tree_is_disjoint_and_ordered_witness :
    (∀ c ∈ [((20 : Nat), (30 : Nat)), (1, 2), (5, 6), (9, 10), (2, 9)], c.1 ≤ c.2) ∧
    [((20 : Nat), (30 : Nat)), (1, 2), (5, 6), (9, 10), (2, 9)].length < 6 ∧
    (∃ t, add_exclusions 6 [] [(20, 30), (1, 2), (5, 6), (9, 10), (2, 9)] = some t ∧
      (∀ y ∈ t, y.addr_start ≤ y.addr_end) ∧
      t.Pairwise (fun a b => compare_excludes a b = -1)) ∧
    add_exclusions 6 [] [(20, 30), (1, 2), (5, 6), (9, 10), (2, 9)] =
      some [⟨1, 10, 0⟩, ⟨20, 30, 0⟩] := by
  obtain ⟨t, ht, h1, _, _, h4⟩ :=
    exclusion_tree_is_disjoint_and_ordered [(20, 30), (1, 2), (5, 6), (9, 10), (2, 9)] 6
      (by decide) (by decide)
  exact ⟨by decide, by decide, ⟨t, ht, h1, h4⟩, by decide⟩


/-! ## The counter `stat_current_flows` -/

theorem sum_map_update (ks : List Nat) (k0 : Nat) (f g : Nat → Nat)
    (hfg : ∀ k, k ≠ k0 → g k = f k) :
    ks.Nodup → k0 ∈ ks → (ks.map g).sum + f k0 = (ks.map f).sum + g k0 := by
  induction ks with
  | nil => intro _ h; exact absurd h (List.not_mem_nil _)
  | cons a as ih =>
    intro hnd hk
    rw [List.nodup_cons] at hnd
    simp only [List.map_cons, List.sum_cons]
    by_cases ha : k0 = a
    · subst ha
      have hc : as.map g = as.map f :=
        List.map_congr_left (fun k hk' => hfg k (fun h => hnd.1 (h ▸ hk')))
      rw [hc]
      omega
    · have hk' : k0 ∈ as := by
        rcases List.mem_cons.1 hk with h | h
        · exact absurd h ha
        · exact h
      have := ih hnd.2 hk'
      have := hfg a (fun h => ha h.symm)
      omega

theorem stored_flows_update (st st' : collector) (k0 : Nat) (hk : k0 < TREES)
    (h : ∀ k, k ≠ k0 → st'.flow_hash_trees k = st.flow_hash_trees k) :
    stored_flows st' + (st.flow_hash_trees k0).length =
      stored_flows st + (st'.flow_hash_trees k0).length := by
  unfold stored_flows
  have hm := List.mem_range.2 hk
  have hnd := List.nodup_range TREES
  generalize List.range TREES = ks at hm hnd
  exact sum_map_update ks k0 (fun k => (st.flow_hash_trees k).length)
    (fun k => (st'.flow_hash_trees k).length) (fun k hk' => by simp only [h k hk']) hnd hm

theorem stored_flows_congr (st st' : collector)
    (h : st'.flow_hash_trees = st.flow_hash_trees) : stored_flows st' = stored_flows st := by
  unfold stored_flows
  rw [h]

theorem record_tree_lt (r : unified_flow) (hsp : r.src_port < 2 ^ 16)
    (hpr : r.protocol < 2 ^ 8) : record_tree r < TREES := by
  show TREEHASH (cur_flow_summary r) < 2 ^ 16
  unfold TREEHASH
  refine Nat.xor_lt_two_pow (Nat.xor_lt_two_pow (Nat.xor_lt_two_pow (Nat.xor_lt_two_pow
    (Nat.xor_lt_two_pow (Nat.xor_lt_two_pow ?_ ?_) ?_) ?_) ?_) ?_) ?_
  · exact Nat.and_lt_two_pow _ (by decide)
  · exact ROL16_lt _ _
  · exact Nat.and_lt_two_pow _ (by decide)
  · exact ROL16_lt _ _
  · exact hsp
  · exact ROL16_lt _ _
  · exact Nat.lt_of_lt_of_le hpr (by decide)

/-- One `flow_callback` call either creates a summary, and then both the
number of stored summaries and `stat_current_flows` grow by 1, or changes
neither. -/
theorem flow_callback_stored_flows {st : collector} (hwf : collector_wf st) (r : unified_flow)
    (hsp : r.src_port < 2 ^ 16) (hpr : r.protocol < 2 ^ 8) :
    (stored_flows (flow_callback st r) = stored_flows st + 1 ∧
      (flow_callback st r).stat_current_flows = (st.stat_current_flows + 1) % 2 ^ 64) ∨
    (stored_flows (flow_callback st r) = stored_flows st ∧
      (flow_callback st r).stat_current_flows = st.stat_current_flows) := by
  have hk := record_tree_lt r hsp hpr
  by_cases hx : not_excluded st.exclude_tree r
  · rcases flow_callback_cases hwf r hx with
      ⟨l1, l2, ht, _, hr⟩ | ⟨l1, old, l2, ht, _, _, hr⟩
    · left
      rw [hr]
      have h := stored_flows_update st (collector_created st r l1 l2) (record_tree r) hk
        (fun k hk' => by simp only [collector_created, if_neg hk'])
      simp only [collector_created, if_true, ht, List.length_append, List.length_cons] at h
      refine ⟨?_, rfl⟩
      simp only [collector_created]
      omega
    · right
      rw [hr]
      have h := stored_flows_update st (collector_merged st r l1 old l2) (record_tree r) hk
        (fun k hk' => by simp only [collector_merged, if_neg hk'])
      simp only [collector_merged, if_true, ht, List.length_append, List.length_cons] at h
      refine ⟨?_, rfl⟩
      simp only [collector_merged]
      omega
  · right
    obtain ⟨ex, _, hr⟩ := flow_callback_excluded st r hx
    rw [hr]
    exact ⟨stored_flows_congr _ _ rfl, rfl⟩

/-- The sweep of one of the `TREES` trees keeps the sum of the number of
stored summaries and the counter `deleted`, and counts in `deleted` what it
prints. -/
theorem janitor_swept_count (cur_time : Int) (tree_num : Nat) (r : janitor_result)
    (hk : tree_num < TREES) :
    stored_flows (janitor_swept cur_time tree_num r).st +
        (janitor_swept cur_time tree_num r).deleted = stored_flows r.st + r.deleted ∧
    (janitor_swept cur_time tree_num r).deleted + r.emitted.length =
      r.deleted + (janitor_swept cur_time tree_num r).emitted.length := by
  have h := stored_flows_update r.st (janitor_swept cur_time tree_num r).st tree_num hk
    (fun k hk' => by simp only [janitor_swept, if_neg hk'])
  have hp : (janitor_kept cur_time (r.st.flow_hash_trees tree_num)).length +
      (janitor_evicted cur_time (r.st.flow_hash_trees tree_num)).length =
      (r.st.flow_hash_trees tree_num).length := by
    unfold janitor_kept janitor_evicted
    generalize r.st.flow_hash_trees tree_num = l
    induction l with
    | nil => rfl
    | cons a as ih =>
      by_cases ha : flow_expired cur_time a
      · simp only [List.filter_cons, ha, decide_True, Bool.not_true, List.length_cons,
          if_true] at ih ⊢
        simp only [Bool.false_eq_true, if_false]
        omega
      · simp only [List.filter_cons, ha, decide_False, Bool.not_false, List.length_cons,
          if_true] at ih ⊢
        simp only [Bool.false_eq_true, if_false]
        omega
  simp only [janitor_swept, if_true, List.length_append] at h ⊢
  constructor <;> omega

theorem janitor_for_count (cur_time : Int) (trees : List Nat) :
    ∀ r r1 : janitor_result, collector_wf r.st → (∀ k ∈ trees, k < TREES) →
      janitor_for cur_time trees r = some r1 →
      stored_flows r1.st + r1.deleted = stored_flows r.st + r.deleted ∧
      r1.deleted + r.emitted.length = r.deleted + r1.emitted.length ∧
      r1.st.stat_current_flows = r.st.stat_current_flows := by
  induction trees with
  | nil =>
    intro r r1 _ _ h
    simp only [janitor_for, Option.some.injEq] at h
    subst h
    exact ⟨rfl, rfl, rfl⟩
  | cons k ks ih =>
    intro r r1 hwf hks h
    have hrun := janitor_tree_run cur_time k r (hwf.ordered k)
    obtain ⟨r2, hr2, hwf2⟩ := janitor_tree_wf cur_time k r hwf
    rw [hrun, Option.some.injEq] at hr2
    simp only [janitor_for, hrun] at h
    rw [hr2] at h
    obtain ⟨h1, h2, h3⟩ := ih r2 r1 hwf2 (fun j hj => hks j (List.mem_cons_of_mem _ hj)) h
    obtain ⟨c1, c2⟩ := janitor_swept_count cur_time k r (hks k (List.mem_cons_self _ _))
    rw [hr2] at c1 c2
    have c3 : r2.st.stat_current_flows = r.st.stat_current_flows := by rw [← hr2]; rfl
    refine ⟨by omega, by omega, by rw [h3, c3]⟩

theorem janitor_for_all_count (cur_time : Int) (trees : List Nat) (st : collector)
    (hwf : collector_wf st) (hmem : ∀ k ∈ trees, k < TREES) :
    ∃ r1, janitor_for cur_time trees ⟨st, [], 0⟩ = some r1 ∧ collector_wf r1.st ∧
      stored_flows r1.st + r1.emitted.length = stored_flows st ∧
      r1.deleted = r1.emitted.length ∧
      r1.st.stat_current_flows = st.stat_current_flows := by
  obtain ⟨r1, hf, hwf1⟩ := janitor_for_wf cur_time trees ⟨st, [], 0⟩ hwf
  obtain ⟨h1, h2, h3⟩ := janitor_for_count cur_time trees ⟨st, [], 0⟩ r1 hwf hmem hf
  have h1' : stored_flows r1.st + r1.deleted = stored_flows st + 0 := h1
  rw [Nat.add_zero] at h1'
  have h2' : r1.deleted + 0 = 0 + r1.emitted.length := h2
  have h2'' : r1.deleted = r1.emitted.length := by
    rw [Nat.add_zero, Nat.zero_add] at h2'
    exact h2'
  refine ⟨r1, hf, hwf1, ?_, h2'', h3⟩
  rw [← h2'']
  exact h1'

theorem sub_mod_two_pow_64 (total deleted : Nat) (h : deleted ≤ total) :
    (total % 2 ^ 64 + 2 ^ 64 - deleted % 2 ^ 64) % 2 ^ 64 = (total - deleted) % 2 ^ 64 := by
  omega

/-- A complete janitor pass lowers the number of stored summaries by the
number of summaries it prints and `stat_current_flows` by the same number
modulo 2^64. -/
theorem janitor_pass_count (cur_time : Int) (st : collector) (hwf : collector_wf st) :
    ∃ res, janitor_pass cur_time st = some res ∧ collector_wf res.st ∧
      stored_flows res.st + res.emitted.length = stored_flows st ∧
      res.st.stat_current_flows =
        (st.stat_current_flows + 2 ^ 64 - res.emitted.length % 2 ^ 64) % 2 ^ 64 := by
  unfold janitor_pass
  have hmem : ∀ k ∈ List.range TREES, k < TREES := fun k hk => List.mem_range.1 hk
  generalize List.range TREES = trees at hmem
  obtain ⟨r1, hf, hwf1, h1, h2, h3⟩ := janitor_for_all_count cur_time trees st hwf hmem
  rw [hf]
  refine ⟨_, rfl, collector_wf_sublist hwf1 rfl (fun k => List.Sublist.refl _), ?_, ?_⟩
  · have e : stored_flows { r1.st with stat_current_flows :=
        (r1.st.stat_current_flows + U64 - r1.deleted % U64) % U64 } = stored_flows r1.st :=
      stored_flows_congr _ _ rfl
    show stored_flows { r1.st with stat_current_flows :=
        (r1.st.stat_current_flows + U64 - r1.deleted % U64) % U64 } + r1.emitted.length =
      stored_flows st
    rw [e, h1]
  · show (r1.st.stat_current_flows + U64 - r1.deleted % U64) % U64 =
      (st.stat_current_flows + 2 ^ 64 - r1.emitted.length % 2 ^ 64) % 2 ^ 64
    rw [h2, h3]
    rfl

theorem stored_flows_init (ex : pavl_table exclude_node) :
    stored_flows (collector_init ex) = 0 := by
  unfold stored_flows
  generalize List.range TREES = ks
  induction ks with
  | nil => rfl
  | cons k ks ih =>
    rw [List.map_cons, List.sum_cons, ih]
    rfl

theorem add_one_mod_two_pow_64 (total : Nat) :
    (total % 2 ^ 64 + 1) % 2 ^ 64 = (total + 1) % 2 ^ 64 := by
  omega

/-- Every run of `flow_callback` calls on typed records and complete janitor
passes keeps `stat_current_flows` equal to the number of stored summaries
modulo 2^64. -/
theorem run_ops_count (ops : List collector_op) :
    ∀ st : collector, collector_wf st →
      st.stat_current_flows = stored_flows st % 2 ^ 64 →
      (∀ t k, collector_op.sweep t k ∉ ops) →
      (∀ r, collector_op.ingest r ∈ ops → r.src_port < 2 ^ 16 ∧ r.protocol < 2 ^ 8) →
      ∃ st', run_ops st ops = some st' ∧ collector_wf st' ∧
        st'.stat_current_flows = stored_flows st' % 2 ^ 64 := by
  induction ops with
  | nil => exact fun st hwf h _ _ => ⟨st, rfl, hwf, h⟩
  | cons o os ih =>
    intro st hwf hinv hsweep htype
    have hsweep' : ∀ t k, collector_op.sweep t k ∉ os :=
      fun t k h => hsweep t k (List.mem_cons_of_mem _ h)
    have htype' : ∀ r, collector_op.ingest r ∈ os → r.src_port < 2 ^ 16 ∧ r.protocol < 2 ^ 8 :=
      fun r h => htype r (List.mem_cons_of_mem _ h)
    cases o with
    | ingest r =>
      obtain ⟨hsp, hpr⟩ := htype r (List.mem_cons_self _ _)
      have hwf1 := collector_wf_flow_callback hwf r
      have hinv1 : (flow_callback st r).stat_current_flows =
          stored_flows (flow_callback st r) % 2 ^ 64 := by
        rcases flow_callback_stored_flows hwf r hsp hpr with ⟨h1, h2⟩ | ⟨h1, h2⟩
        · rw [h1, h2, hinv]
          exact add_one_mod_two_pow_64 _
        · rw [h1, h2, hinv]
      obtain ⟨st', h', hw', hi'⟩ := ih _ hwf1 hinv1 hsweep' htype'
      exact ⟨st', by simp only [run_ops, run_op, h'], hw', hi'⟩
    | sweep t k => exact absurd (List.mem_cons_self _ _) (hsweep t k)
    | pass t =>
      obtain ⟨res, hres, hwf1, h1, h2⟩ := janitor_pass_count t st hwf
      have hinv1 : res.st.stat_current_flows = stored_flows res.st % 2 ^ 64 := by
        rw [h2, hinv, ← h1, sub_mod_two_pow_64 _ _ (Nat.le_add_left _ _), Nat.add_sub_cancel]
      obtain ⟨st', h', hw', hi'⟩ := ih _ hwf1 hinv1 hsweep' htype'
      exact ⟨st', by simp only [run_ops, run_op, hres, Option.map_some', h'], hw', hi'⟩

/-- C29: in every run of `flow_callback` calls (on records whose `src_port`
and `protocol` are in the range of their 16-bit and 8-bit fields) and
complete janitor passes that starts from empty trees and zero counters,
after every prefix of the run `stat_current_flows` equals the number of
summaries stored in the 65,536 trees together (modulo 2^64, the width of the
counter, so the number itself below 2^64). The next `flow_callback` call
either creates a summary, and then the stored number and the counter both
grow by 1, or changes neither; the next pass lowers the stored number by the
number of summaries it prints and the counter by the same number. -/
theorem stat_current_flows_is_stored_count (ex : pavl_table exclude_node)
    (ops : List collector_op)
    (hsweep : ∀ t k, collector_op.sweep t k ∉ ops)
    (htype : ∀ r, collector_op.ingest r ∈ ops → r.src_port < 2 ^ 16 ∧ r.protocol < 2 ^ 8) :
    ∀ n, ∃ st, run_ops (collector_init ex) (ops.take n) = some st ∧
      st.stat_current_flows = stored_flows st % 2 ^ 64 ∧
      (stored_flows st < 2 ^ 64 → st.stat_current_flows = stored_flows st) ∧
      (∀ r, ops[n]? = some (collector_op.ingest r) →
        (stored_flows (flow_callback st r) = stored_flows st + 1 ∧
          (flow_callback st r).stat_current_flows = (st.stat_current_flows + 1) % 2 ^ 64) ∨
        (stored_flows (flow_callback st r) = stored_flows st ∧
          (flow_callback st r).stat_current_flows = st.stat_current_flows)) ∧
      (∀ t, ops[n]? = some (collector_op.pass t) →
        ∃ res, janitor_pass t st = some res ∧
          stored_flows res.st + res.emitted.length = stored_flows st ∧
          res.st.stat_current_flows =
            (st.stat_current_flows + 2 ^ 64 - res.emitted.length % 2 ^ 64) % 2 ^ 64) := by
  intro n
  have h0 : (collector_init ex).stat_current_flows =
      stored_flows (collector_init ex) % 2 ^ 64 := by
    rw [stored_flows_init]
    rfl
  obtain ⟨st, hrun, hwf, hinv⟩ := run_ops_count (ops.take n) (collector_init ex)
    (collector_wf_init ex) h0
    (fun t k h => hsweep t k (List.mem_of_mem_take h))
    (fun r h => htype r (List.mem_of_mem_take h))
  refine ⟨st, hrun, hinv, ?_, ?_, ?_⟩
  · intro hlt
    rw [hinv]
    exact Nat.mod_eq_of_lt hlt
  · intro r hr
    obtain ⟨hsp, hpr⟩ := htype r (List.getElem?_mem hr)
    exact flow_callback_stored_flows hwf r hsp hpr
  · intro t _
    obtain ⟨res, hres, _, h1, h2⟩ := janitor_pass_count t st hwf
    exact ⟨res, hres, h1, h2⟩

/-- Witness for C29: two records of one flow followed by a janitor pass at
second 2000. -/
theorem stat_current_flows_is_stored_count_witness :
    (∀ t k, collector_op.sweep t k ∉
      [collector_op.ingest sample_flow, .ingest sample_flow, .pass 2000]) ∧
    (∀ r, collector_op.ingest r ∈
        [collector_op.ingest sample_flow, .ingest sample_flow, .pass 2000] →
      r.src_port < 2 ^ 16 ∧ r.protocol < 2 ^ 8) ∧
    (∃ st, run_ops (collector_init [])
        ([collector_op.ingest sample_flow, .ingest sample_flow, .pass 2000].take 3) = some st ∧
      st.stat_current_flows = stored_flows st % 2 ^ 64) ∧
    (flow_callback (collector_init []) sample_flow).stat_current_flows = 1 ∧
    (flow_callback (flow_callback (collector_init []) sample_flow)
      sample_flow).stat_current_flows = 1 := by
  have h1 : ∀ t k, collector_op.sweep t k ∉
      [collector_op.ingest sample_flow, .ingest sample_flow, .pass 2000] := by
    intro t k h
    simp at h
  have h2 : ∀ r, collector_op.ingest r ∈
      [collector_op.ingest sample_flow, .ingest sample_flow, .pass 2000] →
      r.src_port < 2 ^ 16 ∧ r.protocol < 2 ^ 8 := by
    intro r hr
    simp only [List.mem_cons, collector_op.ingest.injEq, List.mem_singleton, reduceCtorEq,
      or_false, or_self, List.not_mem_nil] at hr
    subst hr
    decide
  obtain ⟨st, hst, hinv, _⟩ := stat_current_flows_is_stored_count []
    [collector_op.ingest sample_flow, .ingest sample_flow, .pass 2000] h1 h2 3
  exact ⟨h1, h2, ⟨st, hst, hinv⟩, by decide, by decide⟩


/-! ## The output buffer of `print_flow_json` -/

theorem print_sources_outindex :
    ∀ (l : List flow_source_summary) (w : json_writer),
      w.outindex + 111 * l.length ≤ (print_sources w l).outindex := by
  intro l
  induction l with
  | nil => intro w; exact Nat.le_refl _
  | cons a as ih =>
    intro w
    have e1 : ("\t\t\x7b\n" : String).length = 4 := rfl
    have e2 : ("\t\t\"flow_source\": \"" : String).length = 18 := rfl
    have e3 : ("\",\n" : String).length = 3 := rfl
    have e4 : ("\t\t\"src_int\": " : String).length = 13 := rfl
    have e5 : (",\n" : String).length = 2 := rfl
    have e6 : ("\t\t\"dst_int\": " : String).length = 13 := rfl
    have e7 : ("\t\t\"num_packets\": " : String).length = 17 := rfl
    have e8 : ("\t\t\"num_bytes\": " : String).length = 15 := rfl
    have e9 : ("\t\t\"num_flows\": " : String).length = 15 := rfl
    have e10 : ("\n" : String).length = 1 := rfl
    have e11 : ("\t\t\x7d\n" : String).length = 4 := rfl
    have e12 : ("\t\t\x7d,\n" : String).length = 5 := rfl
    cases as with
    | nil =>
      have h := ih (snprintf (snprintf (snprintf (snprintf (snprintf (snprintf (snprintf
        (snprintf w "\t\t\x7b\n")
        ("\t\t\"flow_source\": \"" ++ inet_ntoa_htonl a.flow_src ++ "\",\n"))
        ("\t\t\"src_int\": " ++ toString a.src_int ++ ",\n"))
        ("\t\t\"dst_int\": " ++ toString a.dst_int ++ ",\n"))
        ("\t\t\"num_packets\": " ++ toString a.num_packets ++ ",\n"))
        ("\t\t\"num_bytes\": " ++ toString a.num_bytes ++ ",\n"))
        ("\t\t\"num_flows\": " ++ toString a.num_flows ++ "\n")) "\t\t\x7d\n")
      simp only [print_sources, snprintf, String.length_append, List.length_cons,
        List.length_nil, e1, e2, e3, e4, e5, e6, e7, e8, e9, e10, e11] at h ⊢
      omega
    | cons b bs =>
      have h := ih (snprintf (snprintf (snprintf (snprintf (snprintf (snprintf (snprintf
        (snprintf w "\t\t\x7b\n")
        ("\t\t\"flow_source\": \"" ++ inet_ntoa_htonl a.flow_src ++ "\",\n"))
        ("\t\t\"src_int\": " ++ toString a.src_int ++ ",\n"))
        ("\t\t\"dst_int\": " ++ toString a.dst_int ++ ",\n"))
        ("\t\t\"num_packets\": " ++ toString a.num_packets ++ ",\n"))
        ("\t\t\"num_bytes\": " ++ toString a.num_bytes ++ ",\n"))
        ("\t\t\"num_flows\": " ++ toString a.num_flows ++ "\n")) "\t\t\x7d,\n")
      rw [print_sources]
      simp only [snprintf, String.length_append, List.length_cons,
        e1, e2, e3, e4, e5, e6, e7, e8, e9, e10, e12] at h ⊢
      omega

theorem print_flow_json_outindex (flow : flow_summary) :
    111 * flow.sources.length + 5 ≤ (print_flow_json flow).outindex ∧
    ∃ w : json_writer, 111 * flow.sources.length ≤ w.outindex ∧
      (print_flow_json flow).sizes = w.sizes ++ [(SENDBUFFSIZE : Int) - w.outindex - 1] := by
  have h := print_sources_outindex flow.sources (print_flow_fields flow)
  have e1 : ("\t]\n" : String).length = 3 := rfl
  have e2 : ("\x7d\n" : String).length = 2 := rfl
  constructor
  · simp only [print_flow_json, snprintf, e1, e2]
    omega
  · refine ⟨snprintf (print_sources (print_flow_fields flow) flow.sources) "\t]\n", ?_, rfl⟩
    simp only [snprintf, e1]
    omega

/-- The code at the failing input of C30: the summary stored after one flow
has been reported by 600 exporters has 600 source nodes; for it
`print_flow_json` ends with `outindex` above `SENDBUFFSIZE`, and passes a
negative size argument `SENDBUFFSIZE - outindex - 1` to `snprintf`. For the
summary of the single record `sample_flow` the index is 330. -/
theorem print_flow_json_overruns_outbuff :
    (∃ s, (ingest_all (collector_init []) (exporter_flows 600)).flow_hash_trees
          (record_tree sample_flow) = [s] ∧
      s.sources.length = 600 ∧
      SENDBUFFSIZE < (print_flow_json s).outindex ∧
      ∃ size ∈ (print_flow_json s).sizes, size < 0) ∧
    (print_flow_json (created_summary sample_flow)).outindex = 330 := by
  refine ⟨?_, by decide⟩
  obtain ⟨s, hs, _, _, hlen, _, _⟩ := exporter_flows_state 599
  obtain ⟨h1, w, h2, h3⟩ := print_flow_json_outindex s
  rw [hlen] at h1 h2
  have hlen' : s.sources.length = 600 := hlen
  refine ⟨s, by rw [hs], hlen', ?_, (SENDBUFFSIZE : Int) - w.outindex - 1, ?_, ?_⟩
  · unfold SENDBUFFSIZE
    omega
  · rw [h3]
    simp
  · unfold SENDBUFFSIZE
    omega


/-! ## The sweep and the output buffer -/

/-- The loop with the `print_flow_json` calls followed into `outbuff` ends as
the loop without them when every summary printed on the way stays inside the
buffer, and does not complete when one of them does not. -/
theorem janitor_while_print_spec (cur_time : Int) :
    ∀ (fuel : Nat) (s r : sweep_state), janitor_while cur_time fuel s = some r →
      ∃ printed, r.emitted = s.emitted ++ printed ∧
        ((∀ f ∈ printed, print_flow_json_fits f) →
          janitor_while_print cur_time fuel s = some r) ∧
        ((∃ f ∈ printed, ¬ print_flow_json_fits f) →
          janitor_while_print cur_time fuel s = none) := by
  intro fuel
  induction fuel with
  | zero =>
    intro s r h
    simp [janitor_while] at h
  | succ fuel ih =>
    intro s r h
    rw [janitor_while] at h
    rw [janitor_while_print]
    cases hfl : s.flow_last with
    | none =>
      simp only [hfl, Option.some.injEq] at h ⊢
      subst h
      exact ⟨[], by simp, fun _ => rfl, fun ⟨f, hf, _⟩ => absurd hf (List.not_mem_nil _)⟩
    | some fl =>
      simp only [hfl] at h ⊢
      by_cases hx : flow_expired cur_time fl
      · simp only [hx, if_true] at h ⊢
        cases hd : (pavl_delete compare_flows s.tree fl).2 with
        | none => rw [hd] at h; simp at h
        | some fl' =>
          simp only [hd] at h ⊢
          obtain ⟨printed, he, h1, h2⟩ := ih _ r h
          refine ⟨fl' :: printed, by simpa using he, ?_, ?_⟩
          · intro hall
            rw [if_pos (hall fl' (List.mem_cons_self _ _))]
            exact h1 (fun f hf => hall f (List.mem_cons_of_mem _ hf))
          · rintro ⟨f, hf, hnf⟩
            by_cases hfit : print_flow_json_fits fl'
            · rw [if_pos hfit]
              rcases List.mem_cons.1 hf with rfl | hf
              · exact absurd hfit hnf
              · exact h2 ⟨f, hf, hnf⟩
            · rw [if_neg hfit]
      · simp only [hx, if_false] at h ⊢
        exact ih _ r h

theorem janitor_sweep_print_spec (cur_time : Int) (tree : pavl_table flow_summary)
    (deleted : Nat) (r : sweep_state) (h : janitor_sweep cur_time tree deleted = some r) :
    ((∀ f ∈ r.emitted, print_flow_json_fits f) →
      janitor_sweep_print cur_time tree deleted = some r) ∧
    ((∃ f ∈ r.emitted, ¬ print_flow_json_fits f) →
      janitor_sweep_print cur_time tree deleted = none) := by
  obtain ⟨printed, he, h1, h2⟩ := janitor_while_print_spec cur_time _ _ r h
  simp only [List.nil_append] at he
  rw [he]
  exact ⟨h1, h2⟩

/-- One sweep of a flow tree by the janitor (the body of the `tree_num` loop
of `thread_flow_janitor`) at clock value `cur_time`, when `print_flow_json`
stays inside `outbuff` for every summary of the tree that the eviction test
selects: the sweep terminates, removes exactly the stored summaries with
`cur_time - time_updated > 60` or `cur_time - time_added > 300`, hands exactly
those to `print_flow_json`, each once and in tree order, counts them in
`deleted`, and leaves every other summary in the tree, unchanged. A summary
more than 300 seconds old is evicted however recent its update; one idle for
exactly 60 seconds and at most 300 seconds old is kept. -/
theorem janitor_sweep_print_run (cur_time : Int)
    (tree : pavl_table flow_summary) (deleted : Nat)
    (hord : tree.Pairwise (fun a b => compare_flows a b < 0))
    (hfit : ∀ f ∈ tree, (cur_time - f.time_updated > 60 ∨ cur_time - f.time_added > 300) →
      print_flow_json_fits f) :
    ∃ s, janitor_sweep_print cur_time tree deleted = some s ∧ s.flow_last = none ∧
      s.tree = tree.filter (fun f =>
        decide (¬ (cur_time - f.time_updated > 60 ∨ cur_time - f.time_added > 300))) ∧
      s.emitted = tree.filter (fun f =>
        decide (cur_time - f.time_updated > 60 ∨ cur_time - f.time_added > 300)) ∧
      s.emitted.Nodup ∧
      s.deleted = deleted + s.emitted.length ∧
      (∀ f ∈ tree, cur_time - f.time_added > 300 → f ∈ s.emitted ∧ f ∉ s.tree) ∧
      (∀ f ∈ tree, cur_time - f.time_updated = 60 → cur_time - f.time_added ≤ 300 →
        f ∈ s.tree ∧ f ∉ s.emitted) := by
  obtain ⟨s, hs, h1, h2, h3, h4⟩ := janitor_sweep_run cur_time tree deleted hord
  have hk : s.tree = tree.filter (fun f =>
      decide (¬ (cur_time - f.time_updated > 60 ∨ cur_time - f.time_added > 300))) := by
    rw [h2]
    apply List.filter_congr
    intro f _
    rw [decide_not]
    rfl
  have he : s.emitted = tree.filter (fun f =>
      decide (cur_time - f.time_updated > 60 ∨ cur_time - f.time_added > 300)) := by
    rw [h3]
    rfl
  have hp : janitor_sweep_print cur_time tree deleted = some s := by
    apply (janitor_sweep_print_spec cur_time tree deleted s hs).1
    intro f hf
    rw [he, List.mem_filter, decide_eq_true_eq] at hf
    exact hfit f hf.1 hf.2
  refine ⟨s, hp, h1, hk, he, ?_, ?_, ?_, ?_⟩
  · rw [he]
    exact (flow_tree_ordered_nodup hord).sublist (List.filter_sublist _)
  · rw [h4, h3]
  · intro f hf hage
    rw [he, hk]
    simp only [List.mem_filter, decide_eq_true_eq]
    exact ⟨⟨hf, Or.inr hage⟩, fun h => h.2 (Or.inr hage)⟩
  · intro f hf hidle hage
    rw [he, hk]
    simp only [List.mem_filter, decide_eq_true_eq]
    have hno : ¬ (cur_time - f.time_updated > 60 ∨ cur_time - f.time_added > 300) := by
      omega
    exact ⟨⟨hf, hno⟩, fun h => hno h.2⟩

/-- The sweep of `sample_tree` at second 1000: the summaries of the tree print
inside the buffer, the first and the third are evicted, the second is
kept. -/
theorem janitor_sweep_print_sample :
    ∃ s, janitor_sweep_print 1000 sample_tree 0 = some s ∧
      s.tree = [sample_summary 81 700 940] ∧
      s.emitted = [sample_summary 80 900 939, sample_summary 82 699 999] ∧
      s.deleted = 2 := by
  obtain ⟨s, hs, _, hk, he, _, hd, _, _⟩ :=
    janitor_sweep_print_run 1000 sample_tree 0 (by decide) (by decide)
  refine ⟨s, hs, hk.trans (by decide), he.trans (by decide), ?_⟩
  rw [hd, he]
  decide

/-- After records that were all received at second `t`, every stored summary
has `time_updated = t`. -/
theorem ingest_all_time_updated (ex : pavl_table exclude_node) (rs : List unified_flow)
    (t : Int) (ht : ∀ r ∈ rs, r.recv_time = t) :
    ∀ k, ∀ s ∈ (ingest_all (collector_init ex) rs).flow_hash_trees k, s.time_updated = t := by
  intro k s hs
  have hsum := (ingest_all_summaries ex rs).2.1 k s hs
  cases hm : merged_records ex (flow_identity s) rs with
  | nil => rw [hm] at hsum; simp [summary_of] at hsum
  | cons r l =>
    rw [hm] at hsum
    simp only [summary_of, Option.some.injEq] at hsum
    have hc : (created_summary r).time_updated = r.recv_time := by
      rw [created_summary_eq]
    have hu := foldl_merged_time_updated r l (created_summary r) hc
    rw [hsum] at hu
    rw [hu]
    have hmem : (r :: l).getLast (List.cons_ne_nil r l) ∈ merged_records ex (flow_identity s) rs := by
      rw [hm]
      exact List.getLast_mem _
    exact ht _ (mem_merged_records.1 hmem).1

/-- The loop does not get past an expired summary on which `print_flow_json`
leaves `outbuff`, however many iterations it is given. -/
theorem janitor_while_print_stops (cur_time : Int) (s : flow_summary)
    (hx : flow_expired cur_time s) (hfit : ¬ print_flow_json_fits s) :
    ∀ (fuel : Nat) (st : sweep_state), st.tree = [s] → st.flow_last = some s →
      janitor_while_print cur_time fuel st = none := by
  intro fuel st ht hl
  cases fuel with
  | zero => rfl
  | succ fuel =>
    have hdel : pavl_delete compare_flows [s] s = ([], some s) := by
      simp [pavl_delete, compare_flows_self]
    rw [janitor_while_print]
    simp only [hl, hx, if_true, ht, hdel, hfit, if_false]

/-- The code at the failing input of C1: the tree that holds the summary
stored after one flow has been reported by 600 exporters at second 1000,
swept at second 2000. The summary is expired (idle for 1000 seconds),
`pavl_delete` removes it and returns it, and `print_flow_json` on it leaves
`outbuff`; the loop does not complete, however many iterations it is given,
and neither does the sweep. -/
theorem janitor_sweep_stops_in_print_flow_json :
    ∃ s, (ingest_all (collector_init []) (exporter_flows 600)).flow_hash_trees
          (record_tree sample_flow) = [s] ∧
      s.sources.length = 600 ∧
      2000 - s.time_updated > 60 ∧
      pavl_delete compare_flows [s] s = ([], some s) ∧
      ¬ print_flow_json_fits s ∧
      (∀ fuel, janitor_while_print 2000 fuel
        { tree := [s], traverser := none, flow_last := some s, flow_cur := none,
          emitted := [], deleted := 0 } = none) ∧
      janitor_sweep_print 2000 [s] 0 = none := by
  obtain ⟨s, hs, _, _, hlen, _, _⟩ := exporter_flows_state 599
  have hlen' : s.sources.length = 600 := hlen
  have hs' : (ingest_all (collector_init []) (exporter_flows 600)).flow_hash_trees
      (record_tree sample_flow) = [s] := by rw [hs]
  have htime : s.time_updated = 1000 := by
    apply ingest_all_time_updated [] (exporter_flows 600) 1000 ?_ (record_tree sample_flow) s
    · rw [hs']
      exact List.mem_singleton_self s
    · intro r hr
      simp only [exporter_flows, List.mem_map] at hr
      obtain ⟨i, _, rfl⟩ := hr
      rfl
  have hx : flow_expired 2000 s := by
    left
    rw [htime]
    decide
  have hfit : ¬ print_flow_json_fits s := by
    intro hf
    have h1 := (print_flow_json_outindex s).1
    have h2 := hf.2
    rw [hlen'] at h1
    unfold SENDBUFFSIZE at h2
    omega
  refine ⟨s, hs', hlen', ?_, ?_, hfit, ?_, ?_⟩
  · rw [htime]
    decide
  · simp [pavl_delete, compare_flows_self]
  · intro fuel
    exact janitor_while_print_stops 2000 s hx hfit fuel _ rfl rfl
  · exact janitor_while_print_stops 2000 s hx hfit _ _ rfl rfl

end Flowtree
